import Mathlib

/-! # simpledb/file: typed page buffer and block file manager

A shallow embedding of `simpledb/file/file.go`.

Conventions of the embedding.

* A byte is a natural number below 256; a `[]byte` and a Go `string` are lists of bytes.
  Every store into a buffer made by the code writes a value reduced modulo 256.
* Go's `int`, `int32` and `int64` values are integers (`Int`); a conversion or an
  arithmetic operation that can wrap is written with the explicit wrapping function
  (`toInt32`, `toUint32`, `wrap64`).
* A run-time fault (an out-of-range slice expression, `make` with a negative length)
  is the result `none`; an operation that returns normally gives `some`.
* Offsets into a buffer are added exactly. A sum of `int`s that would wrap exceeds
  every buffer length, so the bounds check of the slice expression fails for the
  exact sum and for the wrapped one alike; lengths are below `2^62`.
* An `error` returned by a Go function is a value of type `Error`.
-/

namespace simpledb

/-! ## Machine integers -/

/-- Conversion `uint32(v)` of a signed value: the residue modulo 2^32. -/
def toUint32 (v : Int) : Nat := (v % 2 ^ 32).toNat

/-- Conversion `int32(u)`: the two's-complement reading of the low 32 bits. -/
def toInt32 (u : Int) : Int :=
  if u % 2 ^ 32 < 2 ^ 31 then u % 2 ^ 32 else u % 2 ^ 32 - 2 ^ 32

/-- Conversion `uint16(v)`: the residue modulo 2^16. -/
def toUint16 (v : Nat) : Nat := v % 2 ^ 16

/-- Wrapping of a mathematical result into the `int64` (and 64-bit `int`) range. -/
def wrap64 (v : Int) : Int :=
  if v % 2 ^ 64 < 2 ^ 63 then v % 2 ^ 64 else v % 2 ^ 64 - 2 ^ 64

/-! ## Slices and `encoding/binary` -/

/-- The bounds check of the slice expression `b[lo:hi]` on a buffer of capacity
`len b`: it faults unless `0 ≤ lo ≤ hi ≤ len b`. -/
def sliceOK (b : List Nat) (lo hi : Int) : Bool :=
  decide (0 ≤ lo) && decide (lo ≤ hi) && decide (hi ≤ (b.length : Int))

/-- The contents of the slice `b[lo:hi]`. -/
def slice (b : List Nat) (lo hi : Int) : Option (List Nat) :=
  if sliceOK b lo hi then some ((b.drop lo.toNat).take (hi - lo).toNat) else none

/-- Storing the bytes `bs` into the buffer from index `lo` on, as the element
assignments through a slice aliasing the buffer do. -/
def store (b : List Nat) (lo : Nat) (bs : List Nat) : List Nat :=
  b.take lo ++ bs ++ b.drop (lo + bs.length)

/-- The four bytes `binary.LittleEndian.PutUint32` assigns, lowest first. -/
def putUint32 (v : Nat) : List Nat :=
  [v % 256, v / 2 ^ 8 % 256, v / 2 ^ 16 % 256, v / 2 ^ 24 % 256]

/-- The value `binary.LittleEndian.Uint32` reads from the first four bytes. -/
def uint32 : List Nat → Option Nat
  | b0 :: b1 :: b2 :: b3 :: _ => some (b0 + b1 * 2 ^ 8 + b2 * 2 ^ 16 + b3 * 2 ^ 24)
  | _ => none

/-- The two bytes `binary.LittleEndian.PutUint16` assigns, lowest first. -/
def putUint16 (v : Nat) : List Nat :=
  [v % 256, v / 2 ^ 8 % 256]

/-- The value `binary.LittleEndian.Uint16` reads from the first two bytes. -/
def uint16 : List Nat → Option Nat
  | b0 :: b1 :: _ => some (b0 + b1 * 2 ^ 8)
  | _ => none

/-! ## Page -/

/-- Constant `int32bites`. -/
abbrev int32bites : Int := 4

/-- Constant `utf16size`. -/
abbrev utf16size : Int := 2

/-- Type `Page`: the byte buffer. Its length and capacity coincide, as `NewPage`
is the only constructor. -/
structure Page where
  buffer : List Nat
deriving DecidableEq, Repr

/-- Function `NewPage`: `make([]byte, blockSize)` faults on a negative size and
otherwise gives a zero-filled buffer. -/
def NewPage (blockSize : Int) : Option Page :=
  if 0 ≤ blockSize then some ⟨List.replicate blockSize.toNat 0⟩ else none

/-- Method `Page.GetInt`. -/
def Page.GetInt (p : Page) (offset : Int) : Option Int :=
  (slice p.buffer offset (offset + int32bites)).bind fun b =>
    (uint32 b).map fun u => toInt32 u

/-- Method `Page.SetInt`. -/
def Page.SetInt (p : Page) (offset : Int) (value : Int) : Option Page :=
  if sliceOK p.buffer offset (offset + int32bites) then
    some ⟨store p.buffer offset.toNat (putUint32 (toUint32 value))⟩
  else none

/-- Method `Page.GetBytes`. -/
def Page.GetBytes (p : Page) (offset : Int) : Option (List Nat) :=
  (p.GetInt offset).bind fun length =>
    slice p.buffer (offset + int32bites) (offset + int32bites + length)

/-- Method `Page.SetBytes`: the prefix is stored first, then `copy` fills the
destination slice (of exactly `len(bytes)` bytes) with the source. -/
def Page.SetBytes (p : Page) (offset : Int) (bytes : List Nat) : Option Page :=
  (p.SetInt offset (toInt32 bytes.length)).bind fun p1 =>
    if sliceOK p1.buffer (offset + int32bites) (offset + int32bites + bytes.length) then
      some ⟨store p1.buffer (offset + int32bites).toNat bytes⟩
    else none

/-- Method `Page.getUint16`. -/
def Page.getUint16 (p : Page) (offset : Int) : Option Nat :=
  (slice p.buffer offset (offset + utf16size)).bind uint16

/-- Method `Page.setUint16`. -/
def Page.setUint16 (p : Page) (offset : Int) (value : Nat) : Option Page :=
  if sliceOK p.buffer offset (offset + utf16size) then
    some ⟨store p.buffer offset.toNat (putUint16 value)⟩
  else none

/-! ## UTF-8 and UTF-16 conversions of the Go runtime and of `unicode/utf16`

A rune in this pipeline is never negative, so runes are natural numbers. The bit
operations of the library are written arithmetically: `x & 0x3F` is `x % 64`,
`x << 6` is `x * 64`, and `a | b` on disjoint bit ranges is `a + b`. -/

/-- Constant `utf8.RuneError` (also `replacementChar` of `unicode/utf16`), U+FFFD. -/
abbrev RuneError : Nat := 0xFFFD

/-- Tables `first` and `acceptRanges` of `unicode/utf8` for a lead byte at or above
0x80: the sequence length and the admissible range of the second byte, and `none`
for a byte that cannot start a sequence. -/
def leadInfo (p0 : Nat) : Option (Nat × Nat × Nat) :=
  if 0xC2 ≤ p0 ∧ p0 ≤ 0xDF then some (2, 0x80, 0xBF)
  else if p0 = 0xE0 then some (3, 0xA0, 0xBF)
  else if 0xE1 ≤ p0 ∧ p0 ≤ 0xEC then some (3, 0x80, 0xBF)
  else if p0 = 0xED then some (3, 0x80, 0x9F)
  else if 0xEE ≤ p0 ∧ p0 ≤ 0xEF then some (3, 0x80, 0xBF)
  else if p0 = 0xF0 then some (4, 0x90, 0xBF)
  else if 0xF1 ≤ p0 ∧ p0 ≤ 0xF3 then some (4, 0x80, 0xBF)
  else if p0 = 0xF4 then some (4, 0x80, 0x8F)
  else none

/-- A continuation byte, in `[locb, hicb]`. -/
def isCont (b : Nat) : Bool := decide (0x80 ≤ b) && decide (b ≤ 0xBF)

/-- Function `utf8.DecodeRuneInString`, with a third component telling whether a
well-formed sequence was read (the library returns `(RuneError, 1)` or
`(RuneError, 0)` exactly when it was not). The conversion `[]rune(s)` of the runtime
decodes in the same way: an ill-formed byte gives U+FFFD and a width of one. Result:
rune, width, well-formed. -/
def decodeRune : List Nat → Nat × Nat × Bool
  | [] => (RuneError, 0, false)
  | p0 :: t =>
    if p0 < 0x80 then (p0, 1, true)
    else
      match leadInfo p0 with
      | none => (RuneError, 1, false)
      | some (sz, lo, hi) =>
        if t.length + 1 < sz then (RuneError, 1, false)
        else
          match t with
          | [] => (RuneError, 1, false)
          | b1 :: t1 =>
            if b1 < lo ∨ hi < b1 then (RuneError, 1, false)
            else if sz ≤ 2 then (p0 % 32 * 64 + b1 % 64, 2, true)
            else
              match t1 with
              | [] => (RuneError, 1, false)
              | b2 :: t2 =>
                if !isCont b2 then (RuneError, 1, false)
                else if sz ≤ 3 then (p0 % 16 * 4096 + b1 % 64 * 64 + b2 % 64, 3, true)
                else
                  match t2 with
                  | [] => (RuneError, 1, false)
                  | b3 :: _ =>
                    if !isCont b3 then (RuneError, 1, false)
                    else (p0 % 8 * 262144 + b1 % 64 * 4096 + b2 % 64 * 64 + b3 % 64, 4, true)

/-- The loop of the conversion `[]rune(s)`: decode a rune, advance by its width. The
first argument bounds the number of iterations; `len s` always suffices because
every iteration on a non-empty rest advances by at least one byte. -/
def runesFrom : Nat → List Nat → List Nat
  | 0, _ => []
  | _ + 1, [] => []
  | fuel + 1, p0 :: t =>
    (decodeRune (p0 :: t)).1 :: runesFrom fuel ((p0 :: t).drop (decodeRune (p0 :: t)).2.1)

/-- Conversion `[]rune(s)` of a string. -/
def stringToRunes (s : List Nat) : List Nat := runesFrom s.length s

/-- The loop of `utf8.ValidString`. -/
def validFrom : Nat → List Nat → Bool
  | 0, s => s.isEmpty
  | _ + 1, [] => true
  | fuel + 1, p0 :: t =>
    (decodeRune (p0 :: t)).2.2 && validFrom fuel ((p0 :: t).drop (decodeRune (p0 :: t)).2.1)

/-- Function `utf8.ValidString`: the string is well-formed UTF-8. -/
def ValidString (s : List Nat) : Bool := validFrom s.length s

/-- The UTF-8 encoding of one rune, as `utf8.AppendRune` (used by the conversion
`string(runes)`) produces it; a surrogate or a value above U+10FFFF is encoded as
U+FFFD. -/
def encodeRune (r : Nat) : List Nat :=
  if r ≤ 0x7F then [r]
  else if r ≤ 0x7FF then [0xC0 + r / 64, 0x80 + r % 64]
  else if 0x10FFFF < r ∨ (0xD800 ≤ r ∧ r ≤ 0xDFFF) then [0xEF, 0xBF, 0xBD]
  else if r ≤ 0xFFFF then [0xE0 + r / 4096, 0x80 + r / 64 % 64, 0x80 + r % 64]
  else [0xF0 + r / 262144, 0x80 + r / 4096 % 64, 0x80 + r / 64 % 64, 0x80 + r % 64]

/-- Conversion `string(runes)`. -/
def runesToString : List Nat → List Nat
  | [] => []
  | r :: rs => encodeRune r ++ runesToString rs

/-- The code units `utf16.Encode` emits for one rune: the rune itself when
`utf16.RuneLen` is 1, the high then the low surrogate of `utf16.EncodeRune` when it
is 2, and U+FFFD otherwise. -/
def utf16EncodeRune (v : Nat) : List Nat :=
  if v < 0xD800 ∨ (0xE000 ≤ v ∧ v < 0x10000) then [toUint16 v]
  else if 0x10000 ≤ v ∧ v ≤ 0x10FFFF then
    [toUint16 (0xD800 + (v - 0x10000) / 1024 % 1024), toUint16 (0xDC00 + (v - 0x10000) % 1024)]
  else [toUint16 RuneError]

/-- Function `utf16.Encode`. -/
def utf16Encode : List Nat → List Nat
  | [] => []
  | v :: vs => utf16EncodeRune v ++ utf16Encode vs

/-- Function `utf16.Decode`: a high surrogate followed by a low one is combined, any
other surrogate becomes U+FFFD, every other unit is its own rune. -/
def utf16Decode : List Nat → List Nat
  | [] => []
  | [r] => if r < 0xD800 ∨ 0xE000 ≤ r then [r] else [RuneError]
  | r :: r2 :: rest =>
    if r < 0xD800 ∨ 0xE000 ≤ r then r :: utf16Decode (r2 :: rest)
    else if 0xD800 ≤ r ∧ r < 0xDC00 ∧ 0xDC00 ≤ r2 ∧ r2 < 0xE000 then
      ((r - 0xD800) * 1024 + (r2 - 0xDC00) + 0x10000) :: utf16Decode rest
    else RuneError :: utf16Decode (r2 :: rest)

/-- A Unicode scalar value: a code point that is not a surrogate. -/
def isScalar (r : Nat) : Prop := r < 0xD800 ∨ (0xE000 ≤ r ∧ r ≤ 0x10FFFF)

/-! ## String accessors of the page -/

/-- The loop of `Page.GetString`: read `count` code units, the `i`-th at
`offset + int32bites + i*utf16size`. -/
def Page.getUnits (p : Page) (offset : Int) : Nat → Nat → Option (List Nat)
  | _, 0 => some []
  | i, count + 1 =>
    (p.getUint16 (offset + int32bites + (i : Int) * utf16size)).bind fun u =>
      (Page.getUnits p offset (i + 1) count).map fun us => u :: us

/-- Method `Page.GetString`. The division is Go's, truncating toward zero, and
`make([]uint16, length)` faults on a negative length. -/
def Page.GetString (p : Page) (offset : Int) : Option (List Nat) :=
  (p.GetInt offset).bind fun v =>
    let length := Int.tdiv v utf16size
    if length < 0 then none
    else (p.getUnits offset 0 length.toNat).map fun runes => runesToString (utf16Decode runes)

/-- The loop of `Page.SetString`: store the code units, the `i`-th at
`offset + int32bites + utf16size*i`. -/
def Page.setUnits (offset : Int) : Nat → List Nat → Page → Option Page
  | _, [], p => some p
  | i, u :: us, p =>
    (p.setUint16 (offset + int32bites + utf16size * (i : Int)) u).bind fun p1 =>
      Page.setUnits offset (i + 1) us p1

/-- The bytes the loop of `Page.SetString` stores for a sequence of code units: each
unit as `binary.LittleEndian.PutUint16` lays it out. -/
def unitBytes : List Nat → List Nat
  | [] => []
  | u :: us => putUint16 u ++ unitBytes us

/-- The UTF-16 code units of a string, `utf16.Encode([]rune(value))`. -/
def codeUnits (value : List Nat) : List Nat := utf16Encode (stringToRunes value)

/-- The layout of a string in the page: the four bytes of the prefix, which holds the
`int32` conversion of twice the number of code units, then the bytes of the code
units. -/
def stringBytes (value : List Nat) : List Nat :=
  putUint32 (toUint32 (toInt32 (((codeUnits value).length : Int) * 2))) ++
    unitBytes (codeUnits value)

/-- Method `Page.SetString`. The prefix is `int32(len(runes)*utf16size)`; the `int32`
conversion of the 64-bit product is that of the exact product. -/
def Page.SetString (p : Page) (offset : Int) (value : List Nat) : Option Page :=
  (p.SetInt offset (toInt32 ((codeUnits value).length * utf16size))).bind fun p1 =>
    Page.setUnits offset 0 (codeUnits value) p1

/-- Function `MaxLength`, on the 64-bit `int`. -/
def MaxLength (length : Int) : Int :=
  wrap64 (int32bites + wrap64 (utf16size * length))


/-! ## Errors -/

deriving instance DecidableEq for Except

/-- The failures of the operating system calls the model distinguishes (`EOF` is
`io.EOF`). -/
inductive OSError where
  | ENOENT
  | ENOTDIR
  | EISDIR
  | ENAMETOOLONG
  | ENOTEMPTY
  | EINVAL
  | EBADF
  | EOF
deriving DecidableEq, Repr

/-- A Go `error`: a failure of the operating system, or `fmt.Errorf("ctx: %w", err)`. -/
inductive Error where
  | os (e : OSError)
  | wrap (ctx : String) (e : Error)
deriving DecidableEq, Repr

/-! ## The file system

The model is a POSIX file system seen by one process: directories with named
entries, regular files held by inode, open file descriptions with a file offset, and
the working directory. A directory is named by the list of the elements of its
absolute clean path; the root directory is the empty list. There are no symbolic
links, and a name of more than `nameMax` bytes is refused. Permission failures, media failures, storage limits and the limit
on the length of a whole path are outside the model. One `Read` call transfers the bytes
available up to the length asked for and up to `maxRW` bytes; a `Write` call stores all
its bytes (its loop over the transfers is inside `os`). -/

/-- A directory, by the components of its absolute path. -/
abbrev DirPath := List String

/-- A directory entry: a regular file (its inode) or a subdirectory. -/
inductive Node where
  | file (ino : Nat)
  | dir
deriving DecidableEq, Repr

/-- An open file description: the inode and the file offset. -/
structure OpenFile where
  ino : Nat
  pos : Int
deriving DecidableEq, Repr

/-- The state of the file system and of the process. An `*os.File` is an index into
`opens`. -/
structure World where
  cwd : DirPath
  dirs : List (DirPath × List (String × Node))
  inodes : List (List Nat)
  opens : List OpenFile
deriving DecidableEq, Repr

/-- The entries of a directory, in the order `os.ReadDir` lists them. -/
def World.entries (w : World) (d : DirPath) : Option (List (String × Node)) :=
  w.dirs.lookup d

/-- Replace the entries of directory `d`. -/
def World.setEntries (w : World) (d : DirPath) (es : List (String × Node)) : World :=
  { w with dirs := w.dirs.map fun r => if r.1 = d then (r.1, es) else r }

/-- One step of `os.MkdirAll`: make directory `name` under `parent` unless it exists. -/
def World.mkdir (w : World) (parent : DirPath) (name : String) : World :=
  match w.entries (parent ++ [name]) with
  | some _ => w
  | none =>
    let w1 := w.setEntries parent ((w.entries parent).getD [] ++ [(name, Node.dir)])
    { w1 with dirs := w1.dirs ++ [(parent ++ [name], [])] }

/-- Function `os.MkdirAll`: make every missing directory along the path. -/
def World.mkdirAll (w : World) : DirPath → List String → World
  | _, [] => w
  | done, name :: rest => World.mkdirAll (w.mkdir done name) (done ++ [name]) rest

/-- Function `os.Remove` on a bare entry name: the name is resolved against the
working directory; a regular file is unlinked, a directory is removed when empty. -/
def World.remove (w : World) (name : String) : World × Option OSError :=
  match w.entries w.cwd with
  | none => (w, some OSError.ENOENT)
  | some es =>
    match es.lookup name with
    | none => (w, some OSError.ENOENT)
    | some (Node.file _) => (w.setEntries w.cwd (es.filter fun e => e.1 != name), none)
    | some Node.dir =>
      match w.entries (w.cwd ++ [name]) with
      | some (_ :: _) => (w, some OSError.ENOTEMPTY)
      | _ =>
        let w1 := w.setEntries w.cwd (es.filter fun e => e.1 != name)
        ({ w1 with dirs := w1.dirs.filter fun r => r.1 != w.cwd ++ [name] }, none)

/-- The elements of a slash-separated path, the empty ones included. -/
def splitPath : List Char → List (List Char)
  | [] => [[]]
  | c :: cs =>
    if c = '/' then [] :: splitPath cs
    else
      match splitPath cs with
      | [] => [[c]]
      | e :: es => (c :: e) :: es

/-- One element met by `path.Clean` on a relative path: an empty element and "." are
dropped, ".." removes the element before it, or is kept in front when there is none,
any other element is kept. The state is the number of ".." kept and the elements kept. -/
def cleanStep (st : Nat × List String) (e : List Char) : Nat × List String :=
  if e = [] ∨ e = ['.'] then st
  else if e = ['.', '.'] then
    (if st.2 = [] then (st.1 + 1, []) else (st.1, st.2.dropLast))
  else (st.1, st.2 ++ [String.mk e])

/-- Function `path.Clean` on a relative path: the number of leading ".." elements of the
result and the elements after them. -/
def cleanName (name : String) : Nat × List String :=
  (splitPath name.data).foldl cleanStep (0, [])

/-- Function `path.Join(dir, name)` for a clean absolute `dir`: each leading ".." of the
cleaned `name` removes the last element of `dir` (none at the root), and the other
elements follow. -/
def pathJoin (dir : DirPath) (name : String) : DirPath :=
  dir.take (dir.length - (cleanName name).1) ++ (cleanName name).2

/-- Whether the string holds a NUL byte, which no path handed to the system may. -/
def hasNul (s : String) : Bool := s.data.contains (Char.ofNat 0)

/-- The longest name of a directory entry, in bytes (`NAME_MAX`). -/
def nameMax : Nat := 255

/-- Whether the name is too long for a directory entry. -/
def tooLong (s : String) : Bool := decide (nameMax < s.utf8ByteSize)

/-- Whether a file name is one plain path element: not empty, not "." or "..", without
a slash or a NUL byte, and of at most `nameMax` bytes. -/
def plainName (name : String) : Bool :=
  !name.data.contains '/' && !hasNul name && name.data != [] && name.data != ['.'] &&
    name.data != ['.', '.'] && !tooLong name

/-- Whether the path names a regular file. -/
def World.isFile (w : World) (p : DirPath) : Bool :=
  match p.getLast? with
  | none => false
  | some base =>
    match w.entries p.dropLast with
    | none => false
    | some es =>
      match es.lookup base with
      | some (Node.file _) => true
      | _ => false

/-- The failure of a lookup that finds nothing at path `p`. The first element on the
way that is not a directory decides: `ENAMETOOLONG` when its name is too long, `ENOTDIR`
when it is a regular file, `ENOENT` otherwise. -/
def World.missing (w : World) (p : DirPath) : OSError :=
  match p.inits.find? (fun q => q != [] && (w.entries q).isNone) with
  | none => OSError.ENOENT
  | some q =>
    match q.getLast? with
    | none => OSError.ENOENT
    | some e =>
      if tooLong e then OSError.ENAMETOOLONG
      else if w.isFile q then OSError.ENOTDIR
      else OSError.ENOENT

/-- Function `os.Stat`, as far as its error goes. -/
def World.stat (w : World) (p : DirPath) : Option OSError :=
  if p = [] ∨ (w.entries p).isSome = true ∨ w.isFile p = true then none else some (w.missing p)

/-- Function `os.OpenFile(path.Join(dir, name), os.O_RDWR|os.O_CREATE, 0o600)`: open
the regular file at the joined path, creating it empty when its directory exists and
has no such entry. A path with a NUL byte is refused, a path that names a directory
(the root, `dir` itself for an empty name) cannot be opened for writing, and nothing is
created when the directory of the file does not exist or the name is too long. The
result carries the new open file description's index. -/
def World.openFile (w : World) (dir : DirPath) (name : String) : Except OSError (World × Nat) :=
  if (cleanName name).2.any hasNul then Except.error OSError.EINVAL
  else
    match (pathJoin dir name).getLast? with
    | none => Except.error OSError.EISDIR
    | some base =>
      match w.entries (pathJoin dir name).dropLast with
      | none =>
        Except.error (if (w.entries (pathJoin dir name)).isSome then OSError.EISDIR
          else w.missing (pathJoin dir name))
      | some es =>
        if tooLong base then Except.error OSError.ENAMETOOLONG
        else
          match es.lookup base with
          | some Node.dir => Except.error OSError.EISDIR
          | some (Node.file ino) =>
            Except.ok ({ w with opens := w.opens ++ [⟨ino, 0⟩] }, w.opens.length)
          | none =>
            let w1 := w.setEntries (pathJoin dir name).dropLast
              (es ++ [(base, Node.file w.inodes.length)])
            Except.ok ({ w1 with inodes := w.inodes ++ [[]],
                                  opens := w.opens ++ [⟨w.inodes.length, 0⟩] }, w.opens.length)

/-- Method `(*os.File).Seek(offset, 0)`: set the file offset; a negative offset is
refused. -/
def World.seek (w : World) (h : Nat) (offset : Int) : World × Except OSError Int :=
  match w.opens[h]? with
  | none => (w, Except.error OSError.EBADF)
  | some f =>
    if offset < 0 then (w, Except.error OSError.EINVAL)
    else ({ w with opens := w.opens.set h ⟨f.ino, offset⟩ }, Except.ok offset)

/-- The most bytes one transfer of `(*os.File).Read` moves: constant `maxRW` of
`internal/poll`, `1 << 30`. -/
def maxRW : Nat := 2 ^ 30

/-- Method `(*os.File).Read(b)`: with an empty `b` it returns `0, nil`; otherwise it
makes one transfer: it copies the bytes available from the file offset, at most `len b`
and at most `maxRW`, to the front of `b` and advances the offset, and returns
`0, io.EOF` when none is available. Result: the world, the buffer, the count and the
error. -/
def World.read (w : World) (h : Nat) (b : List Nat) : World × List Nat × Nat × Option OSError :=
  match w.opens[h]? with
  | none => (w, b, 0, some OSError.EBADF)
  | some f =>
    match w.inodes[f.ino]? with
    | none => (w, b, 0, some OSError.EBADF)
    | some data =>
      if b.length = 0 then (w, b, 0, none)
      else
        let chunk := (data.drop f.pos.toNat).take (min b.length maxRW)
        if chunk.length = 0 then (w, b, 0, some OSError.EOF)
        else
          let f1 : OpenFile := ⟨f.ino, f.pos + chunk.length⟩
          ({ w with opens := w.opens.set h f1 }, store b 0 chunk, chunk.length, none)

/-- The bytes of a file of contents `data` after `b` is written at offset `pos`:
nothing changes for an empty `b`; otherwise the file is first extended with zero
bytes up to the end of the range when it is shorter. -/
def writtenData (data : List Nat) (pos : Nat) (b : List Nat) : List Nat :=
  if b.length = 0 then data
  else store (data ++ List.replicate (pos + b.length - data.length) 0) pos b

/-- Method `(*os.File).Write(b)`: store all of `b` at the file offset, the file being
extended (a gap reads as zero bytes) when the range ends beyond its length, and
advance the offset. Result: the world, the count and the error. -/
def World.write (w : World) (h : Nat) (b : List Nat) : World × Nat × Option OSError :=
  match w.opens[h]? with
  | none => (w, 0, some OSError.EBADF)
  | some f =>
    match w.inodes[f.ino]? with
    | none => (w, 0, some OSError.EBADF)
    | some data =>
      let f1 : OpenFile := ⟨f.ino, f.pos + b.length⟩
      ({ w with inodes := w.inodes.set f.ino (writtenData data f.pos.toNat b),
                opens := w.opens.set h f1 }, b.length, none)

/-! ## File manager -/

/-- Type `BlockID`. -/
structure BlockID where
  fileName : String
  blkNum : Int
deriving DecidableEq, Repr

/-- Function `NewBlockID`. -/
def NewBlockID (fileName : String) (blkNum : Int) : BlockID := ⟨fileName, blkNum⟩

/-- Type `FileManager`; the map `files` is an association list from file name to
the index of the open file description. -/
structure FileManager where
  dbDir : DirPath
  blockSize : Int
  files : List (String × Nat)
deriving DecidableEq, Repr

/-- Function `strings.HasPrefix`. -/
def HasPrefix (s pre : String) : Bool := pre.data.isPrefixOf s.data

/-- The loop of `NewFileManager` over the listed entries: every entry whose name
starts with "temp" is passed, by its bare name, to `os.Remove`; the first failure
ends the construction. -/
def removeTemps (w : World) : List (String × Node) → World × Option Error
  | [] => (w, none)
  | file :: rest =>
    if !HasPrefix file.1 "temp" then removeTemps w rest
    else
      match w.remove file.1 with
      | (w1, some e) => (w1, some (Error.wrap "os.Remove" (Error.os e)))
      | (w1, none) => removeTemps w1 rest

/-- The part of `NewFileManager` from `os.ReadDir` on: the listing fails on a `dbDir`
that is not a directory; otherwise the temporary entries are removed and the manager
is made. -/
def listAndRemove (w1 : World) (dbDir : DirPath) (blockSize : Int) :
    World × Except Error FileManager :=
  match w1.entries dbDir with
  | none =>
    (w1, Except.error (Error.wrap "os.ReadDir"
      (Error.os (if w1.isFile dbDir then OSError.ENOTDIR else OSError.ENOENT))))
  | some files =>
    match removeTemps w1 files with
    | (w2, some e) => (w2, Except.error e)
    | (w2, none) => (w2, Except.ok ⟨dbDir, blockSize, []⟩)

/-- Function `NewFileManager`. `os.MkdirAll` runs only when `os.Stat` reports that
nothing exists at `dbDir`; any other failure of `os.Stat` ends the construction. -/
def NewFileManager (w : World) (dbDir : DirPath) (blockSize : Int) :
    World × Except Error FileManager :=
  match w.stat dbDir with
  | some OSError.ENOENT => listAndRemove (w.mkdirAll [] dbDir) dbDir blockSize
  | some e => (w, Except.error (Error.wrap "os.Stat" (Error.os e)))
  | none => listAndRemove w dbDir blockSize

/-- Method `FileManager.BlockSize`. -/
def FileManager.BlockSize (fm : FileManager) : Int := fm.blockSize

/-- Method `FileManager.openFile`. Result: the world, the manager and the handle or
the error. -/
def FileManager.openFile (fm : FileManager) (w : World) (fileName : String) :
    World × FileManager × Except Error Nat :=
  match fm.files.lookup fileName with
  | some file => (w, fm, Except.ok file)
  | none =>
    match w.openFile fm.dbDir fileName with
    | Except.error e => (w, fm, Except.error (Error.wrap "os.OpenFile" (Error.os e)))
    | Except.ok (w1, file) => (w1, { fm with files := (fileName, file) :: fm.files }, Except.ok file)

/-- The outcome of `FileManager.Read` and `FileManager.Write`: the state they leave
and the error they return (`none` for `nil`). -/
structure Outcome where
  world : World
  fm : FileManager
  page : Page
  err : Option Error
deriving DecidableEq, Repr

/-- Method `FileManager.Read`. The offset is the `int64` product. -/
def FileManager.Read (fm : FileManager) (w : World) (blockID : BlockID) (page : Page) : Outcome :=
  match fm.openFile w blockID.fileName with
  | (w1, fm1, Except.error e) => ⟨w1, fm1, page, some (Error.wrap "fm.openFile" e)⟩
  | (w1, fm1, Except.ok file) =>
    match w1.seek file (wrap64 (blockID.blkNum * fm.blockSize)) with
    | (w2, Except.error e) => ⟨w2, fm1, page, some (Error.wrap "file.Seek" (Error.os e))⟩
    | (w2, Except.ok _) =>
      match w2.read file page.buffer with
      | (w3, b, _, some e) => ⟨w3, fm1, ⟨b⟩, some (Error.wrap "file.Read" (Error.os e))⟩
      | (w3, b, _, none) => ⟨w3, fm1, ⟨b⟩, none⟩

/-- Method `FileManager.Write`. The offset is the `int64` product; a failed transfer
is reported under the context "file.Read", as in the source. -/
def FileManager.Write (fm : FileManager) (w : World) (blockID : BlockID) (page : Page) : Outcome :=
  match fm.openFile w blockID.fileName with
  | (w1, fm1, Except.error e) => ⟨w1, fm1, page, some (Error.wrap "fm.openFile" e)⟩
  | (w1, fm1, Except.ok file) =>
    match w1.seek file (wrap64 (blockID.blkNum * fm.blockSize)) with
    | (w2, Except.error e) => ⟨w2, fm1, page, some (Error.wrap "file.Seek" (Error.os e))⟩
    | (w2, Except.ok _) =>
      match w2.write file page.buffer with
      | (w3, _, some e) => ⟨w3, fm1, page, some (Error.wrap "file.Read" (Error.os e))⟩
      | (w3, _, none) => ⟨w3, fm1, page, none⟩

/-- The bytes of the file the manager holds open under `name`: those of the inode of
the cached handle. -/
def FileManager.fileBytes (fm : FileManager) (w : World) (name : String) : Option (List Nat) :=
  (fm.files.lookup name).bind fun h => (w.opens[h]?).bind fun f => w.inodes[f.ino]?

/-- The bytes of the regular file at `path.Join(dir, name)`, when there is one. -/
def World.fileData (w : World) (dir : DirPath) (name : String) : Option (List Nat) :=
  match (pathJoin dir name).getLast? with
  | none => none
  | some base =>
    match w.entries (pathJoin dir name).dropLast with
    | none => none
    | some es =>
      match es.lookup base with
      | some (Node.file ino) => w.inodes[ino]?
      | _ => none

/-- The bytes the file `name` holds for the manager before a call: those of the inode
of the cached handle when the name is cached, otherwise those of the file at the path
`openFile` opens, and none for an absent file, which `openFile` creates empty. -/
def FileManager.priorBytes (fm : FileManager) (w : World) (name : String) : List Nat :=
  match fm.fileBytes w name with
  | some d => d
  | none => (w.fileData fm.dbDir name).getD []

/-- Whether directory `dir` has an entry called `name`. -/
def World.hasEntry (w : World) (dir : DirPath) (name : String) : Bool :=
  match w.entries dir with
  | none => false
  | some es => (es.lookup name).isSome

/-! ## Two callers of `Write`

Two callers run `FileManager.Write` on the same manager. Each runs the three statements
of the method in order, `openFile`, `Seek` and the transfer, and a schedule says which
caller runs its next statement. The code takes no lock, so every schedule is possible. -/

/-- A caller inside `FileManager.Write`: its arguments, the statement it is about to
run (0 `openFile`, 1 `Seek`, 2 the transfer, 3 returned), its local variable `file` and
the error it returned. -/
structure Caller where
  blockID : BlockID
  page : Page
  pc : Nat
  file : Nat
  err : Option Error
deriving DecidableEq, Repr

/-- The state the callers share: the file system and the manager. -/
structure Shared where
  world : World
  fm : FileManager
deriving DecidableEq, Repr

/-- A caller entering `FileManager.Write`. -/
def Caller.start (blockID : BlockID) (page : Page) : Caller := ⟨blockID, page, 0, 0, none⟩

/-- The next statement of `FileManager.Write`, run by a caller on the shared state. -/
def Caller.step (c : Caller) (s : Shared) : Caller × Shared :=
  match c.pc with
  | 0 =>
    match s.fm.openFile s.world c.blockID.fileName with
    | (w1, fm1, Except.error e) =>
      (⟨c.blockID, c.page, 3, c.file, some (Error.wrap "fm.openFile" e)⟩, ⟨w1, fm1⟩)
    | (w1, fm1, Except.ok file) => (⟨c.blockID, c.page, 1, file, none⟩, ⟨w1, fm1⟩)
  | 1 =>
    match s.world.seek c.file (wrap64 (c.blockID.blkNum * s.fm.blockSize)) with
    | (w2, Except.error e) =>
      (⟨c.blockID, c.page, 3, c.file, some (Error.wrap "file.Seek" (Error.os e))⟩, ⟨w2, s.fm⟩)
    | (w2, Except.ok _) => (⟨c.blockID, c.page, 2, c.file, none⟩, ⟨w2, s.fm⟩)
  | 2 =>
    match s.world.write c.file c.page.buffer with
    | (w3, _, some e) =>
      (⟨c.blockID, c.page, 3, c.file, some (Error.wrap "file.Read" (Error.os e))⟩, ⟨w3, s.fm⟩)
    | (w3, _, none) => (⟨c.blockID, c.page, 3, c.file, none⟩, ⟨w3, s.fm⟩)
  | _ => (c, s)

/-- Two callers, named by a boolean, and the state they share. -/
structure Sys where
  caller : Bool → Caller
  shared : Shared

/-- Two callers entering `Write` on the same manager: caller `false` with the first
block and page, caller `true` with the second. -/
def Sys.start (fm : FileManager) (w : World) (blkA : BlockID) (pageA : Page) (blkB : BlockID)
    (pageB : Page) : Sys :=
  ⟨fun i => if i then Caller.start blkB pageB else Caller.start blkA pageA, ⟨w, fm⟩⟩

/-- One step of the system: caller `who` runs its next statement. -/
def Sys.step (s : Sys) (who : Bool) : Sys :=
  ⟨fun i => if i = who then ((s.caller who).step s.shared).1 else s.caller i,
    ((s.caller who).step s.shared).2⟩

/-- The statement a caller is about to run after one more step. -/
def nextPc (pc : Nat) : Nat := if pc < 3 then pc + 1 else pc

/-- The world of the test: the directories "/work", the working directory, and "/db",
the root directory of the manager, both empty. -/
def testWorld : World :=
  ⟨["work"], [([], [("work", Node.dir), ("db", Node.dir)]), (["work"], []), (["db"], [])], [], []⟩

/-- The string "qwerty". -/
def qwerty : List Nat := [0x71, 0x77, 0x65, 0x72, 0x74, 0x79]

/-- The page of the test before it is written: 400 bytes, "qwerty" at offset 88 and
606 at offset 104. -/
def scenarioPage : Page :=
  ⟨store (store (List.replicate 400 0) 88 (stringBytes qwerty)) 104 (putUint32 606)⟩

/-- A manager of block size 4 on the root directory of `testWorld`, nothing cached. -/
def testManager : FileManager := ⟨["db"], 4, []⟩

/-- A world whose root directory holds the one-byte file "f" and, next to it, the
entries "tempLeftover" and "keep"; the working directory is another, empty one. -/
def leftoverWorld : World :=
  ⟨["work"],
    [([], [("work", Node.dir), ("db", Node.dir)]), (["work"], []),
      (["db"], [("f", Node.file 0), ("keep", Node.file 1), ("tempLeftover", Node.file 2)])],
    [[7], [], []], []⟩

/-- The world `leftoverWorld` with a file "tempLeftover" in the working directory too. -/
def decoyWorld : World :=
  ⟨["work"],
    [([], [("work", Node.dir), ("db", Node.dir)]), (["work"], [("tempLeftover", Node.file 3)]),
      (["db"], [("f", Node.file 0), ("keep", Node.file 1), ("tempLeftover", Node.file 2)])],
    [[7], [], [], [1, 2]], []⟩

/-- The world `leftoverWorld` with the root directory as the working directory. -/
def homeWorld : World := { leftoverWorld with cwd := ["db"] }

/-- A world in which the file of the open file description 0, of bytes `[1, 2, 3, 4]`,
has no entry in the root directory any more (another process removed it). -/
def unlinkedWorld : World :=
  ⟨["work"], [([], [("work", Node.dir), ("db", Node.dir)]), (["work"], []), (["db"], [])],
    [[1, 2, 3, 4]], [⟨0, 0⟩]⟩

/-! ## Checks on concrete inputs -/

example : stringToRunes [0x71, 0x77, 0x65] = [0x71, 0x77, 0x65] := by decide
example : stringToRunes [0xF0, 0x9F, 0x98, 0x80] = [0x1F600] := by decide
example : codeUnits [0xF0, 0x9F, 0x98, 0x80] = [0xD83D, 0xDE00] := by decide
example : utf16Decode [0xD83D, 0xDE00] = [0x1F600] := by decide
example : runesToString [0x1F600] = [0xF0, 0x9F, 0x98, 0x80] := by decide
example : stringToRunes [0xFF, 0x41] = [0xFFFD, 0x41] := by decide
example : stringToRunes [0xED, 0xA0, 0x80] = [0xFFFD, 0xFFFD, 0xFFFD] := by decide
example : ValidString [0xE2, 0x82, 0xAC] = true := by decide
example : ValidString [0xE2, 0x82] = false := by decide
example : ((Page.mk (List.replicate 16 0)).SetString 2 [0x71, 0xF0, 0x9F, 0x98, 0x80]).bind
    (fun p => p.GetString 2) = some [0x71, 0xF0, 0x9F, 0x98, 0x80] := by decide
example : ((Page.mk (List.replicate 16 0)).SetInt 3 (-2)).bind (fun p => p.GetInt 3) = some (-2) := by
  decide
example : (Page.mk (List.replicate 16 0)).SetString 2 [0x71, 0xF0, 0x9F, 0x98, 0x80] =
    some ⟨[0, 0, 6, 0, 0, 0, 0x71, 0, 0x3D, 0xD8, 0x00, 0xDE, 0, 0, 0, 0]⟩ := by decide

set_option maxRecDepth 100000 in
example :
    (NewFileManager testWorld ["db"] 16).2 = Except.ok ⟨["db"], 16, []⟩ := by decide

set_option maxRecDepth 100000 in
example :
    ((FileManager.mk ["db"] 4 []).Write testWorld ⟨"testfile", 2⟩ ⟨[1, 2, 3, 4]⟩).world.fileData
      ["db"] "testfile" = some [0, 0, 0, 0, 0, 0, 0, 0, 1, 2, 3, 4] := by decide

example : HasPrefix "tempLeftover" "temp" = true ∧ HasPrefix "keep" "temp" = false := by decide

example : pathJoin ["db"] "testfile" = ["db", "testfile"] := by decide
example : pathJoin ["db"] "" = ["db"] ∧ pathJoin ["db"] "." = ["db"] := by decide
example : pathJoin ["db"] ".." = [] ∧ pathJoin ["db"] "../../x" = ["x"] := by decide
example : pathJoin ["db"] "a/../b" = ["db", "b"] := by decide
example : pathJoin ["db"] "/etc//passwd/" = ["db", "etc", "passwd"] := by decide
example : testWorld.openFile ["db"] "" = Except.error OSError.EISDIR := by decide
example : testWorld.openFile ["db"] "missing/x" = Except.error OSError.ENOENT := by decide
example : leftoverWorld.openFile ["db"] "f/x" = Except.error OSError.ENOTDIR := by decide
example : testWorld.openFile ["db"] (String.mk ['a', Char.ofNat 0]) =
    Except.error OSError.EINVAL := by decide
example : (testWorld.openFile ["db"] "x/../testfile").toOption.map Prod.snd = some 0 := by decide
example : (NewFileManager leftoverWorld ["db", "f"] 4).2 =
    Except.error (Error.wrap "os.ReadDir" (Error.os OSError.ENOTDIR)) := by decide
example : (NewFileManager leftoverWorld ["db", "f", "x"] 4).2 =
    Except.error (Error.wrap "os.Stat" (Error.os OSError.ENOTDIR)) := by decide
example : (NewFileManager testWorld ["db", "new", "deep"] 4).1.entries ["db"] =
    some [("new", Node.dir)] := by decide

/-! ## Buffers: slices and stores -/

theorem sliceOK_iff (b : List Nat) (lo hi : Int) :
    sliceOK b lo hi = true ↔ 0 ≤ lo ∧ lo ≤ hi ∧ hi ≤ (b.length : Int) := by
  simp [sliceOK, and_assoc]

theorem getElem?_drop_take (l : List Nat) (a n i : Nat) :
    ((l.drop a).take n)[i]? = if i < n then l[a + i]? else none := by
  simp [List.getElem?_take, List.getElem?_drop]

theorem store_length (b : List Nat) (lo : Nat) (bs : List Nat) (h : lo + bs.length ≤ b.length) :
    (store b lo bs).length = b.length := by
  simp [store, List.length_take, List.length_drop]
  omega

theorem getElem?_store (b : List Nat) (lo : Nat) (bs : List Nat) (h : lo + bs.length ≤ b.length)
    (i : Nat) :
    (store b lo bs)[i]? = if lo ≤ i ∧ i < lo + bs.length then bs[i - lo]? else b[i]? := by
  unfold store
  have h1 : (b.take lo).length = lo := by simp [List.length_take]; omega
  by_cases hi1 : i < lo
  · rw [List.append_assoc, List.getElem?_append_left (by omega), List.getElem?_take_of_lt hi1]
    rw [if_neg (by omega)]
  · by_cases hi2 : i < lo + bs.length
    · rw [List.append_assoc, List.getElem?_append_right (by omega), h1,
        List.getElem?_append_left (by omega), if_pos (by omega)]
    · rw [List.getElem?_append_right (by simp [h1]; omega), if_neg (by omega),
        List.getElem?_drop]
      congr 1
      simp [h1]
      omega

theorem drop_take_store_same (b : List Nat) (lo : Nat) (bs : List Nat)
    (h : lo + bs.length ≤ b.length) :
    ((store b lo bs).drop lo).take bs.length = bs := by
  apply List.ext_getElem?
  intro i
  rw [getElem?_drop_take, getElem?_store b lo bs h]
  by_cases hi : i < bs.length
  · rw [if_pos hi, if_pos (by omega)]
    congr 1
    omega
  · rw [if_neg hi, List.getElem?_eq_none (by omega)]

theorem drop_take_store_disjoint (b : List Nat) (lo : Nat) (bs : List Nat)
    (h : lo + bs.length ≤ b.length) (a n : Nat) (hd : a + n ≤ lo ∨ lo + bs.length ≤ a) :
    ((store b lo bs).drop a).take n = (b.drop a).take n := by
  apply List.ext_getElem?
  intro i
  rw [getElem?_drop_take, getElem?_drop_take, getElem?_store b lo bs h]
  by_cases hi : i < n
  · rw [if_pos hi, if_pos hi, if_neg (by omega)]
  · rw [if_neg hi, if_neg hi]

theorem slice_eq (b : List Nat) (lo hi : Int) (h0 : 0 ≤ lo) (h1 : lo ≤ hi)
    (h2 : hi ≤ (b.length : Int)) :
    slice b lo hi = some ((b.drop lo.toNat).take (hi - lo).toNat) := by
  simp [slice, sliceOK, h0, h1, h2]

/-! ## Integers in the page -/

@[simp] theorem int32bites_eq : int32bites = 4 := rfl

@[simp] theorem utf16size_eq : utf16size = 2 := rfl

theorem toInt32_toUint32 (v : Int) (h1 : -2 ^ 31 ≤ v) (h2 : v < 2 ^ 31) :
    toInt32 (toUint32 v) = v := by
  unfold toInt32 toUint32
  rw [Int.toNat_of_nonneg (Int.emod_nonneg _ (by norm_num))]
  split <;> omega

theorem uint32_putUint32 (u : Nat) (h : u < 2 ^ 32) : uint32 (putUint32 u) = some u := by
  simp only [putUint32, uint32, Option.some.injEq]
  omega

theorem toUint32_lt (v : Int) : toUint32 v < 2 ^ 32 := by
  unfold toUint32
  have := Int.emod_lt_of_pos v (show (0 : Int) < 2 ^ 32 by norm_num)
  have := Int.emod_nonneg v (show (2 ^ 32 : Int) ≠ 0 by norm_num)
  omega

theorem putUint32_length (u : Nat) : (putUint32 u).length = 4 := rfl

theorem putUint16_length (u : Nat) : (putUint16 u).length = 2 := rfl

theorem SetInt_eq (p : Page) (offset v : Int) (h0 : 0 ≤ offset)
    (h1 : offset + 4 ≤ (p.buffer.length : Int)) :
    p.SetInt offset v = some ⟨store p.buffer offset.toNat (putUint32 (toUint32 v))⟩ := by
  have : sliceOK p.buffer offset (offset + int32bites) = true := by
    rw [sliceOK_iff, int32bites_eq]; exact ⟨h0, by omega, h1⟩
  simp only [Page.SetInt, this, if_true]

theorem GetInt_store_same (b : List Nat) (offset : Int) (u : Nat) (hu : u < 2 ^ 32)
    (h0 : 0 ≤ offset) (h1 : offset + 4 ≤ (b.length : Int)) :
    (Page.mk (store b offset.toNat (putUint32 u))).GetInt offset = some (toInt32 u) := by
  have hl : offset.toNat + (putUint32 u).length ≤ b.length := by
    rw [putUint32_length]; omega
  have hlen := store_length b offset.toNat (putUint32 u) hl
  unfold Page.GetInt
  rw [int32bites_eq, slice_eq _ _ _ h0 (by omega) (by simp only [hlen]; exact h1)]
  have h4 : (offset + 4 - offset).toNat = (putUint32 u).length := by
    rw [putUint32_length]; omega
  rw [h4, drop_take_store_same b offset.toNat (putUint32 u) hl]
  simp [uint32_putUint32 u hu]

/-- C4. For every page, every offset with `0 ≤ offset` and `offset + 4 ≤ len(buffer)`,
and every 32-bit signed value `v` (negative values and both extremes included),
`SetInt(offset, v)` returns normally and `GetInt(offset)` on the resulting page
returns `v`. -/
theorem SetInt_GetInt_roundtrip (p : Page) (offset v : Int) (h0 : 0 ≤ offset)
    (h1 : offset + 4 ≤ (p.buffer.length : Int)) (hlo : -2 ^ 31 ≤ v) (hhi : v < 2 ^ 31) :
    ∃ q, p.SetInt offset v = some q ∧ q.GetInt offset = some v := by
  refine ⟨_, SetInt_eq p offset v h0 h1, ?_⟩
  rw [GetInt_store_same p.buffer offset _ (toUint32_lt v) h0 h1, toInt32_toUint32 v hlo hhi]

/-- Witness of C4 at the least 32-bit value, stored at offset 1 of a 6-byte page. -/
theorem SetInt_GetInt_roundtrip_witness :
    ∃ q, (Page.mk [9, 9, 9, 9, 9, 9]).SetInt 1 (-2147483648) = some q ∧
      q.GetInt 1 = some (-2147483648) :=
  SetInt_GetInt_roundtrip ⟨[9, 9, 9, 9, 9, 9]⟩ 1 (-2147483648) (by decide) (by decide)
    (by decide) (by decide)

/-! ## Byte sequences in the page -/

theorem toInt32_toUint32_any (v : Int) : toInt32 (toUint32 v) = toInt32 v := by
  unfold toInt32 toUint32
  rw [Int.toNat_of_nonneg (Int.emod_nonneg _ (by norm_num))]
  simp [Int.emod_emod_of_dvd]

theorem toInt32_idem (v : Int) : toInt32 (toInt32 v) = toInt32 v := by
  unfold toInt32
  split <;> split <;> omega

theorem toInt32_small (v : Int) (h0 : 0 ≤ v) (h1 : v < 2 ^ 31) : toInt32 v = v := by
  unfold toInt32
  split <;> omega

theorem toInt32_big (v : Int) (h0 : 2 ^ 31 ≤ v) (h1 : v < 2 ^ 32) : toInt32 v = v - 2 ^ 32 := by
  unfold toInt32
  split <;> omega

theorem GetInt_store_disjoint (b : List Nat) (offset : Int) (lo : Nat) (bs : List Nat)
    (h0 : 0 ≤ offset) (h : lo + bs.length ≤ b.length)
    (hd : offset + 4 ≤ (lo : Int) ∨ ((lo + bs.length : Nat) : Int) ≤ offset) :
    (Page.mk (store b lo bs)).GetInt offset = (Page.mk b).GetInt offset := by
  unfold Page.GetInt slice
  have hlen := store_length b lo bs h
  have e1 : sliceOK (store b lo bs) offset (offset + int32bites) =
      sliceOK b offset (offset + int32bites) := by
    simp [sliceOK, hlen]
  simp only [e1]
  split
  · rename_i hok
    rw [sliceOK_iff, int32bites_eq] at hok
    rw [int32bites_eq, drop_take_store_disjoint b lo bs h _ _ (by omega)]
  · rfl

/-- The page `SetBytes` leaves when the sequence fits. -/
theorem SetBytes_eq (p : Page) (offset : Int) (bytes : List Nat) (h0 : 0 ≤ offset)
    (h1 : offset + 4 + (bytes.length : Int) ≤ (p.buffer.length : Int)) :
    p.SetBytes offset bytes = some ⟨store
      (store p.buffer offset.toNat (putUint32 (toUint32 (toInt32 bytes.length))))
      (offset + 4).toNat bytes⟩ := by
  unfold Page.SetBytes
  rw [SetInt_eq p offset _ h0 (by omega)]
  have hl : (store p.buffer offset.toNat (putUint32 (toUint32 (toInt32 bytes.length)))).length =
      p.buffer.length := store_length _ _ _ (by rw [putUint32_length]; omega)
  have : sliceOK (store p.buffer offset.toNat (putUint32 (toUint32 (toInt32 bytes.length))))
      (offset + int32bites) (offset + int32bites + bytes.length) = true := by
    rw [sliceOK_iff, hl, int32bites_eq]; omega
  simp only [int32bites_eq] at this
  simp only [Option.some_bind, this, if_true, int32bites_eq]

/-- After a fitting `SetBytes`, the prefix read by `GetInt` is the `int32` conversion
of the length. -/
theorem GetInt_SetBytes (p : Page) (offset : Int) (bytes : List Nat) (h0 : 0 ≤ offset)
    (h1 : offset + 4 + (bytes.length : Int) ≤ (p.buffer.length : Int)) :
    ∃ q, p.SetBytes offset bytes = some q ∧ q.buffer.length = p.buffer.length ∧
      q.GetInt offset = some (toInt32 bytes.length) ∧
      ((q.buffer.drop (offset + 4).toNat).take bytes.length) = bytes := by
  refine ⟨_, SetBytes_eq p offset bytes h0 h1, ?_, ?_, ?_⟩
  · show (store _ _ _).length = _
    rw [store_length _ _ _ (by rw [store_length _ _ _ (by rw [putUint32_length]; omega)]; omega),
      store_length _ _ _ (by rw [putUint32_length]; omega)]
  · rw [GetInt_store_disjoint _ offset _ _ h0
        (by rw [store_length _ _ _ (by rw [putUint32_length]; omega)]; omega) (by omega),
      GetInt_store_same p.buffer offset _ (toUint32_lt _) h0 (by omega), toInt32_toUint32_any,
      toInt32_idem]
  · exact drop_take_store_same _ _ _
      (by rw [store_length _ _ _ (by rw [putUint32_length]; omega)]; omega)

/-- A sequence of `2^31` to `2^32 - 1` bytes: `SetBytes` returns normally, and
`GetBytes` then faults, the stored prefix being negative. -/
theorem GetBytes_SetBytes_wrapped (p : Page) (offset : Int) (bytes : List Nat) (h0 : 0 ≤ offset)
    (h1 : offset + 4 + (bytes.length : Int) ≤ (p.buffer.length : Int))
    (hbig : 2 ^ 31 ≤ bytes.length) (hlt : bytes.length < 2 ^ 32) :
    ∃ q, p.SetBytes offset bytes = some q ∧ q.GetBytes offset = none := by
  obtain ⟨q, hq, _, hget, _⟩ := GetInt_SetBytes p offset bytes h0 h1
  refine ⟨q, hq, ?_⟩
  unfold Page.GetBytes
  rw [hget, toInt32_big _ (by exact_mod_cast hbig) (by exact_mod_cast hlt)]
  simp only [Option.some_bind, slice, int32bites_eq]
  rw [if_neg]
  rw [sliceOK_iff]
  omega

/-- C5, as amended. For every page, every byte sequence `b` of fewer than `2^31` bytes
and every offset with `0 ≤ offset` and `offset + 4 + len(b) ≤ len(buffer)`,
`SetBytes(offset, b)` returns normally and `GetBytes(offset)` on the resulting page
returns `b`; the empty sequence is included. -/
theorem SetBytes_GetBytes_roundtrip (p : Page) (offset : Int) (b : List Nat) (h0 : 0 ≤ offset)
    (h1 : offset + 4 + (b.length : Int) ≤ (p.buffer.length : Int)) (hlen : b.length < 2 ^ 31) :
    ∃ q, p.SetBytes offset b = some q ∧ q.GetBytes offset = some b := by
  obtain ⟨q, hq, hql, hget, hdata⟩ := GetInt_SetBytes p offset b h0 h1
  refine ⟨q, hq, ?_⟩
  unfold Page.GetBytes
  rw [hget, toInt32_small _ (by omega) (by exact_mod_cast hlen), Option.some_bind, int32bites_eq,
    slice_eq _ _ _ (by omega) (by omega) (by rw [hql]; exact h1)]
  have : (offset + 4 + (b.length : Int) - (offset + 4)).toNat = b.length := by omega
  rw [this, hdata]

/-- Witness of C5 as amended: the three bytes 7, 0, 255 at offset 1 of a page of nine
bytes, and the empty sequence at the last admissible offset of a page of five. -/
theorem SetBytes_GetBytes_roundtrip_witness :
    (∃ q, (Page.mk [9, 9, 9, 9, 9, 9, 9, 9, 9]).SetBytes 1 [7, 0, 255] = some q ∧
      q.GetBytes 1 = some [7, 0, 255]) ∧
    (∃ q, (Page.mk [9, 9, 9, 9, 9]).SetBytes 1 [] = some q ∧ q.GetBytes 1 = some []) :=
  ⟨SetBytes_GetBytes_roundtrip ⟨[9, 9, 9, 9, 9, 9, 9, 9, 9]⟩ 1 [7, 0, 255] (by decide) (by decide)
      (by decide),
    SetBytes_GetBytes_roundtrip ⟨[9, 9, 9, 9, 9]⟩ 1 [] (by decide) (by decide) (by decide)⟩

/-- C5 fails as stated: a sequence of `2^31` zero bytes fits at offset 0 of a page of
`2^31 + 4` bytes, `SetBytes` returns normally, and `GetBytes` then faults instead of
returning the sequence, because the `int32` prefix holds `-2^31`. -/
theorem SetBytes_GetBytes_counterexample :
    (0 : Int) + 4 + ((List.replicate 2147483648 0).length : Int) ≤
        ((Page.mk (List.replicate 2147483652 0)).buffer.length : Int) ∧
      ∃ q, (Page.mk (List.replicate 2147483652 0)).SetBytes 0 (List.replicate 2147483648 0) =
          some q ∧ q.GetBytes 0 = none := by
  have hb : (List.replicate 2147483648 (0 : Nat)).length = 2147483648 := List.length_replicate _ _
  have hp : (Page.mk (List.replicate 2147483652 0)).buffer.length = 2147483652 :=
    List.length_replicate _ _
  have hfit : (0 : Int) + 4 + ((List.replicate 2147483648 (0 : Nat)).length : Int) ≤
      ((Page.mk (List.replicate 2147483652 0)).buffer.length : Int) := by
    rw [hb, hp]; norm_num
  exact ⟨hfit, GetBytes_SetBytes_wrapped _ 0 _ (le_refl _) hfit (by rw [hb]; norm_num)
    (by rw [hb]; norm_num)⟩

/-! ## UTF-8 and UTF-16: one rune -/

theorem leadInfo_some (p0 sz lo hi : Nat) (h : leadInfo p0 = some (sz, lo, hi)) :
    (sz = 2 ∧ lo = 0x80 ∧ hi = 0xBF ∧ 0xC2 ≤ p0 ∧ p0 ≤ 0xDF) ∨
    (sz = 3 ∧ lo = 0xA0 ∧ hi = 0xBF ∧ p0 = 0xE0) ∨
    (sz = 3 ∧ lo = 0x80 ∧ hi = 0xBF ∧ 0xE1 ≤ p0 ∧ p0 ≤ 0xEF ∧ p0 ≠ 0xED) ∨
    (sz = 3 ∧ lo = 0x80 ∧ hi = 0x9F ∧ p0 = 0xED) ∨
    (sz = 4 ∧ lo = 0x90 ∧ hi = 0xBF ∧ p0 = 0xF0) ∨
    (sz = 4 ∧ lo = 0x80 ∧ hi = 0xBF ∧ 0xF1 ≤ p0 ∧ p0 ≤ 0xF3) ∨
    (sz = 4 ∧ lo = 0x80 ∧ hi = 0x8F ∧ p0 = 0xF4) := by
  unfold leadInfo at h
  split_ifs at h with h1 h2 h3 h4 h5 h6 h7 h8 <;>
    simp only [Option.some.injEq, Prod.mk.injEq] at h <;>
    obtain ⟨rfl, rfl, rfl⟩ := h
  · exact Or.inl ⟨rfl, rfl, rfl, h1.1, h1.2⟩
  · exact Or.inr (Or.inl ⟨rfl, rfl, rfl, h2⟩)
  · exact Or.inr (Or.inr (Or.inl ⟨rfl, rfl, rfl, h3.1, by omega, by omega⟩))
  · exact Or.inr (Or.inr (Or.inr (Or.inl ⟨rfl, rfl, rfl, h4⟩)))
  · exact Or.inr (Or.inr (Or.inl ⟨rfl, rfl, rfl, by omega, h5.2, by omega⟩))
  · exact Or.inr (Or.inr (Or.inr (Or.inr (Or.inl ⟨rfl, rfl, rfl, h6⟩))))
  · exact Or.inr (Or.inr (Or.inr (Or.inr (Or.inr (Or.inl ⟨rfl, rfl, rfl, h7.1, h7.2⟩)))))
  · exact Or.inr (Or.inr (Or.inr (Or.inr (Or.inr (Or.inr ⟨rfl, rfl, rfl, h8⟩)))))
theorem isCont_iff (b : Nat) : isCont b = true ↔ 0x80 ≤ b ∧ b ≤ 0xBF := by
  simp [isCont]

theorem utf16EncodeRune_length_bmp (r : Nat) (h : r < 0x10000) : (utf16EncodeRune r).length = 1 := by
  unfold utf16EncodeRune
  split_ifs <;> first | rfl | omega

theorem utf16EncodeRune_length_supp (r : Nat) (h0 : 0x10000 ≤ r) (h1 : r ≤ 0x10FFFF) :
    (utf16EncodeRune r).length = 2 := by
  unfold utf16EncodeRune
  rw [if_neg (by omega), if_pos ⟨h0, h1⟩]
  rfl

theorem encodeRune_two (p0 b1 : Nat) (h0 : 0xC2 ≤ p0) (h1 : p0 ≤ 0xDF) (h2 : 0x80 ≤ b1)
    (h3 : b1 ≤ 0xBF) : encodeRune (p0 % 32 * 64 + b1 % 64) = [p0, b1] := by
  unfold encodeRune
  rw [if_neg (by omega), if_pos (by omega)]
  congr 1
  · omega
  · congr 1; omega

theorem encodeRune_three (p0 b1 b2 : Nat) (h0 : 0xE0 ≤ p0) (h1 : p0 ≤ 0xEF)
    (h2 : 0x80 ≤ b1) (h3 : b1 ≤ 0xBF) (h4 : p0 = 0xE0 → 0xA0 ≤ b1) (h5 : p0 = 0xED → b1 ≤ 0x9F)
    (h6 : 0x80 ≤ b2) (h7 : b2 ≤ 0xBF) :
    encodeRune (p0 % 16 * 4096 + b1 % 64 * 64 + b2 % 64) = [p0, b1, b2] := by
  unfold encodeRune
  rw [if_neg (by omega), if_neg (by omega), if_neg (by omega), if_pos (by omega)]
  congr 1
  · omega
  · congr 1
    · omega
    · congr 1; omega

theorem encodeRune_four (p0 b1 b2 b3 : Nat) (h0 : 0xF0 ≤ p0) (h1 : p0 ≤ 0xF4)
    (h2 : 0x80 ≤ b1) (h3 : b1 ≤ 0xBF) (h4 : p0 = 0xF0 → 0x90 ≤ b1) (h5 : p0 = 0xF4 → b1 ≤ 0x8F)
    (h6 : 0x80 ≤ b2) (h7 : b2 ≤ 0xBF) (h8 : 0x80 ≤ b3) (h9 : b3 ≤ 0xBF) :
    encodeRune (p0 % 8 * 262144 + b1 % 64 * 4096 + b2 % 64 * 64 + b3 % 64) = [p0, b1, b2, b3] := by
  unfold encodeRune
  rw [if_neg (by omega), if_neg (by omega), if_neg (by omega), if_neg (by omega)]
  congr 1
  · omega
  · congr 1
    · omega
    · congr 1
      · omega
      · congr 1; omega

/-- What a well-formed read of `decodeRune` guarantees: the rune is a scalar value,
its UTF-8 encoding is the prefix read, and its UTF-16 length is between a third of
the width and the width. -/
theorem decodeRune_ok (s : List Nat) (r w : Nat) (h : decodeRune s = (r, w, true)) :
    isScalar r ∧ encodeRune r = s.take w ∧ 1 ≤ w ∧ w ≤ s.length ∧
      (utf16EncodeRune r).length ≤ w ∧ w ≤ 3 * (utf16EncodeRune r).length := by
  cases s with
  | nil => simp [decodeRune] at h
  | cons p0 t =>
  by_cases hp : p0 < 128
  · simp only [decodeRune, hp, if_true, Prod.mk.injEq, and_true] at h
    obtain ⟨rfl, rfl⟩ := h
    refine ⟨Or.inl (by omega), ?_, le_refl _, by simp, ?_, ?_⟩
    · simp [encodeRune]; omega
    · rw [utf16EncodeRune_length_bmp _ (by omega)]
    · rw [utf16EncodeRune_length_bmp _ (by omega)]; omega
  · cases hl : leadInfo p0 with
    | none => simp [decodeRune, hp, hl] at h
    | some x =>
    obtain ⟨sz, lo, hi⟩ := x
    have hL := leadInfo_some p0 sz lo hi hl
    by_cases hsz : t.length + 1 < sz
    · simp [decodeRune, hp, hl, hsz] at h
    · cases t with
      | nil => simp [decodeRune, hp, hl] at h
      | cons b1 t1 =>
      by_cases hb1 : b1 < lo ∨ hi < b1
      · simp [decodeRune, hp, hl, hb1] at h
      · by_cases h2 : sz ≤ 2
        · simp only [decodeRune, hp, hl, hsz, hb1, h2, if_true, if_false, Prod.mk.injEq,
            and_true] at h
          obtain ⟨rfl, rfl⟩ := h
          have e := encodeRune_two p0 b1 (by omega) (by omega) (by omega) (by omega)
          refine ⟨Or.inl (by omega), by rw [e]; rfl, by omega, by simp, ?_, ?_⟩
          · rw [utf16EncodeRune_length_bmp _ (by omega)]; omega
          · rw [utf16EncodeRune_length_bmp _ (by omega)]; omega
        · cases t1 with
          | nil => simp [decodeRune, hp, hl, hb1, h2] at h
          | cons b2 t2 =>
          by_cases hb2 : isCont b2 = true
          swap
          · simp [decodeRune, hp, hl, hb1, h2, hb2] at h
          · have hb2r := (isCont_iff b2).1 hb2
            by_cases h3 : sz ≤ 3
            · simp only [decodeRune, hp, hl, hsz, hb1, h2, hb2, h3, if_true, if_false,
                Prod.mk.injEq, and_true, Bool.not_true, Bool.false_eq_true] at h
              obtain ⟨rfl, rfl⟩ := h
              have e := encodeRune_three p0 b1 b2 (by omega) (by omega) (by omega) (by omega)
                (by omega) (by omega) (by omega) (by omega)
              refine ⟨?_, by rw [e]; rfl, by omega, by simp, ?_, ?_⟩
              · unfold isScalar; omega
              · rw [utf16EncodeRune_length_bmp _ (by omega)]; omega
              · rw [utf16EncodeRune_length_bmp _ (by omega)]
            · cases t2 with
              | nil => simp [decodeRune, hp, hl, hb1, h2, hb2, h3] at h
              | cons b3 t3 =>
              by_cases hb3 : isCont b3 = true
              swap
              · simp [decodeRune, hp, hl, hb1, h2, hb2, h3, hb3] at h
              · have hb3r := (isCont_iff b3).1 hb3
                simp only [decodeRune, hp, hl, hsz, hb1, h2, hb2, h3, hb3, if_true, if_false,
                  Prod.mk.injEq, and_true, Bool.not_true, Bool.false_eq_true] at h
                obtain ⟨rfl, rfl⟩ := h
                have e := encodeRune_four p0 b1 b2 b3 (by omega) (by omega) (by omega) (by omega)
                  (by omega) (by omega) (by omega) (by omega) (by omega) (by omega)
                refine ⟨?_, by rw [e]; rfl, by omega, by simp, ?_, ?_⟩
                · unfold isScalar; omega
                · rw [utf16EncodeRune_length_supp _ (by omega) (by omega)]; omega
                · rw [utf16EncodeRune_length_supp _ (by omega) (by omega)]; omega

/-! ## UTF-8 and UTF-16: strings -/

theorem utf16Encode_append (xs ys : List Nat) :
    utf16Encode (xs ++ ys) = utf16Encode xs ++ utf16Encode ys := by
  induction xs with
  | nil => rfl
  | cons x xs ih => simp [utf16Encode, ih]

/-- On a well-formed string the rune conversion is inverted by `string(runes)`, every
rune is a scalar value, and the number of UTF-16 code units lies between a third of
the byte length and the byte length. -/
theorem validFrom_runes (fuel : Nat) : ∀ s : List Nat, validFrom fuel s = true →
    runesToString (runesFrom fuel s) = s ∧ (∀ r ∈ runesFrom fuel s, isScalar r) ∧
      (utf16Encode (runesFrom fuel s)).length ≤ s.length ∧
      s.length ≤ 3 * (utf16Encode (runesFrom fuel s)).length := by
  induction fuel with
  | zero =>
    intro s h
    cases s with
    | nil => simp [runesFrom, runesToString, utf16Encode]
    | cons a t => simp [validFrom] at h
  | succ fuel ih =>
    intro s h
    cases s with
    | nil => simp [runesFrom, runesToString, utf16Encode]
    | cons p0 t =>
      simp only [validFrom, Bool.and_eq_true] at h
      obtain ⟨hok, hrest⟩ := h
      have hd : decodeRune (p0 :: t) =
          ((decodeRune (p0 :: t)).1, (decodeRune (p0 :: t)).2.1, true) := by
        rw [← hok]
      obtain ⟨hsc, henc, hw1, hw2, hu1, hu2⟩ := decodeRune_ok _ _ _ hd
      obtain ⟨i1, i2, i3, i4⟩ := ih _ hrest
      have hlen : ((p0 :: t).drop (decodeRune (p0 :: t)).2.1).length =
          (p0 :: t).length - (decodeRune (p0 :: t)).2.1 := List.length_drop _ _
      simp only [runesFrom, runesToString, utf16Encode, List.length_append]
      refine ⟨?_, ?_, ?_, ?_⟩
      · rw [i1, henc, List.take_append_drop]
      · intro r hr
        rcases List.mem_cons.1 hr with rfl | hr
        · exact hsc
        · exact i2 r hr
      · omega
      · omega

theorem ValidString_runes (s : List Nat) (h : ValidString s = true) :
    runesToString (stringToRunes s) = s ∧ (∀ r ∈ stringToRunes s, isScalar r) ∧
      (codeUnits s).length ≤ s.length ∧ s.length ≤ 3 * (codeUnits s).length :=
  validFrom_runes s.length s h

theorem utf16Decode_cons_plain (r : Nat) (rest : List Nat) (h : r < 0xD800 ∨ 0xE000 ≤ r) :
    utf16Decode (r :: rest) = r :: utf16Decode rest := by
  cases rest with
  | nil => simp [utf16Decode, h]
  | cons r2 rest => simp [utf16Decode, h]

theorem utf16Decode_cons_pair (r r2 : Nat) (rest : List Nat) (h1 : 0xD800 ≤ r) (h2 : r < 0xDC00)
    (h3 : 0xDC00 ≤ r2) (h4 : r2 < 0xE000) :
    utf16Decode (r :: r2 :: rest) =
      ((r - 0xD800) * 1024 + (r2 - 0xDC00) + 0x10000) :: utf16Decode rest := by
  rw [utf16Decode, if_neg (by omega), if_pos ⟨h1, h2, h3, h4⟩]

theorem utf16Decode_encodeRune (r : Nat) (h : isScalar r) (rest : List Nat) :
    utf16Decode (utf16EncodeRune r ++ rest) = r :: utf16Decode rest := by
  unfold isScalar at h
  unfold utf16EncodeRune toUint16
  split_ifs with h1 h2
  · have : r % 2 ^ 16 = r := by omega
    rw [this]
    exact utf16Decode_cons_plain r rest (by omega)
  · have e1 : (0xD800 + (r - 0x10000) / 1024 % 1024) % 2 ^ 16 =
        0xD800 + (r - 0x10000) / 1024 % 1024 := by omega
    have e2 : (0xDC00 + (r - 0x10000) % 1024) % 2 ^ 16 = 0xDC00 + (r - 0x10000) % 1024 := by
      omega
    rw [e1, e2]
    generalize hA : 0xD800 + (r - 0x10000) / 1024 % 1024 = A
    generalize hB : 0xDC00 + (r - 0x10000) % 1024 = B
    have hrec : (A - 0xD800) * 1024 + (B - 0xDC00) + 0x10000 = r := by omega
    rw [List.cons_append, List.cons_append, List.nil_append,
      utf16Decode_cons_pair A B rest (by omega) (by omega) (by omega) (by omega), hrec]
  · omega

/-- Function `utf16.Decode` inverts `utf16.Encode` on scalar values. -/
theorem utf16Decode_utf16Encode (rs : List Nat) (h : ∀ r ∈ rs, isScalar r) :
    utf16Decode (utf16Encode rs) = rs := by
  induction rs with
  | nil => rfl
  | cons r rs ih =>
    rw [utf16Encode, utf16Decode_encodeRune r (h r (List.mem_cons_self _ _)),
      ih (fun x hx => h x (List.mem_cons_of_mem _ hx))]

/-- The string conversions compose to the identity on a well-formed string. -/
theorem transcode_valid (s : List Nat) (h : ValidString s = true) :
    runesToString (utf16Decode (codeUnits s)) = s := by
  obtain ⟨h1, h2, _, _⟩ := ValidString_runes s h
  rw [codeUnits, utf16Decode_utf16Encode _ h2, h1]

theorem utf16EncodeRune_lt (v u : Nat) (h : u ∈ utf16EncodeRune v) : u < 2 ^ 16 := by
  unfold utf16EncodeRune toUint16 at h
  split_ifs at h <;> simp at h <;> omega

/-- Every code unit `utf16.Encode` emits is a 16-bit value. -/
theorem utf16Encode_lt (rs : List Nat) : ∀ u ∈ utf16Encode rs, u < 2 ^ 16 := by
  induction rs with
  | nil => intro u hu; simp [utf16Encode] at hu
  | cons r rs ih =>
    intro u hu
    rw [utf16Encode, List.mem_append] at hu
    rcases hu with hu | hu
    · exact utf16EncodeRune_lt r u hu
    · exact ih u hu

/-! ## The rune loop does not depend on its bound -/

/-- On a non-empty string `decodeRune` advances by one to four bytes. -/
theorem decodeRune_width (p0 : Nat) (t : List Nat) :
    1 ≤ (decodeRune (p0 :: t)).2.1 ∧ (decodeRune (p0 :: t)).2.1 ≤ 4 := by
  generalize hd : decodeRune (p0 :: t) = d
  simp only [decodeRune] at hd
  repeat' split at hd
  all_goals (subst hd; simp)

/-- Any bound of at least the length of the string gives the loop of `[]rune(s)` the
same result: the bound `len s` used by `stringToRunes` never cuts the loop short. -/
theorem runesFrom_fuel : ∀ (fuel : Nat) (s : List Nat), s.length ≤ fuel →
    runesFrom fuel s = runesFrom s.length s := by
  intro fuel
  induction fuel using Nat.strong_induction_on with
  | _ fuel ih =>
    intro s hs
    cases s with
    | nil => cases fuel <;> rfl
    | cons p0 t =>
      cases fuel with
      | zero => simp at hs
      | succ fuel =>
        have hw := (decodeRune_width p0 t).1
        have hl : ((p0 :: t).drop (decodeRune (p0 :: t)).2.1).length ≤ t.length := by
          rw [List.length_drop, List.length_cons]; omega
        simp only [List.length_cons] at hs
        show runesFrom (fuel + 1) (p0 :: t) = runesFrom (t.length + 1) (p0 :: t)
        rw [runesFrom, runesFrom, ih fuel (by omega) _ (by omega),
          ih t.length (by omega) _ hl]

/-- The loop of `[]rune(s)`, without the bound: the first rune, then the runes of the
rest of the string. -/
theorem stringToRunes_cons (p0 : Nat) (t : List Nat) :
    stringToRunes (p0 :: t) = (decodeRune (p0 :: t)).1 ::
      stringToRunes ((p0 :: t).drop (decodeRune (p0 :: t)).2.1) := by
  have hw := (decodeRune_width p0 t).1
  have hl : ((p0 :: t).drop (decodeRune (p0 :: t)).2.1).length ≤ t.length := by
    rw [List.length_drop, List.length_cons]; omega
  unfold stringToRunes
  rw [List.length_cons, runesFrom, runesFrom_fuel t.length _ hl]

/-! ## Strings in the page -/

theorem unitBytes_length (us : List Nat) : (unitBytes us).length = 2 * us.length := by
  induction us with
  | nil => rfl
  | cons u us ih => simp [unitBytes, putUint16, ih]; omega

theorem store_nil (b : List Nat) (lo : Nat) : store b lo [] = b := by
  simp [store]

theorem store_store_adjacent (b : List Nat) (lo : Nat) (xs ys : List Nat)
    (h : lo + xs.length + ys.length ≤ b.length) :
    store (store b lo xs) (lo + xs.length) ys = store b lo (xs ++ ys) := by
  apply List.ext_getElem?
  intro i
  have h1 : (store b lo xs).length = b.length := store_length b lo xs (by omega)
  rw [getElem?_store _ _ _ (by rw [h1]; omega), getElem?_store b lo xs (by omega),
    getElem?_store b lo (xs ++ ys) (by simp; omega)]
  simp only [List.length_append]
  by_cases c1 : i < lo
  · rw [if_neg (by omega), if_neg (by omega), if_neg (by omega)]
  · by_cases c2 : i < lo + xs.length
    · rw [if_neg (by omega), if_pos (by omega), if_pos (by omega),
        List.getElem?_append_left (by omega)]
    · by_cases c3 : i < lo + xs.length + ys.length
      · rw [if_pos (by omega), if_pos (by omega), List.getElem?_append_right (by omega)]
        congr 1
        omega
      · rw [if_neg (by omega), if_neg (by omega), if_neg (by omega)]

theorem setUint16_eq (p : Page) (offset : Int) (u : Nat) (h0 : 0 ≤ offset)
    (h1 : offset + 2 ≤ (p.buffer.length : Int)) :
    p.setUint16 offset u = some ⟨store p.buffer offset.toNat (putUint16 u)⟩ := by
  have : sliceOK p.buffer offset (offset + utf16size) = true := by
    rw [sliceOK_iff, utf16size_eq]; exact ⟨h0, by omega, h1⟩
  simp only [Page.setUint16, this, if_true]

/-- The loop of `SetString` stores the bytes of the code units in one run. -/
theorem setUnits_eq (offset : Int) (h0 : 0 ≤ offset) : ∀ (us : List Nat) (i : Nat) (p : Page),
    offset + 4 + 2 * ((i : Int) + us.length) ≤ (p.buffer.length : Int) →
    Page.setUnits offset i us p =
      some ⟨store p.buffer (offset + 4 + 2 * (i : Int)).toNat (unitBytes us)⟩ := by
  intro us
  induction us with
  | nil => intro i p _; simp [Page.setUnits, unitBytes, store_nil]
  | cons u us ih =>
    intro i p h
    simp only [List.length_cons, Nat.cast_add, Nat.cast_one] at h
    rw [Page.setUnits, int32bites_eq, utf16size_eq,
      setUint16_eq p _ u (by omega) (by omega), Option.some_bind]
    have hl : (store p.buffer (offset + 4 + 2 * (i : Int)).toNat (putUint16 u)).length =
        p.buffer.length := store_length _ _ _ (by rw [putUint16_length]; omega)
    rw [ih (i + 1) _ (by simp only [hl]; push_cast; omega)]
    have e : (offset + 4 + 2 * ((i + 1 : Nat) : Int)).toNat =
        (offset + 4 + 2 * (i : Int)).toNat + (putUint16 u).length := by
      rw [putUint16_length]; push_cast; omega
    simp only [e]
    rw [store_store_adjacent _ _ _ _ (by rw [putUint16_length, unitBytes_length]; omega)]
    rfl

/-- The page `SetString` leaves when the encoded string fits: the prefix and the code
units are stored in one run of `4 + 2n` bytes from the offset on. -/
theorem SetString_eq (p : Page) (offset : Int) (s : List Nat) (h0 : 0 ≤ offset)
    (h1 : offset + 4 + 2 * ((codeUnits s).length : Int) ≤ (p.buffer.length : Int)) :
    p.SetString offset s = some ⟨store p.buffer offset.toNat
      (putUint32 (toUint32 (toInt32 (((codeUnits s).length : Int) * 2))) ++
        unitBytes (codeUnits s))⟩ := by
  unfold Page.SetString
  rw [utf16size_eq, SetInt_eq p offset _ h0 (by omega), Option.some_bind]
  have hl : (store p.buffer offset.toNat
      (putUint32 (toUint32 (toInt32 (((codeUnits s).length : Int) * 2))))).length =
      p.buffer.length := store_length _ _ _ (by rw [putUint32_length]; omega)
  rw [setUnits_eq offset h0 _ 0 _ (by simp only [hl]; push_cast; omega)]
  have e : (offset + 4 + 2 * ((0 : Nat) : Int)).toNat =
      offset.toNat + (putUint32 (toUint32 (toInt32 (((codeUnits s).length : Int) * 2)))).length := by
    rw [putUint32_length]; push_cast; omega
  simp only [e]
  rw [store_store_adjacent _ _ _ _ (by rw [putUint32_length, unitBytes_length]; omega)]

theorem uint16_putUint16 (u : Nat) (h : u < 2 ^ 16) : uint16 (putUint16 u) = some u := by
  simp only [putUint16, uint16, Option.some.injEq]
  omega

/-- The loop of `GetString` reads back the code units whose bytes lie in the buffer. -/
theorem getUnits_eq (b : List Nat) (offset : Int) (h0 : 0 ≤ offset) :
    ∀ (us : List Nat) (i : Nat), (∀ u ∈ us, u < 2 ^ 16) →
    offset + 4 + 2 * ((i : Int) + us.length) ≤ (b.length : Int) →
    (b.drop (offset + 4 + 2 * (i : Int)).toNat).take (2 * us.length) = unitBytes us →
    (Page.mk b).getUnits offset i us.length = some us := by
  intro us
  induction us with
  | nil => intro i _ _ _; rfl
  | cons u us ih =>
    intro i hu hfit hdata
    simp only [List.length_cons, Nat.cast_add, Nat.cast_one] at hfit
    have h2 : ((b.drop (offset + 4 + 2 * (i : Int)).toNat).take 2) = putUint16 u := by
      have := congrArg (List.take 2) hdata
      rw [List.take_take] at this
      rw [show min 2 (2 * (u :: us).length) = 2 by simp] at this
      rw [this, unitBytes, ← putUint16_length u, List.take_left]
    have h3 : (b.drop (offset + 4 + 2 * ((i + 1 : Nat) : Int)).toNat).take (2 * us.length) =
        unitBytes us := by
      have := congrArg (List.drop 2) hdata
      rw [List.drop_take, List.drop_drop] at this
      have e : (offset + 4 + 2 * ((i + 1 : Nat) : Int)).toNat =
          (offset + 4 + 2 * (i : Int)).toNat + 2 := by push_cast; omega
      rw [e, show 2 * us.length = 2 * (u :: us).length - 2 by simp; omega, this, unitBytes,
        ← putUint16_length u, List.drop_left]
    simp only [List.length_cons, Page.getUnits, Page.getUint16, int32bites_eq, utf16size_eq]
    rw [show offset + 4 + (i : Int) * 2 = offset + 4 + 2 * (i : Int) by ring,
      slice_eq _ _ _ (by omega) (by omega) (by show _ ≤ ((b.length : Nat) : Int); omega)]
    rw [show (offset + 4 + 2 * (i : Int) + 2 - (offset + 4 + 2 * (i : Int))).toNat = 2 by omega,
      h2, Option.some_bind, uint16_putUint16 u (hu u (List.mem_cons_self _ _)), Option.some_bind,
      ih (i + 1) (fun x hx => hu x (List.mem_cons_of_mem _ hx)) (by push_cast; omega) h3]
    rfl


/-- What a fitting `SetString` leaves: the buffer, its unchanged length, the prefix as
`GetInt` reads it, and the bytes of the code units after the prefix. -/
theorem SetString_facts (p : Page) (offset : Int) (s : List Nat) (h0 : 0 ≤ offset)
    (h1 : offset + 4 + 2 * ((codeUnits s).length : Int) ≤ (p.buffer.length : Int)) :
    ∃ q, p.SetString offset s = some q ∧
      q.buffer = store p.buffer offset.toNat
        (putUint32 (toUint32 (toInt32 (((codeUnits s).length : Int) * 2))) ++
          unitBytes (codeUnits s)) ∧
      q.buffer.length = p.buffer.length ∧
      q.GetInt offset = some (toInt32 (((codeUnits s).length : Int) * 2)) ∧
      (q.buffer.drop (offset + 4 + 2 * ((0 : Nat) : Int)).toNat).take (2 * (codeUnits s).length) =
        unitBytes (codeUnits s) := by
  refine ⟨_, SetString_eq p offset s h0 h1, rfl, ?_, ?_, ?_⟩
  · exact store_length _ _ _ (by
      rw [List.length_append, putUint32_length, unitBytes_length]; omega)
  · show (Page.mk (store _ _ _)).GetInt offset = _
    rw [← store_store_adjacent _ _ _ _ (by rw [putUint32_length, unitBytes_length]; omega),
      GetInt_store_disjoint _ offset _ _ h0
        (by rw [store_length _ _ _ (by rw [putUint32_length]; omega), putUint32_length,
          unitBytes_length]; omega)
        (Or.inl (by rw [putUint32_length]; push_cast; omega)),
      GetInt_store_same p.buffer offset _ (toUint32_lt _) h0 (by omega), toInt32_toUint32_any,
      toInt32_idem]
  · show ((store _ _ _).drop _).take _ = _
    rw [← store_store_adjacent _ _ _ _ (by rw [putUint32_length, unitBytes_length]; omega)]
    have e : (offset + 4 + 2 * ((0 : Nat) : Int)).toNat =
        offset.toNat + (putUint32 (toUint32 (toInt32 (((codeUnits s).length : Int) * 2)))).length := by
      rw [putUint32_length]; push_cast; omega
    rw [e, ← unitBytes_length]
    exact drop_take_store_same _ _ _
      (by rw [store_length _ _ _ (by rw [putUint32_length]; omega), putUint32_length,
        unitBytes_length]; omega)

/-- When the byte length of the code units is below `2^31`, `GetString` after a fitting
`SetString` returns the string rebuilt from the code units. -/
theorem GetString_SetString (p : Page) (offset : Int) (s : List Nat) (h0 : 0 ≤ offset)
    (h1 : offset + 4 + 2 * ((codeUnits s).length : Int) ≤ (p.buffer.length : Int))
    (hn : 2 * (codeUnits s).length < 2 ^ 31) :
    ∃ q, p.SetString offset s = some q ∧ q.buffer.length = p.buffer.length ∧
      q.GetString offset = some (runesToString (utf16Decode (codeUnits s))) := by
  obtain ⟨q, hq, _, hlen, hint, hdata⟩ := SetString_facts p offset s h0 h1
  refine ⟨q, hq, hlen, ?_⟩
  unfold Page.GetString
  rw [hint, toInt32_small _ (by omega) (by push_cast at hn ⊢; omega), Option.some_bind,
    utf16size_eq]
  simp only [Int.mul_tdiv_cancel _ (show (2 : Int) ≠ 0 by norm_num), Int.toNat_ofNat]
  rw [if_neg (by omega), getUnits_eq q.buffer offset h0 (codeUnits s) 0
    (utf16Encode_lt _) (by rw [hlen]; push_cast; omega) hdata]
  rfl

/-- When the byte length of the code units is between `2^31` and `2^32 - 1`, `SetString`
returns normally and `GetString` then faults, the stored prefix being negative. -/
theorem GetString_SetString_wrapped (p : Page) (offset : Int) (s : List Nat) (h0 : 0 ≤ offset)
    (h1 : offset + 4 + 2 * ((codeUnits s).length : Int) ≤ (p.buffer.length : Int))
    (hbig : 2 ^ 31 ≤ 2 * (codeUnits s).length) (hlt : 2 * (codeUnits s).length < 2 ^ 32) :
    ∃ q, p.SetString offset s = some q ∧ q.GetString offset = none := by
  obtain ⟨q, hq, _, _, hint, _⟩ := SetString_facts p offset s h0 h1
  refine ⟨q, hq, ?_⟩
  unfold Page.GetString
  rw [hint, toInt32_big _ (by push_cast at hbig ⊢; omega) (by push_cast at hlt ⊢; omega),
    Option.some_bind, utf16size_eq,
    show ((codeUnits s).length : Int) * 2 - 2 ^ 32 = (((codeUnits s).length : Int) - 2 ^ 31) * 2 by
      ring]
  simp only [Int.mul_tdiv_cancel _ (show (2 : Int) ≠ 0 by norm_num)]
  rw [if_pos (by omega)]

theorem runesFrom_ascii (a : Nat) (h : a < 0x80) (n : Nat) :
    runesFrom n (List.replicate n a) = List.replicate n a := by
  induction n with
  | zero => rfl
  | succ n ih =>
    rw [List.replicate_succ, runesFrom]
    have hd : decodeRune (a :: List.replicate n a) = (a, 1, true) := by
      simp [decodeRune, h]
    rw [hd]
    simp only [List.drop_succ_cons, List.drop_zero]
    rw [ih]

theorem utf16Encode_ascii (a : Nat) (h : a < 0x80) (n : Nat) :
    utf16Encode (List.replicate n a) = List.replicate n a := by
  induction n with
  | zero => rfl
  | succ n ih =>
    rw [List.replicate_succ, utf16Encode, ih]
    have : utf16EncodeRune a = [a] := by
      unfold utf16EncodeRune toUint16
      rw [if_pos (by omega)]
      congr 1
      omega
    rw [this]
    rfl

/-- A string of `n` copies of an ASCII byte has `n` code units. -/
theorem codeUnits_ascii_length (a : Nat) (h : a < 0x80) (n : Nat) :
    (codeUnits (List.replicate n a)).length = n := by
  have e : stringToRunes (List.replicate n a) = List.replicate n a := by
    unfold stringToRunes
    rw [List.length_replicate, runesFrom_ascii a h n]
  rw [codeUnits, e, utf16Encode_ascii a h n, List.length_replicate]

/-- C1, as amended. For every well-formed UTF-8 string `s` whose UTF-16 encoding has
`n` code units with `2 * n < 2^31` (characters outside the Basic Multilingual Plane,
which take a surrogate pair, included) and every offset with `0 ≤ offset` and
`offset + 4 + 2 * n ≤ len(buffer)`, `SetString(offset, s)` returns normally and
`GetString(offset)` on the resulting page returns exactly `s`. -/
theorem SetString_GetString_roundtrip (p : Page) (offset : Int) (s : List Nat)
    (hvalid : ValidString s = true) (h0 : 0 ≤ offset)
    (h1 : offset + 4 + 2 * ((codeUnits s).length : Int) ≤ (p.buffer.length : Int))
    (hn : 2 * (codeUnits s).length < 2 ^ 31) :
    ∃ q, p.SetString offset s = some q ∧ q.GetString offset = some s := by
  obtain ⟨q, hq, _, hget⟩ := GetString_SetString p offset s h0 h1 hn
  exact ⟨q, hq, by rw [hget, transcode_valid s hvalid]⟩

/-- Witness of C1 as amended: the letter "q" followed by U+1F600, which takes a
surrogate pair, at offset 2 of a 12-byte page. -/
theorem SetString_GetString_roundtrip_witness :
    ∃ q, (Page.mk (List.replicate 12 0)).SetString 2 [0x71, 0xF0, 0x9F, 0x98, 0x80] = some q ∧
      q.GetString 2 = some [0x71, 0xF0, 0x9F, 0x98, 0x80] :=
  SetString_GetString_roundtrip ⟨List.replicate 12 0⟩ 2 [0x71, 0xF0, 0x9F, 0x98, 0x80]
    (by decide) (by decide) (by decide) (by decide)

/-- C1 fails as stated, on two grounds. The one-byte string 0xFF, which is not
well-formed UTF-8, fits at offset 0 of a 6-byte page and is read back as the three
bytes of U+FFFD. A string of `2^30` letters "a" fits at offset 0 of a page of
`2^31 + 4` bytes, `SetString` returns normally, and `GetString` then faults, because
the `int32` prefix holds `-2^31`. -/
theorem SetString_GetString_counterexample :
    ((0 : Int) + 4 + 2 * ((codeUnits [0xFF]).length : Int) ≤
        ((Page.mk (List.replicate 6 0)).buffer.length : Int) ∧
      ((Page.mk (List.replicate 6 0)).SetString 0 [0xFF]).bind (fun q => q.GetString 0) =
        some [0xEF, 0xBF, 0xBD]) ∧
    ((0 : Int) + 4 + 2 * ((codeUnits (List.replicate 1073741824 0x61)).length : Int) ≤
        ((Page.mk (List.replicate 2147483652 0)).buffer.length : Int) ∧
      ∃ q, (Page.mk (List.replicate 2147483652 0)).SetString 0
          (List.replicate 1073741824 0x61) = some q ∧ q.GetString 0 = none) := by
  have hn : (codeUnits (List.replicate 1073741824 0x61)).length = 1073741824 :=
    codeUnits_ascii_length 0x61 (by norm_num) _
  have hp : (Page.mk (List.replicate 2147483652 0)).buffer.length = 2147483652 :=
    List.length_replicate _ _
  have hfit : (0 : Int) + 4 + 2 * ((codeUnits (List.replicate 1073741824 0x61)).length : Int) ≤
      ((Page.mk (List.replicate 2147483652 0)).buffer.length : Int) := by
    rw [hn, hp]; norm_num
  exact ⟨⟨by decide, by decide⟩, hfit,
    GetString_SetString_wrapped _ 0 _ (le_refl _) hfit (by rw [hn]; norm_num)
      (by rw [hn]; norm_num)⟩

/-! ## The footprint and the layout of a string -/

theorem stringBytes_length (s : List Nat) :
    (stringBytes s).length = 4 + 2 * (codeUnits s).length := by
  rw [stringBytes, List.length_append, putUint32_length, unitBytes_length]

theorem MaxLength_eq (n : Int) (h0 : 0 ≤ n) (h1 : 4 + 2 * n < 2 ^ 63) : MaxLength n = 4 + 2 * n := by
  unfold MaxLength wrap64
  simp only [int32bites_eq, utf16size_eq]
  split <;> split <;> omega

theorem toUint32_toInt32_nat (x : Nat) : toUint32 (toInt32 (x : Int)) = x % 2 ^ 32 := by
  unfold toUint32 toInt32
  split <;> omega

theorem getElem?_unitBytes : ∀ (us : List Nat) (i u : Nat), us[i]? = some u →
    (unitBytes us)[2 * i]? = some (u % 256) ∧ (unitBytes us)[2 * i + 1]? = some (u / 2 ^ 8 % 256) := by
  intro us
  induction us with
  | nil => intro i u h; simp at h
  | cons v us ih =>
    intro i u h
    cases i with
    | zero =>
      simp only [List.getElem?_cons_zero, Option.some.injEq] at h
      subst h
      simp [unitBytes, putUint16]
    | succ i =>
      simp only [List.getElem?_cons_succ] at h
      obtain ⟨a, b⟩ := ih i u h
      simp only [unitBytes, putUint16, List.cons_append, List.nil_append]
      rw [show 2 * (i + 1) = 2 * i + 1 + 1 by ring, List.getElem?_cons_succ,
        List.getElem?_cons_succ, List.getElem?_cons_succ, List.getElem?_cons_succ]
      exact ⟨a, b⟩

/-- C6. For every string `s` whose UTF-16 encoding has `n` code units and every offset
where it fits in a page (of a length a Go slice can have, below `2^63`):
`MaxLength(n)` equals `4 + 2 * n`; `SetString(offset, s)` returns normally and keeps
the length of the buffer; every byte outside `[offset, offset + MaxLength(n))` is
unchanged; and the `MaxLength(n)` bytes of that range are the layout `stringBytes s`
of the string, whatever the page held before. -/
theorem SetString_footprint (p : Page) (offset : Int) (s : List Nat) (h0 : 0 ≤ offset)
    (h1 : offset + 4 + 2 * ((codeUnits s).length : Int) ≤ (p.buffer.length : Int))
    (hlen : (p.buffer.length : Int) < 2 ^ 63) :
    MaxLength (codeUnits s).length = 4 + 2 * ((codeUnits s).length : Int) ∧
    ∃ q, p.SetString offset s = some q ∧ q.buffer.length = p.buffer.length ∧
      (∀ i : Nat, (i : Int) < offset ∨ offset + MaxLength (codeUnits s).length ≤ (i : Int) →
        q.buffer[i]? = p.buffer[i]?) ∧
      (q.buffer.drop offset.toNat).take (MaxLength (codeUnits s).length).toNat = stringBytes s ∧
      ((stringBytes s).length : Int) = MaxLength (codeUnits s).length := by
  have hM := MaxLength_eq (codeUnits s).length (by omega) (by omega)
  obtain ⟨q, hq, hbuf, hql, _, _⟩ := SetString_facts p offset s h0 h1
  have hfit : offset.toNat + (stringBytes s).length ≤ p.buffer.length := by
    rw [stringBytes_length]; omega
  refine ⟨hM, q, hq, hql, ?_, ?_, ?_⟩
  · intro i hi
    rw [hbuf]
    show (store p.buffer offset.toNat (stringBytes s))[i]? = _
    rw [getElem?_store _ _ _ hfit, if_neg]
    rw [stringBytes_length]
    omega
  · rw [hbuf, hM]
    show ((store p.buffer offset.toNat (stringBytes s)).drop _).take _ = _
    rw [show (4 + 2 * ((codeUnits s).length : Int)).toNat = (stringBytes s).length by
      rw [stringBytes_length]; omega]
    exact drop_take_store_same _ _ _ hfit
  · rw [hM, stringBytes_length]; push_cast; ring

/-- Witness of C6: the letter "q" followed by U+1F600 at offset 2 of a 12-byte page. -/
theorem SetString_footprint_witness :
    MaxLength (codeUnits [0x71, 0xF0, 0x9F, 0x98, 0x80]).length =
      4 + 2 * ((codeUnits [0x71, 0xF0, 0x9F, 0x98, 0x80]).length : Int) ∧
    ∃ q, (Page.mk (List.replicate 12 7)).SetString 2 [0x71, 0xF0, 0x9F, 0x98, 0x80] = some q ∧
      q.buffer.length = (Page.mk (List.replicate 12 7)).buffer.length ∧
      (∀ i : Nat, (i : Int) < 2 ∨
          2 + MaxLength (codeUnits [0x71, 0xF0, 0x9F, 0x98, 0x80]).length ≤ (i : Int) →
        q.buffer[i]? = (Page.mk (List.replicate 12 7)).buffer[i]?) ∧
      (q.buffer.drop (2 : Int).toNat).take
          (MaxLength (codeUnits [0x71, 0xF0, 0x9F, 0x98, 0x80]).length).toNat =
        stringBytes [0x71, 0xF0, 0x9F, 0x98, 0x80] ∧
      ((stringBytes [0x71, 0xF0, 0x9F, 0x98, 0x80]).length : Int) =
        MaxLength (codeUnits [0x71, 0xF0, 0x9F, 0x98, 0x80]).length :=
  SetString_footprint ⟨List.replicate 12 7⟩ 2 [0x71, 0xF0, 0x9F, 0x98, 0x80] (by decide)
    (by decide) (by decide)

/-- C10. For every string `s` with UTF-16 code units `u_0 .. u_{n-1}` and every offset
where it fits, after `SetString(offset, s)` the byte at `offset + j` (`j < 4`) is byte
`j` of the little-endian encoding of the byte length `2 * n`, so that the four bytes
read as `2 * n` (not `n`) whenever `2 * n < 2^32`; and for each `i < n` the bytes at
`offset + 4 + 2i` and `offset + 4 + 2i + 1` are the low and the high byte of `u_i`. A
rune outside the Basic Multilingual Plane contributes its high and then its low
surrogate. -/
theorem SetString_layout (p : Page) (offset : Int) (s : List Nat) (h0 : 0 ≤ offset)
    (h1 : offset + 4 + 2 * ((codeUnits s).length : Int) ≤ (p.buffer.length : Int)) :
    (∃ q, p.SetString offset s = some q ∧
      (∀ j : Nat, j < 4 →
        q.buffer[offset.toNat + j]? = some (2 * (codeUnits s).length / 256 ^ j % 256)) ∧
      (2 * (codeUnits s).length < 2 ^ 32 →
        uint32 ((q.buffer.drop offset.toNat).take 4) = some (2 * (codeUnits s).length)) ∧
      (∀ i u : Nat, (codeUnits s)[i]? = some u →
        q.buffer[offset.toNat + 4 + 2 * i]? = some (u % 256) ∧
        q.buffer[offset.toNat + 4 + 2 * i + 1]? = some (u / 256 % 256))) ∧
    (∀ r : Nat, 0x10000 ≤ r → r ≤ 0x10FFFF →
      utf16EncodeRune r = [0xD800 + (r - 0x10000) / 1024, 0xDC00 + (r - 0x10000) % 1024]) := by
  obtain ⟨q, hq, hbuf, hql, _, _⟩ := SetString_facts p offset s h0 h1
  have hfit : offset.toNat + (stringBytes s).length ≤ p.buffer.length := by
    rw [stringBytes_length]; omega
  have hb : q.buffer = store p.buffer offset.toNat (stringBytes s) := hbuf
  have hpre : ∀ j : Nat, j < 4 →
      q.buffer[offset.toNat + j]? = some (2 * (codeUnits s).length / 256 ^ j % 256) := by
    intro j hj
    rw [hb, getElem?_store _ _ _ hfit, if_pos (by rw [stringBytes_length]; omega),
      show offset.toNat + j - offset.toNat = j by omega, stringBytes,
      List.getElem?_append_left (by rw [putUint32_length]; exact hj),
      show ((codeUnits s).length : Int) * 2 = ((2 * (codeUnits s).length : Nat) : Int) by
        push_cast; ring,
      toUint32_toInt32_nat]
    generalize 2 * (codeUnits s).length = m
    interval_cases j <;> simp [putUint32] <;> omega
  refine ⟨⟨q, hq, hpre, ?_, ?_⟩, ?_⟩
  · intro hsmall
    have e : (q.buffer.drop offset.toNat).take 4 = putUint32 (2 * (codeUnits s).length) := by
      apply List.ext_getElem?
      intro i
      rw [getElem?_drop_take]
      by_cases hi : i < 4
      · rw [if_pos hi, hpre i hi]
        generalize 2 * (codeUnits s).length = m
        interval_cases i <;> simp [putUint32]
      · rw [if_neg hi, List.getElem?_eq_none (by rw [putUint32_length]; omega)]
    rw [e, uint32_putUint32 _ hsmall]
  · intro i u hu
    have hi : i < (codeUnits s).length := by
      by_contra hc
      rw [List.getElem?_eq_none (by omega)] at hu
      exact Option.noConfusion hu
    obtain ⟨a, b⟩ := getElem?_unitBytes (codeUnits s) i u hu
    constructor
    · rw [hb, getElem?_store _ _ _ hfit, if_pos (by rw [stringBytes_length]; omega),
        show offset.toNat + 4 + 2 * i - offset.toNat = 4 + 2 * i by omega, stringBytes,
        List.getElem?_append_right (by rw [putUint32_length]; omega), putUint32_length,
        show 4 + 2 * i - 4 = 2 * i by omega, a]
    · rw [hb, getElem?_store _ _ _ hfit, if_pos (by rw [stringBytes_length]; omega),
        show offset.toNat + 4 + 2 * i + 1 - offset.toNat = 4 + (2 * i + 1) by omega, stringBytes,
        List.getElem?_append_right (by rw [putUint32_length]; omega), putUint32_length,
        show 4 + (2 * i + 1) - 4 = 2 * i + 1 by omega, b]
      norm_num
  · intro r hr0 hr1
    have e1 : (0xD800 + (r - 0x10000) / 1024 % 1024) % 2 ^ 16 =
        0xD800 + (r - 0x10000) / 1024 := by omega
    have e2 : (0xDC00 + (r - 0x10000) % 1024) % 2 ^ 16 = 0xDC00 + (r - 0x10000) % 1024 := by
      omega
    unfold utf16EncodeRune toUint16
    rw [if_neg (by omega), if_pos ⟨hr0, hr1⟩, e1, e2]

/-- Witness of C10: the letter "q" followed by U+1F600 at offset 2 of a 12-byte page. -/
theorem SetString_layout_witness :
    (∃ q, (Page.mk (List.replicate 12 7)).SetString 2 [0x71, 0xF0, 0x9F, 0x98, 0x80] = some q ∧
      (∀ j : Nat, j < 4 → q.buffer[(2 : Int).toNat + j]? =
        some (2 * (codeUnits [0x71, 0xF0, 0x9F, 0x98, 0x80]).length / 256 ^ j % 256)) ∧
      (2 * (codeUnits [0x71, 0xF0, 0x9F, 0x98, 0x80]).length < 2 ^ 32 →
        uint32 ((q.buffer.drop (2 : Int).toNat).take 4) =
          some (2 * (codeUnits [0x71, 0xF0, 0x9F, 0x98, 0x80]).length)) ∧
      (∀ i u : Nat, (codeUnits [0x71, 0xF0, 0x9F, 0x98, 0x80])[i]? = some u →
        q.buffer[(2 : Int).toNat + 4 + 2 * i]? = some (u % 256) ∧
        q.buffer[(2 : Int).toNat + 4 + 2 * i + 1]? = some (u / 256 % 256))) ∧
    (∀ r : Nat, 0x10000 ≤ r → r ≤ 0x10FFFF →
      utf16EncodeRune r = [0xD800 + (r - 0x10000) / 1024, 0xDC00 + (r - 0x10000) % 1024]) :=
  SetString_layout ⟨List.replicate 12 7⟩ 2 [0x71, 0xF0, 0x9F, 0x98, 0x80] (by decide) (by decide)

/-! ## The file manager: opening -/

theorem openFile_cached (fm : FileManager) (w : World) (name : String) (h : Nat)
    (hc : fm.files.lookup name = some h) : fm.openFile w name = (w, fm, Except.ok h) := by
  simp only [FileManager.openFile, hc]

/-- A successful `openFile` leaves the name cached with the handle it returns, and
keeps the directory and the block size of the manager. -/
theorem openFile_ok (fm : FileManager) (w : World) (name : String) (w1 : World)
    (fm1 : FileManager) (h : Nat) (ho : fm.openFile w name = (w1, fm1, Except.ok h)) :
    fm1.files.lookup name = some h ∧ fm1.blockSize = fm.blockSize ∧ fm1.dbDir = fm.dbDir := by
  unfold FileManager.openFile at ho
  split at ho
  · rename_i file hl
    simp only [Prod.mk.injEq, Except.ok.injEq] at ho
    obtain ⟨_, rfl, rfl⟩ := ho
    exact ⟨hl, rfl, rfl⟩
  · split at ho
    · simp at ho
    · simp only [Prod.mk.injEq, Except.ok.injEq] at ho
      obtain ⟨_, rfl, rfl⟩ := ho
      simp [List.lookup]

/-- Once `openFile` has succeeded, `Write` from the state it leaves is the same call. -/
theorem Write_after_open (fm : FileManager) (w : World) (blk : BlockID) (page : Page)
    (w1 : World) (fm1 : FileManager) (h : Nat)
    (ho : fm.openFile w blk.fileName = (w1, fm1, Except.ok h)) :
    fm.Write w blk page = fm1.Write w1 blk page := by
  obtain ⟨hl, hbs, _⟩ := openFile_ok fm w _ w1 fm1 h ho
  unfold FileManager.Write
  rw [ho, openFile_cached fm1 w1 _ h hl, hbs]

theorem Read_after_open (fm : FileManager) (w : World) (blk : BlockID) (page : Page)
    (w1 : World) (fm1 : FileManager) (h : Nat)
    (ho : fm.openFile w blk.fileName = (w1, fm1, Except.ok h)) :
    fm.Read w blk page = fm1.Read w1 blk page := by
  obtain ⟨hl, hbs, _⟩ := openFile_ok fm w _ w1 fm1 h ho
  unfold FileManager.Read
  rw [ho, openFile_cached fm1 w1 _ h hl, hbs]

theorem Write_open_ok (fm : FileManager) (w : World) (blk : BlockID) (page : Page)
    (herr : (fm.Write w blk page).err = none) :
    ∃ w1 fm1 h, fm.openFile w blk.fileName = (w1, fm1, Except.ok h) := by
  unfold FileManager.Write at herr
  split at herr
  · simp at herr
  · rename_i w1 fm1 file ho
    exact ⟨w1, fm1, file, ho⟩

theorem seek_eq (w : World) (h : Nat) (f : OpenFile) (off : Int) (hf : w.opens[h]? = some f)
    (h0 : 0 ≤ off) :
    w.seek h off = (⟨w.cwd, w.dirs, w.inodes, w.opens.set h ⟨f.ino, off⟩⟩, Except.ok off) := by
  simp only [World.seek, hf, if_neg (not_lt.2 h0)]

theorem getElem?_set_same (l : List OpenFile) (h : Nat) (f g : OpenFile) (hf : l[h]? = some f) :
    (l.set h g)[h]? = some g := by
  have hlt : h < l.length := by
    by_contra hc
    rw [List.getElem?_eq_none (by omega)] at hf
    exact Option.noConfusion hf
  rw [List.getElem?_set, if_pos rfl, if_pos hlt]

/-- A successful `Write` through a cached handle: the handle and its inode are live,
the offset is not negative, the manager, the page and the directories are unchanged,
and the file holds the written data. -/
theorem Write_cached (fm : FileManager) (w : World) (blk : BlockID) (page : Page) (h : Nat)
    (hc : fm.files.lookup blk.fileName = some h)
    (herr : (fm.Write w blk page).err = none) :
    ∃ f data, w.opens[h]? = some f ∧ w.inodes[f.ino]? = some data ∧
      0 ≤ wrap64 (blk.blkNum * fm.blockSize) ∧
      fm.Write w blk page = ⟨⟨w.cwd, w.dirs,
          w.inodes.set f.ino
            (writtenData data (wrap64 (blk.blkNum * fm.blockSize)).toNat page.buffer),
          (w.opens.set h ⟨f.ino, wrap64 (blk.blkNum * fm.blockSize)⟩).set h
            ⟨f.ino, wrap64 (blk.blkNum * fm.blockSize) + page.buffer.length⟩⟩,
        fm, page, none⟩ := by
  unfold FileManager.Write at herr ⊢
  rw [openFile_cached fm w _ h hc] at herr ⊢
  simp only at herr ⊢
  cases hf : w.opens[h]? with
  | none => simp [World.seek, hf] at herr
  | some f =>
    by_cases hoff : wrap64 (blk.blkNum * fm.blockSize) < 0
    · simp [World.seek, hf, hoff] at herr
    · have h0 : 0 ≤ wrap64 (blk.blkNum * fm.blockSize) := not_lt.1 hoff
      rw [seek_eq w h f _ hf h0] at herr ⊢
      simp only at herr ⊢
      have hf2 := getElem?_set_same w.opens h f ⟨f.ino, wrap64 (blk.blkNum * fm.blockSize)⟩ hf
      cases hd : w.inodes[f.ino]? with
      | none => simp [World.write, hf2, hd] at herr
      | some data =>
        refine ⟨f, data, rfl, hd, h0, ?_⟩
        simp [World.write, hf2, hd]

/-- A `Read` through a cached handle whose inode is live, at a non-negative offset:
the outcome in terms of the bytes available. -/
theorem Read_cached (fm : FileManager) (w : World) (blk : BlockID) (page : Page) (h : Nat)
    (f : OpenFile) (data : List Nat)
    (hc : fm.files.lookup blk.fileName = some h) (hf : w.opens[h]? = some f)
    (hd : w.inodes[f.ino]? = some data) (h0 : 0 ≤ wrap64 (blk.blkNum * fm.blockSize)) :
    fm.Read w blk page =
      if page.buffer.length = 0 then
        ⟨⟨w.cwd, w.dirs, w.inodes, w.opens.set h ⟨f.ino, wrap64 (blk.blkNum * fm.blockSize)⟩⟩,
          fm, page, none⟩
      else if ((data.drop (wrap64 (blk.blkNum * fm.blockSize)).toNat).take
          (min page.buffer.length maxRW)).length = 0 then
        ⟨⟨w.cwd, w.dirs, w.inodes, w.opens.set h ⟨f.ino, wrap64 (blk.blkNum * fm.blockSize)⟩⟩,
          fm, page, some (Error.wrap "file.Read" (Error.os OSError.EOF))⟩
      else
        ⟨⟨w.cwd, w.dirs, w.inodes,
            (w.opens.set h ⟨f.ino, wrap64 (blk.blkNum * fm.blockSize)⟩).set h
              ⟨f.ino, wrap64 (blk.blkNum * fm.blockSize) +
                ((data.drop (wrap64 (blk.blkNum * fm.blockSize)).toNat).take
                  (min page.buffer.length maxRW)).length⟩⟩,
          fm,
          ⟨store page.buffer 0 ((data.drop (wrap64 (blk.blkNum * fm.blockSize)).toNat).take
            (min page.buffer.length maxRW))⟩,
          none⟩ := by
  unfold FileManager.Read
  rw [openFile_cached fm w _ h hc]
  simp only
  rw [seek_eq w h f _ hf h0]
  simp only
  have hf2 := getElem?_set_same w.opens h f ⟨f.ino, wrap64 (blk.blkNum * fm.blockSize)⟩ hf
  simp only [World.read, hf2, hd]
  split_ifs <;> rfl

/-! ## The file manager: a block written is the block read -/

theorem writtenData_slice (data : List Nat) (pos : Nat) (b : List Nat) :
    ((writtenData data pos b).drop pos).take b.length = b := by
  unfold writtenData
  split
  · rename_i h
    rw [h, List.take_zero]
    exact (List.length_eq_zero.1 h).symm
  · exact drop_take_store_same _ _ _ (by simp only [List.length_append, List.length_replicate]; omega)

theorem writtenData_length (data : List Nat) (pos : Nat) (b : List Nat) :
    (writtenData data pos b).length =
      if b.length = 0 then data.length else max data.length (pos + b.length) := by
  unfold writtenData
  split
  · rfl
  · rw [store_length _ _ _ (by simp only [List.length_append, List.length_replicate]; omega)]
    simp only [List.length_append, List.length_replicate]
    omega

/-- Bytes of the file outside the range written keep their value. -/
theorem getElem?_writtenData (data : List Nat) (pos : Nat) (b : List Nat) (i : Nat)
    (hi : i < data.length) (hd : i < pos ∨ pos + b.length ≤ i) :
    (writtenData data pos b)[i]? = data[i]? := by
  unfold writtenData
  split
  · rfl
  · rw [getElem?_store _ _ _ (by simp only [List.length_append, List.length_replicate]; omega),
      if_neg (by omega), List.getElem?_append_left hi]

theorem store_zero_full (p b : List Nat) (h : b.length = p.length) : store p 0 b = b := by
  simp [store, h]

theorem getElem?_set_inode (l : List (List Nat)) (i : Nat) (d e : List Nat) (h : l[i]? = some d) :
    (l.set i e)[i]? = some e := by
  have hlt : i < l.length := by
    by_contra hc
    rw [List.getElem?_eq_none (by omega)] at h
    exact Option.noConfusion h
  rw [List.getElem?_set, if_pos rfl, if_pos hlt]

/-- The state a successful `Write` leaves, from any state: the name is cached, its
handle and inode are live, and the file holds the written data at the offset. -/
theorem Write_state (fm : FileManager) (w : World) (blk : BlockID) (page : Page)
    (herr : (fm.Write w blk page).err = none) :
    ∃ (h ino : Nat) (data : List Nat) (pos : Int),
      (fm.Write w blk page).fm.files.lookup blk.fileName = some h ∧
      (fm.Write w blk page).fm.blockSize = fm.blockSize ∧
      (fm.Write w blk page).world.opens[h]? = some ⟨ino, pos⟩ ∧
      (fm.Write w blk page).world.inodes[ino]? =
        some (writtenData data (wrap64 (blk.blkNum * fm.blockSize)).toNat page.buffer) ∧
      0 ≤ wrap64 (blk.blkNum * fm.blockSize) := by
  obtain ⟨w1, fm1, h, ho⟩ := Write_open_ok fm w blk page herr
  obtain ⟨hl, hbs, _⟩ := openFile_ok fm w _ w1 fm1 h ho
  rw [Write_after_open fm w blk page w1 fm1 h ho] at herr ⊢
  obtain ⟨f, data, hf, hd, h0, heq⟩ := Write_cached fm1 w1 blk page h hl herr
  rw [heq]
  rw [hbs] at h0
  refine ⟨h, f.ino, data, wrap64 (blk.blkNum * fm1.blockSize) + page.buffer.length, hl, hbs,
    ?_, ?_, h0⟩
  · exact getElem?_set_same _ h ⟨f.ino, wrap64 (blk.blkNum * fm1.blockSize)⟩ _
      (getElem?_set_same _ h f _ hf)
  · show (w1.inodes.set f.ino _)[f.ino]? = _
    rw [getElem?_set_inode _ _ data _ hd, hbs]

/-- After a successful `Write` of a page of at most `maxRW` bytes, a `Read` of the same
block into a page of the same length succeeds and yields the bytes written. -/
theorem Read_after_Write (fm : FileManager) (w : World) (blk : BlockID) (B P : Page)
    (hlen : P.buffer.length = B.buffer.length) (hmax : B.buffer.length ≤ maxRW)
    (hw : (fm.Write w blk B).err = none) :
    ((fm.Write w blk B).fm.Read (fm.Write w blk B).world blk P).err = none ∧
      ((fm.Write w blk B).fm.Read (fm.Write w blk B).world blk P).page.buffer = B.buffer := by
  obtain ⟨h, ino, data, pos, hl, hbs, hf, hd, h0⟩ := Write_state fm w blk B hw
  rw [Read_cached _ _ blk P h ⟨ino, pos⟩ _ hl hf hd (by rw [hbs]; exact h0), hbs, hlen,
    Nat.min_eq_left hmax, writtenData_slice]
  by_cases hz : B.buffer.length = 0
  · rw [if_pos hz]
    refine ⟨rfl, ?_⟩
    show P.buffer = B.buffer
    rw [List.length_eq_zero.1 hz, List.length_eq_zero.1 (hlen.trans hz)]
  · rw [if_neg hz, if_neg hz]
    exact ⟨rfl, store_zero_full _ _ hlen.symm⟩

/-- Within one transfer the block written is the block read: for every File Manager of
block size at most `maxRW`, every file name, every block number and every page `B` of
the block size, after `Write(BlockID(f, k), B)` succeeds, `Read(BlockID(f, k), P)` into a
page `P` of the block size succeeds and leaves `P`'s buffer equal to `B`'s. -/
theorem Write_Read_one_transfer (fm : FileManager) (w : World) (blk : BlockID) (B P : Page)
    (hmax : fm.blockSize ≤ (maxRW : Int))
    (hB : (B.buffer.length : Int) = fm.blockSize) (hP : (P.buffer.length : Int) = fm.blockSize)
    (hw : (fm.Write w blk B).err = none) :
    ((fm.Write w blk B).fm.Read (fm.Write w blk B).world blk P).err = none ∧
      ((fm.Write w blk B).fm.Read (fm.Write w blk B).world blk P).page.buffer = B.buffer := by
  have hlen : P.buffer.length = B.buffer.length := by
    have e : (P.buffer.length : Int) = (B.buffer.length : Int) := hP.trans hB.symm
    exact_mod_cast e
  exact Read_after_Write fm w blk B P hlen (by omega) hw

/-- One transfer leaves the bytes of the buffer from index `maxRW` on as they were. -/
theorem read_tail (w : World) (h : Nat) (b : List Nat) (i : Nat) (hi : maxRW ≤ i) :
    (w.read h b).2.1[i]? = b[i]? := by
  unfold World.read
  split
  · rfl
  · split
    · rfl
    · rename_i _ f _ _ data _
      dsimp only
      split_ifs
      · rfl
      · rfl
      · have hc : ((data.drop f.pos.toNat).take (min b.length maxRW)).length ≤
            min b.length maxRW := List.length_take_le _ _
        rw [getElem?_store _ _ _ (by have := Nat.min_le_left b.length maxRW; omega),
          if_neg (by have := Nat.min_le_right b.length maxRW; omega)]

/-- Bytes of the page from index `maxRW` on are not touched by `Read`, whatever the
file holds and whatever `Read` returns. -/
theorem Read_tail (fm : FileManager) (w : World) (blk : BlockID) (P : Page) (i : Nat)
    (hi : maxRW ≤ i) : (fm.Read w blk P).page.buffer[i]? = P.buffer[i]? := by
  unfold FileManager.Read
  split
  · rfl
  · split
    · rfl
    · rename_i _ _ _ file _ _ w2 _ _
      have key := read_tail w2 file P.buffer i hi
      split
      · rename_i heq
        rw [heq] at key
        exact key
      · rename_i heq
        rw [heq] at key
        exact key

/-- A `Read` through a cached handle whose inode is live, at a non-negative offset
before the end of the file, into a non-empty page returns no error. -/
theorem Read_cached_ok (fm : FileManager) (w : World) (blk : BlockID) (P : Page) (h : Nat)
    (f : OpenFile) (data : List Nat)
    (hc : fm.files.lookup blk.fileName = some h) (hf : w.opens[h]? = some f)
    (hd : w.inodes[f.ino]? = some data) (h0 : 0 ≤ wrap64 (blk.blkNum * fm.blockSize))
    (hP : P.buffer.length ≠ 0)
    (hav : (wrap64 (blk.blkNum * fm.blockSize)).toNat < data.length) :
    (fm.Read w blk P).err = none := by
  have hm : 0 < min P.buffer.length maxRW := by
    have : 0 < maxRW := by unfold maxRW; norm_num
    exact Nat.lt_min.2 ⟨Nat.pos_of_ne_zero hP, this⟩
  rw [Read_cached fm w blk P h f data hc hf hd h0, if_neg hP,
    if_neg (by rw [List.length_take, List.length_drop]; omega)]

/-! ## The file manager: writing one block leaves the others -/

theorem wrap64_id (v : Int) (h0 : 0 ≤ v) (h1 : v < 2 ^ 63) : wrap64 v = v := by
  unfold wrap64
  split <;> omega

theorem drop_take_writtenData_disjoint (data : List Nat) (pos : Nat) (b : List Nat) (a n : Nat)
    (hin : a + n ≤ data.length) (hd : a + n ≤ pos ∨ pos + b.length ≤ a) :
    ((writtenData data pos b).drop a).take n = (data.drop a).take n := by
  apply List.ext_getElem?
  intro i
  rw [getElem?_drop_take, getElem?_drop_take]
  by_cases hi : i < n
  · rw [if_pos hi, if_pos hi, getElem?_writtenData _ _ _ _ (by omega) (by omega)]
  · rw [if_neg hi, if_neg hi]

/-- Distinct block numbers whose `int64` products do not wrap address disjoint byte
ranges. -/
theorem blocks_disjoint (k k2 bs : Int) (hbs : 0 < bs) (hk : 0 ≤ k) (hk2 : 0 ≤ k2)
    (hne : k ≠ k2) : 0 ≤ k * bs ∧ 0 ≤ k2 * bs ∧ (k * bs + bs ≤ k2 * bs ∨ k2 * bs + bs ≤ k * bs) := by
  refine ⟨Int.mul_nonneg hk (le_of_lt hbs), Int.mul_nonneg hk2 (le_of_lt hbs), ?_⟩
  rcases lt_or_gt_of_ne hne with h | h
  · left
    have : (k + 1) * bs ≤ k2 * bs := Int.mul_le_mul_of_nonneg_right (by omega) (le_of_lt hbs)
    linarith
  · right
    have : (k2 + 1) * bs ≤ k * bs := Int.mul_le_mul_of_nonneg_right (by omega) (le_of_lt hbs)
    linarith

/-- C3, as amended. For every File Manager with positive block size `bs`, every file
and every two distinct non-negative block numbers `k` and `k2` whose byte offsets
`k * bs` and `k2 * bs` are below `2^63` (the `int64` products do not wrap): if page `A`
of length `bs` was written to block `k2` and then page `B` of length `bs` is written
to block `k`, the second `Write` leaves every file byte in `[k2 * bs, (k2 + 1) * bs)`
unchanged, and, when `bs` is at most `2^30` bytes (one transfer of `Read`), a subsequent
`Read` of block `k2` succeeds and yields `A`. -/
theorem Write_frame (fm : FileManager) (w : World) (name : String) (k k2 : Int) (A B P : Page)
    (r1 r2 r3 : Outcome)
    (hbs : 0 < fm.blockSize)
    (hk : 0 ≤ k) (hk2 : 0 ≤ k2) (hne : k ≠ k2)
    (hov : k * fm.blockSize < 2 ^ 63) (hov2 : k2 * fm.blockSize < 2 ^ 63)
    (hA : (A.buffer.length : Int) = fm.blockSize) (hB : (B.buffer.length : Int) = fm.blockSize)
    (hP : (P.buffer.length : Int) = fm.blockSize)
    (e1 : r1 = fm.Write w ⟨name, k2⟩ A) (e2 : r2 = r1.fm.Write r1.world ⟨name, k⟩ B)
    (e3 : r3 = r2.fm.Read r2.world ⟨name, k2⟩ P)
    (h1 : r1.err = none) (h2 : r2.err = none) :
    (fm.blockSize ≤ 2 ^ 30 → r3.err = none ∧ r3.page.buffer = A.buffer) ∧
      ∃ d1 d2, r1.fm.fileBytes r1.world name = some d1 ∧ r2.fm.fileBytes r2.world name = some d2 ∧
        ∀ i : Nat, k2 * fm.blockSize ≤ (i : Int) → (i : Int) < (k2 + 1) * fm.blockSize →
          d2[i]? = d1[i]? := by
  obtain ⟨hO, hO2, hdis⟩ := blocks_disjoint k k2 fm.blockSize hbs hk hk2 hne
  rw [e1] at h1
  obtain ⟨h, ino, data, pos, hl, hbs1, hf, hd, _⟩ := Write_state fm w ⟨name, k2⟩ A h1
  rw [← e1] at hl hbs1 hf hd
  simp only at hl hd
  rw [wrap64_id _ hO2 hov2] at hd
  rw [e2] at h2
  obtain ⟨f, dataB, hfB, hdB, _, heq⟩ := Write_cached r1.fm r1.world ⟨name, k⟩ B h hl h2
  rw [hf] at hfB
  obtain rfl : f = ⟨ino, pos⟩ := (Option.some.inj hfB).symm
  simp only at hdB heq
  rw [hd] at hdB
  obtain rfl := Option.some.inj hdB
  rw [hbs1, wrap64_id _ hO hov] at heq
  rw [← e2] at heq
  have hfm : r2.fm = r1.fm := by rw [heq]
  have hl2 : r2.fm.files.lookup name = some h := by rw [hfm]; exact hl
  have hf2 : r2.world.opens[h]? = some ⟨ino, k * fm.blockSize + B.buffer.length⟩ := by
    rw [heq]
    exact getElem?_set_same _ h ⟨ino, k * fm.blockSize⟩ _ (getElem?_set_same _ h _ _ hf)
  have hd2 : r2.world.inodes[ino]? = some (writtenData
      (writtenData data (k2 * fm.blockSize).toNat A.buffer) (k * fm.blockSize).toNat B.buffer) := by
    rw [heq]
    exact getElem?_set_inode _ _ _ _ hd
  have hAne : A.buffer.length ≠ 0 := by omega
  have hlen1 : (k2 * fm.blockSize).toNat + A.buffer.length ≤
      (writtenData data (k2 * fm.blockSize).toNat A.buffer).length := by
    rw [writtenData_length, if_neg hAne]
    exact le_max_right _ _
  have hslice : ((writtenData (writtenData data (k2 * fm.blockSize).toNat A.buffer)
      (k * fm.blockSize).toNat B.buffer).drop (k2 * fm.blockSize).toNat).take A.buffer.length =
      A.buffer := by
    rw [drop_take_writtenData_disjoint _ _ _ _ _ hlen1 (by omega), writtenData_slice]
  refine ⟨fun hmax => ?_, writtenData data (k2 * fm.blockSize).toNat A.buffer,
    writtenData (writtenData data (k2 * fm.blockSize).toNat A.buffer) (k * fm.blockSize).toNat
      B.buffer, ?_, ?_, ?_⟩
  · have hmin : min A.buffer.length maxRW = A.buffer.length :=
      Nat.min_eq_left (by unfold maxRW; omega)
    rw [e3, Read_cached r2.fm r2.world ⟨name, k2⟩ P h _ _ hl2 hf2 hd2
      (by rw [hfm, hbs1, wrap64_id _ hO2 hov2]; exact hO2)]
    simp only [hfm, hbs1, wrap64_id _ hO2 hov2, show P.buffer.length = A.buffer.length by omega,
      hmin, hslice, if_neg hAne]
    exact ⟨trivial, store_zero_full _ _ (by omega)⟩
  · show (r1.fm.files.lookup name).bind _ = _
    rw [hl, Option.some_bind, hf, Option.some_bind]
    exact hd
  · show (r2.fm.files.lookup name).bind _ = _
    rw [hl2, Option.some_bind, hf2, Option.some_bind]
    exact hd2
  · intro i hi1 hi2
    exact getElem?_writtenData _ _ _ _ (by
      have : (k2 + 1) * fm.blockSize = k2 * fm.blockSize + fm.blockSize := by ring
      omega) (by
      have : (k2 + 1) * fm.blockSize = k2 * fm.blockSize + fm.blockSize := by ring
      omega)

/-- Witness of C3 as amended: block 0 written, then block 1, then block 0 read, block
size 4. -/
theorem Write_frame_witness :
    (((testManager.Write testWorld ⟨"testfile", 0⟩ ⟨[1, 2, 3, 4]⟩).fm.Write
        (testManager.Write testWorld ⟨"testfile", 0⟩ ⟨[1, 2, 3, 4]⟩).world ⟨"testfile", 1⟩
        ⟨[5, 6, 7, 8]⟩).fm.Read
      ((testManager.Write testWorld ⟨"testfile", 0⟩ ⟨[1, 2, 3, 4]⟩).fm.Write
        (testManager.Write testWorld ⟨"testfile", 0⟩ ⟨[1, 2, 3, 4]⟩).world ⟨"testfile", 1⟩
        ⟨[5, 6, 7, 8]⟩).world ⟨"testfile", 0⟩ ⟨[0, 0, 0, 0]⟩).page.buffer = [1, 2, 3, 4] :=
  ((Write_frame testManager testWorld "testfile" 1 0 ⟨[1, 2, 3, 4]⟩ ⟨[5, 6, 7, 8]⟩ ⟨[0, 0, 0, 0]⟩
    _ _ _ (by decide) (by decide) (by decide) (by decide) (by decide) (by decide) (by decide)
    (by decide) (by decide) rfl rfl rfl (by decide) (by decide)).1 (by decide)).2

/-! ## Short reads -/

/-- C8 at the failing input: block size 4, a file "f" holding one byte. `Read` of
block 0 returns no error and leaves the page partly filled, `[7, 0, 0, 0]`. (A `Read` of
block 1, where no byte is left, does return an error, `io.EOF`.) -/
theorem Read_short_file :
    ((testManager.Read leftoverWorld ⟨"f", 0⟩ ⟨[0, 0, 0, 0]⟩).err = none ∧
      (testManager.Read leftoverWorld ⟨"f", 0⟩ ⟨[0, 0, 0, 0]⟩).page.buffer = [7, 0, 0, 0]) ∧
    (testManager.Read leftoverWorld ⟨"f", 1⟩ ⟨[0, 0, 0, 0]⟩).err =
      some (Error.wrap "file.Read" (Error.os OSError.EOF)) := by
  decide

/-! ## Construction: the removal of the temporary entries -/

/-- C9 at the failing inputs: the root directory holds "tempLeftover" and the working
directory is another one. When the working directory has no entry of that name, the
construction fails on `os.Remove` and the root directory still holds the entry; when
the working directory has one, the construction succeeds, that other file is removed,
and the root directory still holds its entry. -/
theorem NewFileManager_leftover :
    ((NewFileManager leftoverWorld ["db"] 4).2 =
        Except.error (Error.wrap "os.Remove" (Error.os OSError.ENOENT)) ∧
      (NewFileManager leftoverWorld ["db"] 4).1.hasEntry ["db"] "tempLeftover" = true) ∧
    ((NewFileManager decoyWorld ["db"] 4).2 = Except.ok ⟨["db"], 4, []⟩ ∧
      (NewFileManager decoyWorld ["db"] 4).1.hasEntry ["db"] "tempLeftover" = true ∧
      (NewFileManager decoyWorld ["db"] 4).1.hasEntry ["work"] "tempLeftover" = false) := by
  decide

/-- When the working directory is the root directory itself, the entry is removed and
the others stay. -/
example :
    (NewFileManager homeWorld ["db"] 4).2 = Except.ok ⟨["db"], 4, []⟩ ∧
      (NewFileManager homeWorld ["db"] 4).1.hasEntry ["db"] "tempLeftover" = false ∧
      (NewFileManager homeWorld ["db"] 4).1.hasEntry ["db"] "keep" = true := by
  decide

/-! ## The scenario of the test -/

/-- The string `GetString` rebuilds from a page that holds a non-negative prefix and
the bytes of the code units behind it. -/
theorem GetString_of_facts (q : Page) (offset : Int) (us : List Nat) (h0 : 0 ≤ offset)
    (hfit : offset + 4 + 2 * (us.length : Int) ≤ (q.buffer.length : Int))
    (hn : 2 * us.length < 2 ^ 31) (hlt : ∀ u ∈ us, u < 2 ^ 16)
    (hint : q.GetInt offset = some (toInt32 ((us.length : Int) * 2)))
    (hdata : (q.buffer.drop (offset + 4 + 2 * ((0 : Nat) : Int)).toNat).take (2 * us.length) =
      unitBytes us) :
    q.GetString offset = some (runesToString (utf16Decode us)) := by
  unfold Page.GetString
  rw [hint, toInt32_small _ (by omega) (by push_cast at hn ⊢; omega), Option.some_bind,
    utf16size_eq]
  simp only [Int.mul_tdiv_cancel _ (show (2 : Int) ≠ 0 by norm_num), Int.toNat_ofNat]
  rw [if_neg (by omega), getUnits_eq q.buffer offset h0 us 0 hlt (by push_cast; omega) hdata]
  rfl

/-- A `Write` through a cached handle whose inode is live, at a non-negative offset,
succeeds. -/
theorem Write_cached_ok (fm : FileManager) (w : World) (blk : BlockID) (page : Page) (h : Nat)
    (f : OpenFile) (data : List Nat)
    (hc : fm.files.lookup blk.fileName = some h) (hf : w.opens[h]? = some f)
    (hd : w.inodes[f.ino]? = some data) (h0 : 0 ≤ wrap64 (blk.blkNum * fm.blockSize)) :
    (fm.Write w blk page).err = none := by
  unfold FileManager.Write
  rw [openFile_cached fm w _ h hc]
  simp only
  rw [seek_eq w h f _ hf h0]
  simp only
  have hf2 := getElem?_set_same w.opens h f ⟨f.ino, wrap64 (blk.blkNum * fm.blockSize)⟩ hf
  simp only [World.write, hf2, hd]

/-- A `Write` succeeds when `openFile` does, the handle and its inode are live and the
offset is not negative. -/
theorem Write_ok_of_open (fm : FileManager) (w : World) (blk : BlockID) (page : Page)
    (w1 : World) (fm1 : FileManager) (h : Nat) (f : OpenFile) (data : List Nat)
    (ho : fm.openFile w blk.fileName = (w1, fm1, Except.ok h)) (hf : w1.opens[h]? = some f)
    (hd : w1.inodes[f.ino]? = some data) (h0 : 0 ≤ wrap64 (blk.blkNum * fm.blockSize)) :
    (fm.Write w blk page).err = none := by
  obtain ⟨hl, hbs, _⟩ := openFile_ok fm w _ w1 fm1 h ho
  rw [Write_after_open fm w blk page w1 fm1 h ho]
  exact Write_cached_ok fm1 w1 blk page h f data hl hf hd (by rw [hbs]; exact h0)

theorem SetInt_some (p q : Page) (offset v : Int) (h : p.SetInt offset v = some q) :
    0 ≤ offset ∧ offset + 4 ≤ (p.buffer.length : Int) ∧
      q = ⟨store p.buffer offset.toNat (putUint32 (toUint32 v))⟩ := by
  unfold Page.SetInt at h
  split at h
  · rename_i hok
    rw [sliceOK_iff, int32bites_eq] at hok
    exact ⟨hok.1, hok.2.2, (Option.some.inj h).symm⟩
  · exact Option.noConfusion h

theorem SetString_some (p q : Page) (offset : Int) (s : List Nat)
    (h : p.SetString offset s = some q) : 0 ≤ offset := by
  unfold Page.SetString at h
  cases hi : p.SetInt offset (toInt32 (((codeUnits s).length : Int) * utf16size)) with
  | none => rw [hi] at h; exact Option.noConfusion h
  | some p1 => exact (SetInt_some p p1 offset _ hi).1

/-- When the prefix read by `GetInt` is negative and even, `GetString` faults. -/
theorem GetString_negative (q : Page) (offset m : Int) (hm : m < 0)
    (hint : q.GetInt offset = some (m * 2)) : q.GetString offset = none := by
  unfold Page.GetString
  rw [hint, Option.some_bind, utf16size_eq]
  simp only [Int.mul_tdiv_cancel _ (show (2 : Int) ≠ 0 by norm_num)]
  rw [if_pos hm]

/-- The page read back in the scenario of the test is the page written, when it takes
one transfer: `SetString`, then `SetInt`, then a successful `Write`, then `Read` into a
page of the same length. -/
theorem scenario_page (fm : FileManager) (w : World) (blk : BlockID) (p2 P : Page)
    (hlen : P.buffer.length = p2.buffer.length) (hmax : p2.buffer.length ≤ maxRW)
    (hw : (fm.Write w blk p2).err = none) :
    ((fm.Write w blk p2).fm.Read (fm.Write w blk p2).world blk P).err = none ∧
      ((fm.Write w blk p2).fm.Read (fm.Write w blk p2).world blk P).page = p2 := by
  obtain ⟨herr, hbuf⟩ := Read_after_Write fm w blk p2 P hlen hmax hw
  refine ⟨herr, ?_⟩
  cases hr : ((fm.Write w blk p2).fm.Read (fm.Write w blk p2).world blk P).page
  rw [hr] at hbuf
  simp only at hbuf
  rw [hbuf]


/-- C7, as amended. For every block size `bs` of at most `2^30` bytes (one transfer
of `Read`), every well-formed UTF-8 string `s`, every 32-bit value `v` and every offset
`pos1` with `pos2 = pos1 + MaxLength(len(s))` and `pos2 + 4 ≤ bs`: if a page of length
`bs` receives `SetString(pos1, s)` and then `SetInt(pos2, v)`, is written to a block with
a successful `Write`, and that block is read into a page of length `bs` with `Read`,
then `Read` succeeds and on the page read `GetInt(pos2)` returns `v` and
`GetString(pos1)` returns `s`. (The string is short enough for `MaxLength` not to wrap,
`4 + 2 * len(s) < 2^63`, as every string that exists is.) -/
theorem test_scenario (fm : FileManager) (w : World) (blk : BlockID) (p0 p1 p2 P : Page)
    (s : List Nat) (v pos1 pos2 : Int)
    (hvalid : ValidString s = true) (hs : 4 + 2 * (s.length : Int) < 2 ^ 63)
    (hv0 : -2 ^ 31 ≤ v) (hv1 : v < 2 ^ 31)
    (hpos2 : pos2 = pos1 + MaxLength s.length) (hfit : pos2 + 4 ≤ fm.blockSize)
    (hmax : fm.blockSize ≤ 2 ^ 30)
    (hp0 : (p0.buffer.length : Int) = fm.blockSize)
    (hP : (P.buffer.length : Int) = fm.blockSize)
    (h1 : p0.SetString pos1 s = some p1) (h2 : p1.SetInt pos2 v = some p2)
    (hw : (fm.Write w blk p2).err = none) :
    ((fm.Write w blk p2).fm.Read (fm.Write w blk p2).world blk P).err = none ∧
      ((fm.Write w blk p2).fm.Read (fm.Write w blk p2).world blk P).page.GetInt pos2 = some v ∧
      ((fm.Write w blk p2).fm.Read (fm.Write w blk p2).world blk P).page.GetString pos1 =
        some s := by
  have hpos1 : 0 ≤ pos1 := SetString_some p0 p1 pos1 s h1
  obtain ⟨_, _, hle, hge⟩ := ValidString_runes s hvalid
  have hM : MaxLength s.length = 4 + 2 * (s.length : Int) :=
    MaxLength_eq _ (by omega) hs
  rw [hM] at hpos2
  have hn : 2 * (codeUnits s).length < 2 ^ 31 := by omega
  have hfit1 : pos1 + 4 + 2 * ((codeUnits s).length : Int) ≤ (p0.buffer.length : Int) := by omega
  obtain ⟨q1, hq1, _, hl1, hint, hdata⟩ := SetString_facts p0 pos1 s hpos1 hfit1
  obtain rfl : q1 = p1 := Option.some.inj (hq1.symm.trans h1)
  obtain ⟨_, _, rfl⟩ := SetInt_some q1 p2 pos2 v h2
  have hst : pos2.toNat + (putUint32 (toUint32 v)).length ≤ q1.buffer.length := by
    rw [putUint32_length]; omega
  have hl2 : (store q1.buffer pos2.toNat (putUint32 (toUint32 v))).length = q1.buffer.length :=
    store_length _ _ _ hst
  obtain ⟨herr, hpage⟩ := scenario_page fm w blk _ P (by simp only [hl2]; omega)
    (by simp only [hl2]; unfold maxRW; omega) hw
  refine ⟨herr, ?_, ?_⟩
  · rw [hpage, GetInt_store_same q1.buffer pos2 _ (toUint32_lt v) (by omega) (by omega),
      toInt32_toUint32 v hv0 hv1]
  · rw [hpage, ← transcode_valid s hvalid]
    refine GetString_of_facts _ pos1 (codeUnits s) hpos1 (by simp only [hl2]; omega) hn
      (utf16Encode_lt _) ?_ ?_
    · rw [GetInt_store_disjoint q1.buffer pos1 _ _ hpos1 hst (Or.inl (by omega))]
      exact hint
    · show ((store q1.buffer _ _).drop _).take _ = _
      rw [drop_take_store_disjoint q1.buffer _ _ hst _ _ (Or.inl (by push_cast; omega))]
      exact hdata

set_option maxRecDepth 100000 in
/-- Witness of C7 as amended: the test itself, block size 400, "qwerty" at offset 88,
606 right after it at offset 104, block 2 of "testfile". -/
theorem test_scenario_witness :
    (((FileManager.mk ["db"] 400 []).Write testWorld ⟨"testfile", 2⟩ scenarioPage).fm.Read
        ((FileManager.mk ["db"] 400 []).Write testWorld ⟨"testfile", 2⟩ scenarioPage).world
        ⟨"testfile", 2⟩ ⟨List.replicate 400 0⟩).err = none ∧
    (((FileManager.mk ["db"] 400 []).Write testWorld ⟨"testfile", 2⟩ scenarioPage).fm.Read
        ((FileManager.mk ["db"] 400 []).Write testWorld ⟨"testfile", 2⟩ scenarioPage).world
        ⟨"testfile", 2⟩ ⟨List.replicate 400 0⟩).page.GetInt 104 = some 606 ∧
    (((FileManager.mk ["db"] 400 []).Write testWorld ⟨"testfile", 2⟩ scenarioPage).fm.Read
        ((FileManager.mk ["db"] 400 []).Write testWorld ⟨"testfile", 2⟩ scenarioPage).world
        ⟨"testfile", 2⟩ ⟨List.replicate 400 0⟩).page.GetString 88 = some qwerty :=
  test_scenario ⟨["db"], 400, []⟩ testWorld ⟨"testfile", 2⟩ ⟨List.replicate 400 0⟩
    ⟨store (List.replicate 400 0) 88 (stringBytes qwerty)⟩ scenarioPage ⟨List.replicate 400 0⟩
    qwerty 606 88 104 (by decide) (by decide) (by decide) (by decide) (by decide) (by decide)
    (by decide)
    (by show ((List.replicate 400 0).length : Int) = 400; rw [List.length_replicate]; rfl)
    (by show ((List.replicate 400 0).length : Int) = 400; rw [List.length_replicate]; rfl)
    (by decide) (by decide) (by decide)

/-! ## The layout of an integer -/

theorem getElem?_putUint32 (u i : Nat) (hi : i < 4) :
    (putUint32 u)[i]? = some (u / 256 ^ i % 256) := by
  interval_cases i <;> simp [putUint32]

/-- The slice of four bytes at an index, from its elements. -/
theorem drop_take_four (b : List Nat) (o b0 b1 b2 b3 : Nat) (e0 : b[o]? = some b0)
    (e1 : b[o + 1]? = some b1) (e2 : b[o + 2]? = some b2) (e3 : b[o + 3]? = some b3) :
    (b.drop o).take 4 = [b0, b1, b2, b3] := by
  apply List.ext_getElem?
  intro i
  rw [getElem?_drop_take]
  by_cases hi : i < 4
  · rw [if_pos hi]
    interval_cases i
    · simpa using e0
    · simpa using e1
    · simpa using e2
    · simpa using e3
  · rw [if_neg hi, List.getElem?_eq_none (by simp; omega)]

/-- The value `GetInt` reads from four bytes: their little-endian sum, read as a
two's-complement 32-bit number. -/
theorem GetInt_of_bytes (r : Page) (offset : Int) (b0 b1 b2 b3 : Nat) (h0 : 0 ≤ offset)
    (h1 : offset + 4 ≤ (r.buffer.length : Int))
    (e0 : r.buffer[offset.toNat]? = some b0) (e1 : r.buffer[offset.toNat + 1]? = some b1)
    (e2 : r.buffer[offset.toNat + 2]? = some b2) (e3 : r.buffer[offset.toNat + 3]? = some b3) :
    r.GetInt offset =
      some (toInt32 ((b0 + b1 * 2 ^ 8 + b2 * 2 ^ 16 + b3 * 2 ^ 24 : Nat) : Int)) := by
  unfold Page.GetInt
  rw [int32bites_eq, slice_eq _ _ _ h0 (by omega) h1,
    show (offset + 4 - offset).toNat = 4 by omega,
    drop_take_four _ _ b0 b1 b2 b3 e0 e1 e2 e3]
  rfl

/-- C11. For every in-range offset and every `int32` value `v` (any integer, which the
conversion to `uint32` reduces modulo `2^32`), `SetInt(offset, v)` returns normally; the byte at `offset + i` (`i = 0..3`) is then
`((v mod 2^32) div 256^i) mod 256`; every byte outside `[offset, offset + 4)` is
unchanged. And on any page, `GetInt(offset)` returns the signed two's-complement
reading of the four bytes at the offset, low byte first. -/
theorem SetInt_layout (p : Page) (offset v : Int) (h0 : 0 ≤ offset)
    (h1 : offset + 4 ≤ (p.buffer.length : Int)) :
    (∃ q, p.SetInt offset v = some q ∧
      (∀ i : Nat, i < 4 →
        q.buffer[offset.toNat + i]? = some ((v % 2 ^ 32).toNat / 256 ^ i % 256)) ∧
      (∀ j : Nat, (j : Int) < offset ∨ offset + 4 ≤ (j : Int) → q.buffer[j]? = p.buffer[j]?)) ∧
    (∀ (r : Page) (b0 b1 b2 b3 : Nat), offset + 4 ≤ (r.buffer.length : Int) →
      r.buffer[offset.toNat]? = some b0 → r.buffer[offset.toNat + 1]? = some b1 →
      r.buffer[offset.toNat + 2]? = some b2 → r.buffer[offset.toNat + 3]? = some b3 →
      b0 < 256 → b1 < 256 → b2 < 256 → b3 < 256 →
      r.GetInt offset = some
        (if b0 + b1 * 256 + b2 * 256 ^ 2 + b3 * 256 ^ 3 < 2 ^ 31 then
          ((b0 + b1 * 256 + b2 * 256 ^ 2 + b3 * 256 ^ 3 : Nat) : Int)
        else ((b0 + b1 * 256 + b2 * 256 ^ 2 + b3 * 256 ^ 3 : Nat) : Int) - 2 ^ 32)) := by
  have hfit : offset.toNat + (putUint32 (toUint32 v)).length ≤ p.buffer.length := by
    rw [putUint32_length]; omega
  refine ⟨⟨_, SetInt_eq p offset v h0 h1, ?_, ?_⟩, ?_⟩
  · intro i hi
    show (store p.buffer _ _)[_]? = _
    rw [getElem?_store _ _ _ hfit, if_pos (by rw [putUint32_length]; omega),
      show offset.toNat + i - offset.toNat = i by omega, getElem?_putUint32 _ i hi]
    rfl
  · intro j hj
    show (store p.buffer _ _)[_]? = _
    rw [getElem?_store _ _ _ hfit, if_neg (by rw [putUint32_length]; omega)]
  · intro r b0 b1 b2 b3 hr e0 e1 e2 e3 hb0 hb1 hb2 hb3
    rw [GetInt_of_bytes r offset b0 b1 b2 b3 h0 hr e0 e1 e2 e3]
    have e : b0 + b1 * 2 ^ 8 + b2 * 2 ^ 16 + b3 * 2 ^ 24 =
        b0 + b1 * 256 + b2 * 256 ^ 2 + b3 * 256 ^ 3 := by norm_num
    have hlt : b0 + b1 * 256 + b2 * 256 ^ 2 + b3 * 256 ^ 3 < 2 ^ 32 := by omega
    rw [e]
    generalize b0 + b1 * 256 + b2 * 256 ^ 2 + b3 * 256 ^ 3 = U at hlt ⊢
    rw [Option.some.injEq]
    unfold toInt32
    split <;> split <;> omega

/-- Witness of C11: the value -2 at offset 1 of a 6-byte page. -/
theorem SetInt_layout_witness :
    ∃ q, (Page.mk [9, 9, 9, 9, 9, 9]).SetInt 1 (-2) = some q ∧
      (∀ i : Nat, i < 4 →
        q.buffer[(1 : Int).toNat + i]? = some (((-2 : Int) % 2 ^ 32).toNat / 256 ^ i % 256)) ∧
      (∀ j : Nat, (j : Int) < 1 ∨ (1 : Int) + 4 ≤ (j : Int) →
        q.buffer[j]? = (Page.mk [9, 9, 9, 9, 9, 9]).buffer[j]?) :=
  (SetInt_layout ⟨[9, 9, 9, 9, 9, 9]⟩ 1 (-2) (by decide) (by decide)).1


/-! ## The layout of a byte sequence -/

/-- The bytes `GetBytes` returns on a page whose prefix is a length that fits. -/
theorem GetBytes_of_prefix (r : Page) (offset m : Int) (h0 : 0 ≤ offset) (hm : 0 ≤ m)
    (hfit : offset + 4 + m ≤ (r.buffer.length : Int)) (hint : r.GetInt offset = some m) :
    r.GetBytes offset = some ((r.buffer.drop (offset + 4).toNat).take m.toNat) := by
  unfold Page.GetBytes
  rw [hint, Option.some_bind, int32bites_eq, slice_eq _ _ _ (by omega) (by omega) hfit,
    show (offset + 4 + m - (offset + 4)).toNat = m.toNat by omega]

/-- C12, as amended. For every byte sequence `b` and offset where it fits, after
`SetBytes(offset, b)` the prefix read by `GetInt(offset)` is `int32(len(b))`, which is
`len(b)` when `len(b) < 2^31`; the bytes at `[offset + 4, offset + 4 + len(b))` equal
`b`; and all bytes outside `[offset, offset + 4 + len(b))` are unchanged. And for any
page whose `int32` at the offset is a length `m ≥ 0` with `offset + 4 + m ≤ len(buffer)`,
`GetBytes(offset)` returns exactly the `m` bytes at `[offset + 4, offset + 4 + m)`. -/
theorem SetBytes_layout (p : Page) (offset : Int) (b : List Nat) (h0 : 0 ≤ offset)
    (h1 : offset + 4 + (b.length : Int) ≤ (p.buffer.length : Int)) :
    (∃ q, p.SetBytes offset b = some q ∧
      q.GetInt offset = some (toInt32 b.length) ∧
      (b.length < 2 ^ 31 → q.GetInt offset = some (b.length : Int)) ∧
      (q.buffer.drop (offset + 4).toNat).take b.length = b ∧
      (∀ j : Nat, (j : Int) < offset ∨ offset + 4 + (b.length : Int) ≤ (j : Int) →
        q.buffer[j]? = p.buffer[j]?)) ∧
    (∀ (r : Page) (m : Int), 0 ≤ m → offset + 4 + m ≤ (r.buffer.length : Int) →
      r.GetInt offset = some m →
      r.GetBytes offset = some ((r.buffer.drop (offset + 4).toNat).take m.toNat)) := by
  obtain ⟨q, hq, hql, hget, hdata⟩ := GetInt_SetBytes p offset b h0 h1
  refine ⟨⟨q, hq, hget, ?_, hdata, ?_⟩, ?_⟩
  · intro hlen
    rw [hget, toInt32_small _ (by omega) (by exact_mod_cast hlen)]
  · intro j hj
    have e := SetBytes_eq p offset b h0 h1
    rw [hq] at e
    rw [Option.some.inj e]
    show (store (store p.buffer _ _) _ _)[j]? = _
    have hl1 : (store p.buffer offset.toNat
        (putUint32 (toUint32 (toInt32 b.length)))).length = p.buffer.length :=
      store_length _ _ _ (by rw [putUint32_length]; omega)
    rw [getElem?_store _ _ _ (by rw [hl1]; omega), if_neg (by omega),
      getElem?_store _ _ _ (by rw [putUint32_length]; omega),
      if_neg (by rw [putUint32_length]; omega)]
  · intro r m hm hfit hint
    exact GetBytes_of_prefix r offset m h0 hm hfit hint

/-- Witness of C12 as amended: three bytes at offset 1 of a 9-byte page. -/
theorem SetBytes_layout_witness :
    ∃ q, (Page.mk [9, 9, 9, 9, 9, 9, 9, 9, 9]).SetBytes 1 [5, 6, 7] = some q ∧
      q.GetInt 1 = some (toInt32 ([5, 6, 7] : List Nat).length) ∧
      (([5, 6, 7] : List Nat).length < 2 ^ 31 →
        q.GetInt 1 = some ((([5, 6, 7] : List Nat).length : Nat) : Int)) ∧
      (q.buffer.drop ((1 : Int) + 4).toNat).take ([5, 6, 7] : List Nat).length = [5, 6, 7] ∧
      (∀ j : Nat, (j : Int) < 1 ∨ (1 : Int) + 4 + (([5, 6, 7] : List Nat).length : Int) ≤ (j : Int) →
        q.buffer[j]? = (Page.mk [9, 9, 9, 9, 9, 9, 9, 9, 9]).buffer[j]?) :=
  (SetBytes_layout ⟨[9, 9, 9, 9, 9, 9, 9, 9, 9]⟩ 1 [5, 6, 7] (by decide) (by decide)).1

/-- C12 fails as stated: a sequence of `2^31` zero bytes fits at offset 0 of a page of
`2^31 + 4` bytes, `SetBytes` returns normally, and `GetInt(0)` then returns `-2^31`, not
the length `2^31`. -/
theorem SetBytes_layout_counterexample :
    (0 : Int) + 4 + ((List.replicate 2147483648 0).length : Int) ≤
        ((Page.mk (List.replicate 2147483652 0)).buffer.length : Int) ∧
      ∃ q, (Page.mk (List.replicate 2147483652 0)).SetBytes 0 (List.replicate 2147483648 0) =
          some q ∧ q.GetInt 0 = some (-2147483648) ∧
          q.GetInt 0 ≠ some (((List.replicate 2147483648 0).length : Nat) : Int) := by
  have hb : (List.replicate 2147483648 (0 : Nat)).length = 2147483648 := List.length_replicate _ _
  have hp : (Page.mk (List.replicate 2147483652 0)).buffer.length = 2147483652 :=
    List.length_replicate _ _
  have hfit : (0 : Int) + 4 + ((List.replicate 2147483648 (0 : Nat)).length : Int) ≤
      ((Page.mk (List.replicate 2147483652 0)).buffer.length : Int) := by
    rw [hb, hp]; norm_num
  obtain ⟨q, hq, _, hget, _⟩ := GetInt_SetBytes _ 0 _ (le_refl _) hfit
  have hv : toInt32 ((List.replicate 2147483648 (0 : Nat)).length : Int) = -2147483648 := by
    rw [hb, toInt32_big _ (by norm_num) (by norm_num)]
    norm_num
  rw [hv] at hget
  refine ⟨hfit, q, hq, hget, ?_⟩
  rw [hget, hb]
  intro h
  have := Option.some.inj h
  norm_num at this

/-! ## Faults of the accessors -/

theorem SetInt_isSome (p : Page) (offset v : Int) :
    (p.SetInt offset v).isSome = true ↔ 0 ≤ offset ∧ offset + 4 ≤ (p.buffer.length : Int) := by
  unfold Page.SetInt
  split
  · rename_i h
    rw [sliceOK_iff, int32bites_eq] at h
    simp only [Option.isSome_some, true_iff]
    exact ⟨h.1, h.2.2⟩
  · rename_i h
    rw [sliceOK_iff, int32bites_eq] at h
    simp only [Option.isSome_none, Bool.false_eq_true, false_iff]
    intro hc
    exact h ⟨hc.1, by omega, hc.2⟩

theorem uint32_isSome (l : List Nat) (h : l.length = 4) : ∃ u, uint32 l = some u := by
  match l, h with
  | [b0, b1, b2, b3], _ => exact ⟨_, rfl⟩

theorem GetInt_isSome (p : Page) (offset : Int) :
    (p.GetInt offset).isSome = true ↔ 0 ≤ offset ∧ offset + 4 ≤ (p.buffer.length : Int) := by
  unfold Page.GetInt slice
  split
  · rename_i h
    rw [sliceOK_iff, int32bites_eq] at h
    obtain ⟨u, hu⟩ := uint32_isSome ((p.buffer.drop offset.toNat).take
      (offset + int32bites - offset).toNat) (by
        rw [List.length_take, List.length_drop, int32bites_eq]; omega)
    rw [Option.some_bind, hu]
    exact ⟨fun _ => ⟨h.1, h.2.2⟩, fun _ => rfl⟩
  · rename_i h
    rw [sliceOK_iff, int32bites_eq] at h
    simp only [Option.none_bind, Option.isSome_none, Bool.false_eq_true, false_iff]
    intro hc
    exact h ⟨hc.1, by omega, hc.2⟩

theorem SetBytes_isSome (p : Page) (offset : Int) (b : List Nat) :
    (p.SetBytes offset b).isSome = true ↔
      0 ≤ offset ∧ offset + 4 + (b.length : Int) ≤ (p.buffer.length : Int) := by
  constructor
  · intro h
    unfold Page.SetBytes at h
    cases hi : p.SetInt offset (toInt32 b.length) with
    | none => rw [hi] at h; simp at h
    | some p1 =>
      obtain ⟨h0, h1, rfl⟩ := SetInt_some p p1 offset _ hi
      rw [hi, Option.some_bind] at h
      split at h
      · rename_i hok
        rw [sliceOK_iff, int32bites_eq,
          store_length _ _ _ (by rw [putUint32_length]; omega)] at hok
        exact ⟨h0, hok.2.2⟩
      · simp at h
  · intro h
    rw [SetBytes_eq p offset b h.1 h.2]
    rfl

theorem setUint16_some (p q : Page) (offset : Int) (u : Nat) (h : p.setUint16 offset u = some q) :
    0 ≤ offset ∧ offset + 2 ≤ (p.buffer.length : Int) ∧ q.buffer.length = p.buffer.length := by
  unfold Page.setUint16 at h
  split at h
  · rename_i hok
    rw [sliceOK_iff, utf16size_eq] at hok
    rw [← Option.some.inj h]
    exact ⟨hok.1, hok.2.2, store_length _ _ _ (by rw [putUint16_length]; omega)⟩
  · exact Option.noConfusion h

/-- When the loop of `SetString` returns normally, every code unit fitted, and the
length of the buffer is kept. -/
theorem setUnits_some (offset : Int) : ∀ (us : List Nat) (i : Nat) (p q : Page),
    Page.setUnits offset i us p = some q →
    q.buffer.length = p.buffer.length ∧
      (us ≠ [] → offset + 4 + 2 * ((i : Int) + us.length) ≤ (p.buffer.length : Int)) := by
  intro us
  induction us with
  | nil =>
    intro i p q h
    rw [Page.setUnits] at h
    rw [Option.some.inj h]
    exact ⟨rfl, fun hc => absurd rfl hc⟩
  | cons u us ih =>
    intro i p q h
    rw [Page.setUnits] at h
    cases h1 : p.setUint16 (offset + int32bites + utf16size * (i : Int)) u with
    | none => rw [h1] at h; exact Option.noConfusion h
    | some p1 =>
      rw [h1, Option.some_bind] at h
      obtain ⟨_, hfit, hl1⟩ := setUint16_some p p1 _ u h1
      rw [int32bites_eq, utf16size_eq] at hfit
      obtain ⟨hl2, hrest⟩ := ih (i + 1) p1 q h
      refine ⟨hl2.trans hl1, fun _ => ?_⟩
      by_cases hus : us = []
      · subst hus
        simp only [List.length_singleton, Nat.cast_one]
        omega
      · have := hrest hus
        rw [hl1] at this
        simp only [List.length_cons, Nat.cast_add, Nat.cast_one] at this ⊢
        omega

theorem SetString_isSome (p : Page) (offset : Int) (s : List Nat) :
    (p.SetString offset s).isSome = true ↔
      0 ≤ offset ∧ offset + 4 + 2 * ((codeUnits s).length : Int) ≤ (p.buffer.length : Int) := by
  constructor
  · intro h
    unfold Page.SetString at h
    cases hi : p.SetInt offset (toInt32 (((codeUnits s).length : Int) * utf16size)) with
    | none => rw [hi] at h; simp at h
    | some p1 =>
      obtain ⟨h0, h1, rfl⟩ := SetInt_some p p1 offset _ hi
      rw [hi, Option.some_bind] at h
      cases hu : Page.setUnits offset 0 (codeUnits s)
          ⟨store p.buffer offset.toNat (putUint32 (toUint32
            (toInt32 (((codeUnits s).length : Int) * utf16size))))⟩ with
      | none => rw [hu] at h; simp at h
      | some q =>
        obtain ⟨_, hfit⟩ := setUnits_some offset _ 0 _ q hu
        refine ⟨h0, ?_⟩
        by_cases hc : codeUnits s = []
        · rw [hc]; simp only [List.length_nil, Nat.cast_zero]; omega
        · have := hfit hc
          rw [show (Page.mk (store p.buffer offset.toNat (putUint32 (toUint32
            (toInt32 (((codeUnits s).length : Int) * utf16size)))))).buffer.length =
            p.buffer.length from store_length _ _ _ (by rw [putUint32_length]; omega)] at this
          push_cast at this
          omega
  · intro h
    rw [SetString_eq p offset s h.1 h.2]
    rfl

/-- C13. For an offset that is not negative the page accessors return normally exactly
when the encoded region lies inside the buffer, and fault otherwise: `SetInt` and
`GetInt` succeed iff `offset + 4 ≤ len(buffer)`; `SetBytes(offset, b)` succeeds iff
`offset + 4 + len(b) ≤ len(buffer)`; and `SetString(offset, s)` succeeds iff
`offset + MaxLength(n) ≤ len(buffer)`, `n` being the number of UTF-16 code units of `s`
(with `4 + 2 * n` below `2^63`, as for every string that exists, so that `MaxLength(n)`
does not wrap). -/
theorem accessors_fault_iff (p : Page) (offset : Int) (h0 : 0 ≤ offset) :
    (∀ v, (p.SetInt offset v).isSome = true ↔ offset + 4 ≤ (p.buffer.length : Int)) ∧
    ((p.GetInt offset).isSome = true ↔ offset + 4 ≤ (p.buffer.length : Int)) ∧
    (∀ b : List Nat, (p.SetBytes offset b).isSome = true ↔
      offset + 4 + (b.length : Int) ≤ (p.buffer.length : Int)) ∧
    (∀ s : List Nat, 4 + 2 * ((codeUnits s).length : Int) < 2 ^ 63 →
      ((p.SetString offset s).isSome = true ↔
        offset + MaxLength (codeUnits s).length ≤ (p.buffer.length : Int))) := by
  refine ⟨fun v => ?_, ?_, fun b => ?_, fun s hs => ?_⟩
  · rw [SetInt_isSome]; exact ⟨fun h => h.2, fun h => ⟨h0, h⟩⟩
  · rw [GetInt_isSome]; exact ⟨fun h => h.2, fun h => ⟨h0, h⟩⟩
  · rw [SetBytes_isSome]; exact ⟨fun h => h.2, fun h => ⟨h0, h⟩⟩
  · rw [SetString_isSome, MaxLength_eq _ (by omega) hs]
    exact ⟨fun h => by omega, fun h => ⟨h0, by omega⟩⟩

/-- Witness of C13: offset 3 of an 8-byte page, where an integer and a one-byte
sequence fit and a two-byte sequence and a one-letter string do not. -/
theorem accessors_fault_iff_witness :
    ((Page.mk [0, 0, 0, 0, 0, 0, 0, 0]).SetInt 3 7).isSome = true ∧
    ((Page.mk [0, 0, 0, 0, 0, 0, 0, 0]).SetBytes 3 [1]).isSome = true ∧
    ((Page.mk [0, 0, 0, 0, 0, 0, 0, 0]).SetBytes 3 [1, 2]).isSome = false ∧
    ((Page.mk [0, 0, 0, 0, 0, 0, 0, 0]).SetString 3 [0x71]).isSome = false :=
  ⟨((accessors_fault_iff ⟨[0, 0, 0, 0, 0, 0, 0, 0]⟩ 3 (by decide)).1 7).2 (by decide),
    by decide, by decide, by decide⟩


/-! ## The length of a page -/

theorem read_length (w : World) (h : Nat) (b : List Nat) :
    (w.read h b).2.1.length = b.length := by
  unfold World.read
  split
  · rfl
  · split
    · rfl
    · simp only
      split_ifs
      · rfl
      · rfl
      · exact store_length _ _ _ (by
          simp only [List.length_take, List.length_drop]; omega)

theorem Read_page_length (fm : FileManager) (w : World) (blk : BlockID) (page : Page) :
    (fm.Read w blk page).page.buffer.length = page.buffer.length := by
  unfold FileManager.Read
  split
  · rfl
  · split
    · rfl
    · rename_i w2 _ _
      split
      · rename_i w3 b n e heq
        show b.length = _
        rw [show b = (w3, b, n, some e).2.1 from rfl, ← heq]
        exact read_length _ _ _
      · rename_i w3 b n heq
        show b.length = _
        rw [show b = (w3, b, n, (none : Option OSError)).2.1 from rfl, ← heq]
        exact read_length _ _ _

theorem SetBytes_length (p q : Page) (offset : Int) (b : List Nat)
    (h : p.SetBytes offset b = some q) : q.buffer.length = p.buffer.length := by
  have hs : (p.SetBytes offset b).isSome = true := by rw [h]; rfl
  obtain ⟨h0, h1⟩ := (SetBytes_isSome p offset b).1 hs
  obtain ⟨q2, hq2, hl, _⟩ := GetInt_SetBytes p offset b h0 h1
  rw [h] at hq2
  rw [Option.some.inj hq2]
  exact hl

theorem SetString_length (p q : Page) (offset : Int) (s : List Nat)
    (h : p.SetString offset s = some q) : q.buffer.length = p.buffer.length := by
  have hs : (p.SetString offset s).isSome = true := by rw [h]; rfl
  obtain ⟨h0, h1⟩ := (SetString_isSome p offset s).1 hs
  obtain ⟨q2, hq2, _, hl, _⟩ := SetString_facts p offset s h0 h1
  rw [h] at hq2
  rw [Option.some.inj hq2]
  exact hl

/-- C14. `NewPage(blockSize)` creates a zero-filled buffer of exactly `blockSize` bytes,
and every operation that mutates a page and returns (`SetInt`, `SetBytes`, `SetString`,
and `FileManager.Read` into it, with or without an error) leaves the length of the
buffer unchanged. -/
theorem page_length_fixed :
    (∀ blockSize : Int, 0 ≤ blockSize → ∃ p, NewPage blockSize = some p ∧
      (p.buffer.length : Int) = blockSize ∧ ∀ b ∈ p.buffer, b = 0) ∧
    (∀ (p q : Page) (offset v : Int), p.SetInt offset v = some q →
      q.buffer.length = p.buffer.length) ∧
    (∀ (p q : Page) (offset : Int) (b : List Nat), p.SetBytes offset b = some q →
      q.buffer.length = p.buffer.length) ∧
    (∀ (p q : Page) (offset : Int) (s : List Nat), p.SetString offset s = some q →
      q.buffer.length = p.buffer.length) ∧
    (∀ (fm : FileManager) (w : World) (blk : BlockID) (page : Page),
      (fm.Read w blk page).page.buffer.length = page.buffer.length) := by
  refine ⟨?_, ?_, SetBytes_length, SetString_length, Read_page_length⟩
  · intro bs hbs
    refine ⟨⟨List.replicate bs.toNat 0⟩, by simp only [NewPage, hbs, if_true], ?_, ?_⟩
    · rw [List.length_replicate]; omega
    · intro b hb
      exact List.eq_of_mem_replicate hb
  · intro p q offset v h
    obtain ⟨h0, h1, rfl⟩ := SetInt_some p q offset v h
    exact store_length _ _ _ (by rw [putUint32_length]; omega)

/-- Witness of C14: a new page of 4 bytes, an integer stored in it, and a short read
into it. -/
theorem page_length_fixed_witness :
    (∃ p, NewPage 4 = some p ∧ (p.buffer.length : Int) = 4 ∧ ∀ b ∈ p.buffer, b = 0) ∧
    (∀ q, (Page.mk [0, 0, 0, 0]).SetInt 0 606 = some q →
      q.buffer.length = (Page.mk [0, 0, 0, 0]).buffer.length) ∧
    (testManager.Read leftoverWorld ⟨"f", 0⟩ ⟨[0, 0, 0, 0]⟩).page.buffer.length =
      (Page.mk [0, 0, 0, 0]).buffer.length :=
  ⟨page_length_fixed.1 4 (by decide),
    fun q h => page_length_fixed.2.1 ⟨[0, 0, 0, 0]⟩ q 0 606 h,
    page_length_fixed.2.2.2.2 testManager leftoverWorld ⟨"f", 0⟩ ⟨[0, 0, 0, 0]⟩⟩

/-! ## Code units of an arbitrary string -/

/-- A read of `decodeRune` that is not well-formed yields U+FFFD and a width of one. -/
theorem decodeRune_bad (p0 : Nat) (t : List Nat) (h : (decodeRune (p0 :: t)).2.2 = false) :
    (decodeRune (p0 :: t)).1 = RuneError ∧ (decodeRune (p0 :: t)).2.1 = 1 := by
  generalize hd : decodeRune (p0 :: t) = d at h
  simp only [decodeRune] at hd
  repeat' split at hd
  all_goals (subst hd; first | exact ⟨rfl, rfl⟩ | (simp at h))

/-- Whatever `decodeRune` reads on a non-empty string, the rune is a scalar value and
takes no more UTF-16 code units than the bytes read, which the string holds. -/
theorem decodeRune_units (p0 : Nat) (t : List Nat) :
    isScalar (decodeRune (p0 :: t)).1 ∧
      (utf16EncodeRune (decodeRune (p0 :: t)).1).length ≤ (decodeRune (p0 :: t)).2.1 ∧
      (decodeRune (p0 :: t)).2.1 ≤ (p0 :: t).length := by
  cases hok : (decodeRune (p0 :: t)).2.2 with
  | true =>
    have hd : decodeRune (p0 :: t) =
        ((decodeRune (p0 :: t)).1, (decodeRune (p0 :: t)).2.1, true) := by rw [← hok]
    obtain ⟨h1, _, _, h4, h5, _⟩ := decodeRune_ok _ _ _ hd
    exact ⟨h1, h5, h4⟩
  | false =>
    obtain ⟨h1, h2⟩ := decodeRune_bad p0 t hok
    rw [h1, h2]
    refine ⟨Or.inr (by norm_num), ?_, by simp⟩
    rw [utf16EncodeRune_length_bmp _ (by norm_num)]

/-- The runes of any string are scalar values, and their UTF-16 code units are no more
than the bytes of the string. -/
theorem runesFrom_units (fuel : Nat) : ∀ s : List Nat,
    (∀ r ∈ runesFrom fuel s, isScalar r) ∧ (utf16Encode (runesFrom fuel s)).length ≤ s.length := by
  induction fuel with
  | zero => intro s; simp [runesFrom, utf16Encode]
  | succ fuel ih =>
    intro s
    cases s with
    | nil => simp [runesFrom, utf16Encode]
    | cons p0 t =>
      obtain ⟨h1, h2, h3⟩ := decodeRune_units p0 t
      obtain ⟨i1, i2⟩ := ih ((p0 :: t).drop (decodeRune (p0 :: t)).2.1)
      rw [List.length_drop] at i2
      simp only [runesFrom, utf16Encode, List.length_append]
      refine ⟨?_, by omega⟩
      intro r hr
      rcases List.mem_cons.1 hr with rfl | hr
      · exact h1
      · exact i1 r hr

theorem codeUnits_length_le (s : List Nat) : (codeUnits s).length ≤ s.length :=
  (runesFrom_units s.length s).2

theorem stringToRunes_scalar (s : List Nat) : ∀ r ∈ stringToRunes s, isScalar r :=
  (runesFrom_units s.length s).1

/-- C18. For every string `s`, of any byte content, the number of UTF-16 code units
`SetString` writes is at most `len(s)`; hence, `MaxLength(len(s))` not wrapping (the
string has fewer than `2^62 - 2` bytes), the bytes `SetString(offset, s)` stores end at
or before `offset + MaxLength(len(s))`, and it changes no byte at or beyond that index:
a field laid out there does not overlap the encoded string. -/
theorem SetString_within_MaxLength (s : List Nat) (hs : 4 + 2 * (s.length : Int) < 2 ^ 63) :
    (codeUnits s).length ≤ s.length ∧
    MaxLength (codeUnits s).length ≤ MaxLength s.length ∧
    ∀ (p q : Page) (offset : Int), p.SetString offset s = some q →
      ∀ i : Nat, offset + MaxLength s.length ≤ (i : Int) → q.buffer[i]? = p.buffer[i]? := by
  have hle := codeUnits_length_le s
  have hM : MaxLength s.length = 4 + 2 * (s.length : Int) := MaxLength_eq _ (by omega) hs
  have hMn : MaxLength (codeUnits s).length = 4 + 2 * ((codeUnits s).length : Int) :=
    MaxLength_eq _ (by omega) (by omega)
  refine ⟨hle, by rw [hM, hMn]; omega, ?_⟩
  intro p q offset h i hi
  have hsome : (p.SetString offset s).isSome = true := by rw [h]; rfl
  obtain ⟨h0, h1⟩ := (SetString_isSome p offset s).1 hsome
  obtain ⟨q2, hq2, hbuf, _, _, _⟩ := SetString_facts p offset s h0 h1
  rw [h] at hq2
  rw [Option.some.inj hq2, hbuf]
  rw [getElem?_store _ _ _ (by
      rw [List.length_append, putUint32_length, unitBytes_length]; omega),
    if_neg (by rw [List.length_append, putUint32_length, unitBytes_length]; omega)]

/-- Witness of C18: the three bytes of the euro sign are one code unit; stored at offset
0 of a 14-byte page they leave the bytes from `MaxLength(3) = 10` on as they were. -/
theorem SetString_within_MaxLength_witness :
    (codeUnits [0xE2, 0x82, 0xAC]).length ≤ ([0xE2, 0x82, 0xAC] : List Nat).length ∧
    MaxLength (codeUnits [0xE2, 0x82, 0xAC]).length ≤
      MaxLength ([0xE2, 0x82, 0xAC] : List Nat).length ∧
    ∀ (p q : Page) (offset : Int), p.SetString offset [0xE2, 0x82, 0xAC] = some q →
      ∀ i : Nat, offset + MaxLength ([0xE2, 0x82, 0xAC] : List Nat).length ≤ (i : Int) →
        q.buffer[i]? = p.buffer[i]? :=
  SetString_within_MaxLength [0xE2, 0x82, 0xAC] (by decide)


/-! ## The string round trip as a normalisation -/

theorem decodeRune_one (p0 : Nat) (rest : List Nat) (h : p0 < 0x80) :
    decodeRune (p0 :: rest) = (p0, 1, true) := by
  simp only [decodeRune, h, if_true]

theorem decodeRune_two (p0 b1 : Nat) (rest : List Nat) (h0 : 0xC2 ≤ p0) (h1 : p0 ≤ 0xDF)
    (h2 : 0x80 ≤ b1) (h3 : b1 ≤ 0xBF) :
    decodeRune (p0 :: b1 :: rest) = (p0 % 32 * 64 + b1 % 64, 2, true) := by
  have hl : leadInfo p0 = some (2, 0x80, 0xBF) := by
    unfold leadInfo
    rw [if_pos ⟨h0, h1⟩]
  simp only [decodeRune, hl, if_neg (show ¬ p0 < 0x80 by omega),
    if_neg (show ¬ (b1 :: rest).length + 1 < 2 by simp),
    if_neg (show ¬ (b1 < 0x80 ∨ 0xBF < b1) by omega), if_pos (le_refl 2)]

theorem leadInfo_three (p0 : Nat) (h0 : 0xE0 ≤ p0) (h1 : p0 ≤ 0xEF) :
    ∃ lo hi, leadInfo p0 = some (3, lo, hi) ∧ (p0 = 0xE0 → lo = 0xA0) ∧ (p0 ≠ 0xE0 → lo = 0x80) ∧
      (p0 = 0xED → hi = 0x9F) ∧ (p0 ≠ 0xED → hi = 0xBF) := by
  unfold leadInfo
  split_ifs with c1 c2 c3 c4 c5
  · omega
  · exact ⟨_, _, rfl, fun _ => rfl, fun h => absurd c2 h, fun h => by omega, fun _ => rfl⟩
  · exact ⟨_, _, rfl, fun h => by omega, fun _ => rfl, fun h => by omega, fun _ => rfl⟩
  · exact ⟨_, _, rfl, fun h => by omega, fun _ => rfl, fun _ => rfl, fun h => absurd c4 h⟩
  · exact ⟨_, _, rfl, fun h => by omega, fun _ => rfl, fun h => by omega, fun _ => rfl⟩
  all_goals omega

theorem leadInfo_four (p0 : Nat) (h0 : 0xF0 ≤ p0) (h1 : p0 ≤ 0xF4) :
    ∃ lo hi, leadInfo p0 = some (4, lo, hi) ∧ (p0 = 0xF0 → lo = 0x90) ∧ (p0 ≠ 0xF0 → lo = 0x80) ∧
      (p0 = 0xF4 → hi = 0x8F) ∧ (p0 ≠ 0xF4 → hi = 0xBF) := by
  unfold leadInfo
  split_ifs with c1 c2 c3 c4 c5 c6 c7 c8
  any_goals omega
  · exact ⟨_, _, rfl, fun _ => rfl, fun h => absurd c6 h, fun h => by omega, fun _ => rfl⟩
  · exact ⟨_, _, rfl, fun h => by omega, fun _ => rfl, fun h => by omega, fun _ => rfl⟩
  · exact ⟨_, _, rfl, fun h => by omega, fun _ => rfl, fun _ => rfl, fun h => absurd c8 h⟩

theorem decodeRune_three (p0 b1 b2 : Nat) (rest : List Nat) (h0 : 0xE0 ≤ p0) (h1 : p0 ≤ 0xEF)
    (h2 : 0x80 ≤ b1) (h3 : b1 ≤ 0xBF) (h4 : p0 = 0xE0 → 0xA0 ≤ b1) (h5 : p0 = 0xED → b1 ≤ 0x9F)
    (h6 : 0x80 ≤ b2) (h7 : b2 ≤ 0xBF) :
    decodeRune (p0 :: b1 :: b2 :: rest) = (p0 % 16 * 4096 + b1 % 64 * 64 + b2 % 64, 3, true) := by
  obtain ⟨lo, hi, hl, l1, l2, l3, l4⟩ := leadInfo_three p0 h0 h1
  have hb1 : ¬ (b1 < lo ∨ hi < b1) := by
    by_cases c1 : p0 = 0xE0 <;> by_cases c2 : p0 = 0xED <;> omega
  have hc2 : isCont b2 = true := (isCont_iff b2).2 ⟨h6, h7⟩
  simp only [decodeRune, hl, if_neg (show ¬ p0 < 0x80 by omega),
    if_neg (show ¬ (b1 :: b2 :: rest).length + 1 < 3 by simp), if_neg hb1,
    if_neg (show ¬ 3 ≤ 2 by omega), hc2, Bool.not_true, Bool.false_eq_true, if_false,
    if_pos (le_refl 3)]

theorem decodeRune_four (p0 b1 b2 b3 : Nat) (rest : List Nat) (h0 : 0xF0 ≤ p0) (h1 : p0 ≤ 0xF4)
    (h2 : 0x80 ≤ b1) (h3 : b1 ≤ 0xBF) (h4 : p0 = 0xF0 → 0x90 ≤ b1) (h5 : p0 = 0xF4 → b1 ≤ 0x8F)
    (h6 : 0x80 ≤ b2) (h7 : b2 ≤ 0xBF) (h8 : 0x80 ≤ b3) (h9 : b3 ≤ 0xBF) :
    decodeRune (p0 :: b1 :: b2 :: b3 :: rest) =
      (p0 % 8 * 262144 + b1 % 64 * 4096 + b2 % 64 * 64 + b3 % 64, 4, true) := by
  obtain ⟨lo, hi, hl, l1, l2, l3, l4⟩ := leadInfo_four p0 h0 h1
  have hb1 : ¬ (b1 < lo ∨ hi < b1) := by
    by_cases c1 : p0 = 0xF0 <;> by_cases c2 : p0 = 0xF4 <;> omega
  have hc2 : isCont b2 = true := (isCont_iff b2).2 ⟨h6, h7⟩
  have hc3 : isCont b3 = true := (isCont_iff b3).2 ⟨h8, h9⟩
  simp only [decodeRune, hl, if_neg (show ¬ p0 < 0x80 by omega),
    if_neg (show ¬ (b1 :: b2 :: b3 :: rest).length + 1 < 4 by simp), if_neg hb1,
    if_neg (show ¬ 4 ≤ 2 by omega), if_neg (show ¬ 4 ≤ 3 by omega), hc2, hc3, Bool.not_true,
    Bool.false_eq_true, if_false]

/-- Function `decodeRune` reads back the encoding of a scalar value. -/
theorem decodeRune_encodeRune (r : Nat) (h : isScalar r) (rest : List Nat) :
    decodeRune (encodeRune r ++ rest) = (r, (encodeRune r).length, true) ∧
      1 ≤ (encodeRune r).length := by
  unfold isScalar at h
  unfold encodeRune
  split_ifs with c1 c2 c3 c4
  · exact ⟨decodeRune_one r rest (by omega), le_refl _⟩
  · refine ⟨?_, by simp⟩
    simp only [List.cons_append, List.nil_append, List.length_cons, List.length_nil]
    rw [decodeRune_two _ _ rest (by omega) (by omega) (by omega) (by omega)]
    congr 1
    omega
  · omega
  · refine ⟨?_, by simp⟩
    simp only [List.cons_append, List.nil_append, List.length_cons, List.length_nil]
    rw [decodeRune_three _ _ _ rest (by omega) (by omega) (by omega) (by omega) (by omega)
      (by omega) (by omega) (by omega)]
    congr 1
    omega
  · refine ⟨?_, by simp⟩
    simp only [List.cons_append, List.nil_append, List.length_cons, List.length_nil]
    rw [decodeRune_four _ _ _ _ rest (by omega) (by omega) (by omega) (by omega) (by omega)
      (by omega) (by omega) (by omega) (by omega) (by omega)]
    congr 1
    omega


/-- The rune conversion reads back the string built from scalar values. -/
theorem stringToRunes_runesToString (rs : List Nat) (h : ∀ r ∈ rs, isScalar r) :
    stringToRunes (runesToString rs) = rs := by
  induction rs with
  | nil => rfl
  | cons r rs ih =>
    obtain ⟨hd, hpos⟩ := decodeRune_encodeRune r (h r (List.mem_cons_self _ _)) (runesToString rs)
    rw [runesToString]
    cases he : encodeRune r with
    | nil => rw [he] at hpos; simp at hpos
    | cons b0 bs =>
      rw [he] at hd
      rw [List.cons_append] at hd ⊢
      rw [stringToRunes_cons, hd]
      simp only
      rw [← List.cons_append, List.drop_left, ih (fun x hx => h x (List.mem_cons_of_mem _ hx))]

/-- The string rebuilt from the runes of `s`: every ill-formed byte of `s` has become
U+FFFD. It is rebuilt unchanged from its own runes. -/
theorem normal_idem (s : List Nat) :
    runesToString (stringToRunes (runesToString (stringToRunes s))) =
      runesToString (stringToRunes s) ∧
    codeUnits (runesToString (stringToRunes s)) = codeUnits s := by
  have e := stringToRunes_runesToString (stringToRunes s) (stringToRunes_scalar s)
  exact ⟨by rw [e], by rw [codeUnits, e, codeUnits]⟩

theorem encodeRune_RuneError : encodeRune RuneError = [0xEF, 0xBF, 0xBD] := by decide

/-- A string that is rebuilt unchanged from its runes is well-formed. -/
theorem runes_fixed_valid (fuel : Nat) : ∀ s : List Nat, s.length ≤ fuel →
    runesToString (runesFrom fuel s) = s → validFrom fuel s = true := by
  induction fuel with
  | zero =>
    intro s hs _
    rw [List.length_eq_zero.1 (Nat.le_zero.1 hs)]
    rfl
  | succ fuel ih =>
    intro s hs h
    cases s with
    | nil => rfl
    | cons p0 t =>
      simp only [runesFrom, runesToString] at h
      simp only [validFrom, Bool.and_eq_true]
      have hw := (decodeRune_width p0 t).1
      cases hok : (decodeRune (p0 :: t)).2.2 with
      | true =>
        have hd : decodeRune (p0 :: t) =
            ((decodeRune (p0 :: t)).1, (decodeRune (p0 :: t)).2.1, true) := by rw [← hok]
        obtain ⟨_, henc, _, _, _, _⟩ := decodeRune_ok _ _ _ hd
        rw [henc] at h
        have h2 := List.append_cancel_left
          (h.trans (List.take_append_drop (decodeRune (p0 :: t)).2.1 (p0 :: t)).symm)
        refine ⟨rfl, ih _ ?_ h2⟩
        rw [List.length_drop]
        simp only [List.length_cons] at hs ⊢
        omega
      | false =>
        exfalso
        obtain ⟨h1, h2⟩ := decodeRune_bad p0 t hok
        rw [h1, h2, encodeRune_RuneError] at h
        simp only [List.cons_append, List.nil_append, List.drop_succ_cons, List.drop_zero,
          List.cons.injEq] at h
        obtain ⟨rfl, ht⟩ := h
        rw [← ht, decodeRune_three _ _ _ _ (by norm_num) (by norm_num) (by norm_num)
          (by norm_num) (by norm_num) (by norm_num) (by norm_num) (by norm_num)] at hok
        exact Bool.noConfusion hok

/-- The round trip leaves a string unchanged exactly when it is well-formed UTF-8. -/
theorem normal_eq_iff (s : List Nat) :
    runesToString (stringToRunes s) = s ↔ ValidString s = true :=
  ⟨fun h => runes_fixed_valid s.length s (le_refl _) h, fun h => (ValidString_runes s h).1⟩


/-- C20, as amended. For every string `s` that fits and whose UTF-16 encoding has `n`
code units with `2 * n < 2^31`, `GetString` after `SetString(offset, s)` returns the
string rebuilt from the rune sequence of `s` (`s` with each ill-formed UTF-8 byte
replaced by U+FFFD); this result equals `s` if and only if `s` is valid UTF-8; and the
round trip applied to the result returns the result unchanged. -/
theorem roundtrip_normalises (p : Page) (offset : Int) (s : List Nat) (h0 : 0 ≤ offset)
    (h1 : offset + 4 + 2 * ((codeUnits s).length : Int) ≤ (p.buffer.length : Int))
    (hn : 2 * (codeUnits s).length < 2 ^ 31) :
    ∃ q, p.SetString offset s = some q ∧
      q.GetString offset = some (runesToString (stringToRunes s)) ∧
      (runesToString (stringToRunes s) = s ↔ ValidString s = true) ∧
      ∃ q2, q.SetString offset (runesToString (stringToRunes s)) = some q2 ∧
        q2.GetString offset = some (runesToString (stringToRunes s)) := by
  have hdec : ∀ t : List Nat, runesToString (utf16Decode (codeUnits t)) =
      runesToString (stringToRunes t) := fun t => by
    rw [codeUnits, utf16Decode_utf16Encode _ (stringToRunes_scalar t)]
  obtain ⟨hidem, hunits⟩ := normal_idem s
  obtain ⟨q, hq, hql, hget⟩ := GetString_SetString p offset s h0 h1 hn
  obtain ⟨q2, hq2, _, hget2⟩ := GetString_SetString q offset (runesToString (stringToRunes s)) h0
    (by rw [hunits, hql]; exact h1) (by rw [hunits]; exact hn)
  refine ⟨q, hq, by rw [hget, hdec], normal_eq_iff s, q2, hq2, ?_⟩
  rw [hget2, hdec, hidem]

/-- Witness of C20 as amended: the ill-formed byte 0xFF followed by the letter "A", at
offset 2 of a 12-byte page. -/
theorem roundtrip_normalises_witness :
    ∃ q, (Page.mk (List.replicate 12 0)).SetString 2 [0xFF, 0x41] = some q ∧
      q.GetString 2 = some (runesToString (stringToRunes [0xFF, 0x41])) ∧
      (runesToString (stringToRunes [0xFF, 0x41]) = [0xFF, 0x41] ↔
        ValidString [0xFF, 0x41] = true) ∧
      ∃ q2, q.SetString 2 (runesToString (stringToRunes [0xFF, 0x41])) = some q2 ∧
        q2.GetString 2 = some (runesToString (stringToRunes [0xFF, 0x41])) :=
  roundtrip_normalises ⟨List.replicate 12 0⟩ 2 [0xFF, 0x41] (by decide) (by decide) (by decide)

/-- C20 fails as stated: a string of `2^30` letters "a" fits at offset 0 of a page of
`2^31 + 4` bytes, `SetString` returns normally, and `GetString` then faults instead of
returning the string, because the `int32` prefix holds `-2^31`. -/
theorem roundtrip_normalises_counterexample :
    (0 : Int) + 4 + 2 * ((codeUnits (List.replicate 1073741824 0x61)).length : Int) ≤
        ((Page.mk (List.replicate 2147483652 0)).buffer.length : Int) ∧
      ∃ q, (Page.mk (List.replicate 2147483652 0)).SetString 0
          (List.replicate 1073741824 0x61) = some q ∧
        q.GetString 0 = none ∧
        q.GetString 0 ≠ some (runesToString (stringToRunes (List.replicate 1073741824 0x61))) := by
  have hn : (codeUnits (List.replicate 1073741824 0x61)).length = 1073741824 :=
    codeUnits_ascii_length 0x61 (by norm_num) _
  have hp : (Page.mk (List.replicate 2147483652 0)).buffer.length = 2147483652 :=
    List.length_replicate _ _
  have hfit : (0 : Int) + 4 + 2 * ((codeUnits (List.replicate 1073741824 0x61)).length : Int) ≤
      ((Page.mk (List.replicate 2147483652 0)).buffer.length : Int) := by
    rw [hn, hp]; norm_num
  obtain ⟨q, hq, hnone⟩ := GetString_SetString_wrapped _ 0 _ (le_refl _) hfit
    (by rw [hn]; norm_num) (by rw [hn]; norm_num)
  exact ⟨hfit, q, hq, hnone, by rw [hnone]; exact fun h => Option.noConfusion h⟩

/-! ## The handle cache -/

theorem Read_fm (fm : FileManager) (w : World) (blk : BlockID) (page : Page) :
    (fm.Read w blk page).fm = (fm.openFile w blk.fileName).2.1 := by
  unfold FileManager.Read
  split
  · rename_i heq; rw [heq]
  · rename_i heq
    rw [heq]
    split
    · rfl
    · split <;> rfl

theorem Write_fm (fm : FileManager) (w : World) (blk : BlockID) (page : Page) :
    (fm.Write w blk page).fm = (fm.openFile w blk.fileName).2.1 := by
  unfold FileManager.Write
  split
  · rename_i heq; rw [heq]
  · rename_i heq
    rw [heq]
    split
    · rfl
    · split <;> rfl

/-- The cache `openFile` leaves: the one it found when the name is cached or the open
fails, and the one it found with the new entry in front otherwise. -/
theorem openFile_files (fm : FileManager) (w : World) (name : String) :
    (fm.openFile w name).2.1.files = fm.files ∨
      (fm.files.lookup name = none ∧
        ∃ h, (fm.openFile w name).2.1.files = (name, h) :: fm.files) := by
  unfold FileManager.openFile
  split
  · exact Or.inl rfl
  · rename_i hl
    split
    · exact Or.inl rfl
    · exact Or.inr ⟨hl, _, rfl⟩

/-- An entry of the cache is still there, with the same handle, after `openFile`. -/
theorem openFile_keeps (fm : FileManager) (w : World) (name name2 : String) (h2 : Nat)
    (hc : fm.files.lookup name2 = some h2) :
    (fm.openFile w name).2.1.files.lookup name2 = some h2 := by
  rcases openFile_files fm w name with e | ⟨hn, h, e⟩
  · rw [e]; exact hc
  · rw [e, List.lookup_cons]
    have hne : (name2 == name) = false := by
      rw [beq_eq_false_iff_ne]
      intro heq
      rw [heq, hn] at hc
      exact Option.noConfusion hc
    rw [hne]
    exact hc

theorem lookup_none_not_mem (l : List (String × Nat)) (name : String)
    (h : l.lookup name = none) : name ∉ l.map Prod.fst := by
  induction l with
  | nil => simp
  | cons e l ih =>
    obtain ⟨n, v⟩ := e
    rw [List.lookup_cons] at h
    cases hb : (name == n) with
    | true => rw [hb] at h; exact Option.noConfusion h
    | false =>
      rw [hb] at h
      rw [beq_eq_false_iff_ne] at hb
      simp only [List.map_cons, List.mem_cons, not_or]
      exact ⟨hb, ih h⟩

/-- C17. The handle cache only grows and holds one handle per file name. When the name
is cached, `openFile` returns the cached handle and changes neither the file system nor
the cache; otherwise a successful open puts exactly one entry, for that name, in front
of the cache, and a failed open leaves the cache (and the file system) unchanged. The
names of the cache stay distinct, and no `openFile`, `Read` or `Write` removes an entry
or changes its handle. -/
theorem cache_only_grows (fm : FileManager) (w : World) (name : String) :
    (∀ h, fm.files.lookup name = some h → fm.openFile w name = (w, fm, Except.ok h)) ∧
    (∀ w1 fm1 h, fm.files.lookup name = none → fm.openFile w name = (w1, fm1, Except.ok h) →
      fm1.files = (name, h) :: fm.files) ∧
    (∀ w1 fm1 e, fm.openFile w name = (w1, fm1, Except.error e) → fm1 = fm ∧ w1 = w) ∧
    ((fm.files.map Prod.fst).Nodup → ((fm.openFile w name).2.1.files.map Prod.fst).Nodup) ∧
    (∀ (name2 : String) (h2 : Nat), fm.files.lookup name2 = some h2 →
      (fm.openFile w name).2.1.files.lookup name2 = some h2 ∧
      (∀ (k : Int) (page : Page),
        (fm.Read w ⟨name, k⟩ page).fm.files.lookup name2 = some h2 ∧
        (fm.Write w ⟨name, k⟩ page).fm.files.lookup name2 = some h2)) := by
  refine ⟨fun h hc => openFile_cached fm w name h hc, ?_, ?_, ?_, ?_⟩
  · intro w1 fm1 h hc ho
    unfold FileManager.openFile at ho
    rw [hc] at ho
    simp only at ho
    split at ho
    · simp at ho
    · simp only [Prod.mk.injEq, Except.ok.injEq] at ho
      obtain ⟨_, rfl, rfl⟩ := ho
      rfl
  · intro w1 fm1 e ho
    unfold FileManager.openFile at ho
    split at ho
    · simp at ho
    · split at ho
      · simp only [Prod.mk.injEq] at ho
        exact ⟨ho.2.1.symm, ho.1.symm⟩
      · simp at ho
  · intro hnd
    rcases openFile_files fm w name with e | ⟨hn, h, e⟩
    · rw [e]; exact hnd
    · rw [e, List.map_cons, List.nodup_cons]
      exact ⟨lookup_none_not_mem _ _ hn, hnd⟩
  · intro name2 h2 hc
    refine ⟨openFile_keeps fm w name name2 h2 hc, fun k page => ⟨?_, ?_⟩⟩
    · rw [Read_fm]; exact openFile_keeps fm w name name2 h2 hc
    · rw [Write_fm]; exact openFile_keeps fm w name name2 h2 hc

/-- Witness of C17: a manager that holds "f" open keeps that entry when it opens
"testfile". -/
theorem cache_only_grows_witness :
    ((FileManager.mk ["db"] 4 [("f", 0)]).openFile
        ⟨["work"], [([], [("work", Node.dir), ("db", Node.dir)]), (["work"], []),
          (["db"], [("f", Node.file 0)])], [[7]], [⟨0, 0⟩]⟩
        "testfile").2.1.files.lookup "f" = some 0 :=
  ((cache_only_grows ⟨["db"], 4, [("f", 0)]⟩
    ⟨["work"], [([], [("work", Node.dir), ("db", Node.dir)]), (["work"], []),
          (["db"], [("f", Node.file 0)])], [[7]], [⟨0, 0⟩]⟩
    "testfile").2.2.2.2 "f" 0 (by decide)).1

/-! ## Reading a file that does not exist -/

theorem lookup_map_set (dirs : List (DirPath × List (String × Node))) (d : DirPath)
    (es es2 : List (String × Node)) (h : dirs.lookup d = some es) :
    (dirs.map fun r => if r.1 = d then (r.1, es2) else r).lookup d = some es2 := by
  induction dirs with
  | nil => simp at h
  | cons r dirs ih =>
    obtain ⟨k, v⟩ := r
    rw [List.lookup_cons] at h
    rw [List.map_cons]
    by_cases hk : k = d
    · subst hk
      simp [List.lookup_cons]
    · have hb : (d == k) = false := by
        rw [beq_eq_false_iff_ne]; exact fun e => hk e.symm
      rw [hb] at h
      simp only [hk, if_false]
      rw [List.lookup_cons, hb]
      exact ih h

theorem entries_setEntries (w : World) (d : DirPath) (es es2 : List (String × Node))
    (h : w.entries d = some es) : (w.setEntries d es2).entries d = some es2 :=
  lookup_map_set w.dirs d es es2 h

theorem lookup_append_new (es : List (String × Node)) (name : String) (n : Node)
    (h : es.lookup name = none) : (es ++ [(name, n)]).lookup name = some n := by
  induction es with
  | nil => simp [List.lookup_cons]
  | cons e es ih =>
    obtain ⟨k, v⟩ := e
    rw [List.lookup_cons] at h
    rw [List.cons_append, List.lookup_cons]
    cases hb : (name == k) with
    | true => rw [hb] at h; exact Option.noConfusion h
    | false => rw [hb] at h; exact ih h

/-- A path without a slash is one element. -/
theorem splitPath_plain (s : List Char) (h : s.contains '/' = false) : splitPath s = [s] := by
  induction s with
  | nil => rfl
  | cons c cs ih =>
    rw [List.contains_cons, Bool.or_eq_false_iff] at h
    have hc : c ≠ '/' := by
      intro e
      rw [e] at h
      simp at h
    simp only [splitPath, hc, if_false, ih h.2]

/-- Cleaning a plain name leaves the name. -/
theorem cleanName_plain (name : String) (h : plainName name = true) :
    cleanName name = (0, [name]) := by
  simp only [plainName, Bool.and_eq_true, Bool.not_eq_true', bne_iff_ne, ne_eq] at h
  obtain ⟨⟨⟨⟨⟨h1, _⟩, h3⟩, h4⟩, h5⟩, _⟩ := h
  unfold cleanName
  rw [splitPath_plain _ h1]
  simp only [List.foldl_cons, List.foldl_nil, cleanStep, h3, h4, h5, false_or, if_false,
    List.nil_append]

/-- Joined to a directory, a plain name is a new last element. -/
theorem pathJoin_plain (dir : DirPath) (name : String) (h : plainName name = true) :
    pathJoin dir name = dir ++ [name] := by
  unfold pathJoin
  rw [cleanName_plain name h]
  simp

theorem nul_plain (name : String) (h : plainName name = true) :
    (cleanName name).2.any hasNul = false := by
  rw [cleanName_plain name h]
  simp only [plainName, Bool.and_eq_true, Bool.not_eq_true'] at h
  simp [h.1.1.1.1.2]

theorem tooLong_plain (name : String) (h : plainName name = true) : tooLong name = false := by
  simp only [plainName, Bool.and_eq_true, Bool.not_eq_true'] at h
  exact h.2

theorem getLast?_plain (dir : DirPath) (name : String) (h : plainName name = true) :
    (pathJoin dir name).getLast? = some name := by
  rw [pathJoin_plain dir name h]
  simp

theorem dropLast_plain (dir : DirPath) (name : String) (h : plainName name = true) :
    (pathJoin dir name).dropLast = dir := by
  rw [pathJoin_plain dir name h]
  simp

/-- The state `os.OpenFile` leaves when it creates the file: a new empty inode, linked
under the name, and a new open file description at offset 0. -/
theorem World_openFile_create (w : World) (dir : DirPath) (name : String)
    (es : List (String × Node)) (hplain : plainName name = true)
    (hdir : w.entries dir = some es) (habs : es.lookup name = none) :
    ∃ w1, w.openFile dir name = Except.ok (w1, w.opens.length) ∧
      w1.opens = w.opens ++ [⟨w.inodes.length, 0⟩] ∧ w1.inodes = w.inodes ++ [[]] ∧
      w1.entries dir = some (es ++ [(name, Node.file w.inodes.length)]) := by
  refine ⟨⟨w.cwd, (w.setEntries dir (es ++ [(name, Node.file w.inodes.length)])).dirs,
    w.inodes ++ [[]], w.opens ++ [⟨w.inodes.length, 0⟩]⟩, ?_, rfl, rfl, ?_⟩
  · simp only [World.openFile, nul_plain name hplain, getLast?_plain dir name hplain,
      dropLast_plain dir name hplain, hdir, tooLong_plain name hplain, habs]
    rfl
  · exact entries_setEntries w dir es _ hdir

/-- C19, as amended. For every file name that is one plain path element (not empty,
not "." or "..", without a slash or a NUL byte), absent from the root directory and
from the handle cache, and every block number, `Read(BlockID(f, k), page)` with a
non-empty page returns an error and leaves the page unchanged, and yet the file now
exists, empty, and its handle has been added to the cache. -/
theorem Read_absent_file (fm : FileManager) (w : World) (name : String) (k : Int) (page : Page)
    (es : List (String × Node)) (hplain : plainName name = true)
    (hc : fm.files.lookup name = none)
    (hdir : w.entries fm.dbDir = some es) (habs : es.lookup name = none)
    (hpage : page.buffer ≠ []) :
    w.hasEntry fm.dbDir name = false ∧
    (fm.Read w ⟨name, k⟩ page).err.isSome = true ∧
    (fm.Read w ⟨name, k⟩ page).page = page ∧
    (fm.Read w ⟨name, k⟩ page).world.hasEntry fm.dbDir name = true ∧
    (fm.Read w ⟨name, k⟩ page).world.fileData fm.dbDir name = some [] ∧
    (fm.Read w ⟨name, k⟩ page).fm.files = (name, w.opens.length) :: fm.files := by
  obtain ⟨w1, ho, hopens, hinodes, hent⟩ :=
    World_openFile_create w fm.dbDir name es hplain hdir habs
  have hopen : fm.openFile w name = (w1, ⟨fm.dbDir, fm.blockSize, (name, w.opens.length) :: fm.files⟩,
      Except.ok w.opens.length) := by
    simp only [FileManager.openFile, hc, ho]
  have hf1 : w1.opens[w.opens.length]? = some ⟨w.inodes.length, 0⟩ := by
    rw [hopens, List.getElem?_append_right (le_refl _)]
    simp
  have hd1 : w1.inodes[w.inodes.length]? = some [] := by
    rw [hinodes, List.getElem?_append_right (le_refl _)]
    simp
  have hfile1 : w1.fileData fm.dbDir name = some [] := by
    simp only [World.fileData, getLast?_plain fm.dbDir name hplain,
      dropLast_plain fm.dbDir name hplain, hent, lookup_append_new es name _ habs, hd1]
  have hhas1 : w1.hasEntry fm.dbDir name = true := by
    simp only [World.hasEntry, hent, lookup_append_new es name _ habs, Option.isSome_some]
  have hhas0 : w.hasEntry fm.dbDir name = false := by
    simp only [World.hasEntry, hdir, habs, Option.isSome_none]
  have hlen : page.buffer.length ≠ 0 := fun h => hpage (List.length_eq_zero.1 h)
  refine ⟨hhas0, ?_⟩
  by_cases hoff : wrap64 (k * fm.blockSize) < 0
  · have hr : fm.Read w ⟨name, k⟩ page =
        ⟨w1, ⟨fm.dbDir, fm.blockSize, (name, w.opens.length) :: fm.files⟩, page,
          some (Error.wrap "file.Seek" (Error.os OSError.EINVAL))⟩ := by
      simp only [FileManager.Read, hopen, World.seek, hf1, hoff, if_true]
    rw [hr]
    exact ⟨rfl, rfl, hhas1, hfile1, rfl⟩
  · have h0 : 0 ≤ wrap64 (k * fm.blockSize) := not_lt.1 hoff
    have hl1 : (FileManager.mk fm.dbDir fm.blockSize
        ((name, w.opens.length) :: fm.files)).files.lookup (BlockID.mk name k).fileName =
        some w.opens.length := by
      simp [List.lookup_cons]
    rw [Read_after_open fm w ⟨name, k⟩ page w1 _ _ hopen,
      Read_cached ⟨fm.dbDir, fm.blockSize, (name, w.opens.length) :: fm.files⟩ w1 ⟨name, k⟩ page
        w.opens.length ⟨w.inodes.length, 0⟩ [] hl1 hf1 hd1 h0]
    rw [if_neg hlen, if_pos (by simp)]
    refine ⟨rfl, rfl, ?_, ?_, rfl⟩
    · simp only [World.hasEntry, World.entries] at hhas1 ⊢
      exact hhas1
    · simp only [World.fileData, World.entries] at hfile1 ⊢
      exact hfile1

/-- Witness of C19 as amended: block 3 of the absent file "nofile", read into a 4-byte
page. -/
theorem Read_absent_file_witness :
    testWorld.hasEntry testManager.dbDir "nofile" = false ∧
    (testManager.Read testWorld ⟨"nofile", 3⟩ ⟨[1, 2, 3, 4]⟩).err.isSome = true ∧
    (testManager.Read testWorld ⟨"nofile", 3⟩ ⟨[1, 2, 3, 4]⟩).page = ⟨[1, 2, 3, 4]⟩ ∧
    (testManager.Read testWorld ⟨"nofile", 3⟩ ⟨[1, 2, 3, 4]⟩).world.hasEntry testManager.dbDir
      "nofile" = true ∧
    (testManager.Read testWorld ⟨"nofile", 3⟩ ⟨[1, 2, 3, 4]⟩).world.fileData testManager.dbDir
      "nofile" = some [] ∧
    (testManager.Read testWorld ⟨"nofile", 3⟩ ⟨[1, 2, 3, 4]⟩).fm.files =
      ("nofile", testWorld.opens.length) :: testManager.files :=
  Read_absent_file testManager testWorld "nofile" 3 ⟨[1, 2, 3, 4]⟩ [] (by decide) (by decide)
    (by decide) (by decide) (by decide)

set_option maxRecDepth 100000 in
/-- C19 fails as stated, on two grounds. The names "missing/x" and "" are absent from
the empty root directory, yet `Read` of block 0 returns an error and creates nothing and
caches nothing: the first names a file in a directory that does not exist, the second
the root directory itself. And a name that is cached is served from the cache: when the
file "f", open in the manager with bytes `[1, 2, 3, 4]`, has left the root directory,
`Read` returns no error, fills the page and creates no entry. -/
theorem Read_absent_file_counterexample :
    (testWorld.hasEntry testManager.dbDir "missing/x" = false ∧
      testWorld.fileData testManager.dbDir "missing/x" = none ∧
      (testManager.Read testWorld ⟨"missing/x", 0⟩ ⟨[1, 2, 3, 4]⟩).err.isSome = true ∧
      (testManager.Read testWorld ⟨"missing/x", 0⟩ ⟨[1, 2, 3, 4]⟩).world = testWorld ∧
      (testManager.Read testWorld ⟨"missing/x", 0⟩ ⟨[1, 2, 3, 4]⟩).fm = testManager) ∧
    (testWorld.hasEntry testManager.dbDir "" = false ∧
      (testManager.Read testWorld ⟨"", 0⟩ ⟨[1, 2, 3, 4]⟩).err.isSome = true ∧
      (testManager.Read testWorld ⟨"", 0⟩ ⟨[1, 2, 3, 4]⟩).world = testWorld ∧
      (testManager.Read testWorld ⟨"", 0⟩ ⟨[1, 2, 3, 4]⟩).fm = testManager) ∧
    (unlinkedWorld.hasEntry ["db"] "f" = false ∧
      ((FileManager.mk ["db"] 4 [("f", 0)]).Read unlinkedWorld ⟨"f", 0⟩ ⟨[0, 0, 0, 0]⟩).err = none ∧
      ((FileManager.mk ["db"] 4 [("f", 0)]).Read unlinkedWorld ⟨"f", 0⟩ ⟨[0, 0, 0, 0]⟩).page =
        ⟨[1, 2, 3, 4]⟩ ∧
      ((FileManager.mk ["db"] 4 [("f", 0)]).Read unlinkedWorld ⟨"f", 0⟩
        ⟨[0, 0, 0, 0]⟩).world.hasEntry ["db"] "f" = false) := by
  decide

/-! ## The file after a write -/

/-- The bytes held by the inode that a successful `openFile` hands out are the bytes
the file held before the call. -/
theorem openFile_prior (fm : FileManager) (w : World) (name : String) (w1 : World)
    (fm1 : FileManager) (h : Nat) (f : OpenFile) (data : List Nat)
    (ho : fm.openFile w name = (w1, fm1, Except.ok h)) (hf : w1.opens[h]? = some f)
    (hd : w1.inodes[f.ino]? = some data) : fm.priorBytes w name = data := by
  unfold FileManager.openFile at ho
  split at ho
  · rename_i file hl
    simp only [Prod.mk.injEq, Except.ok.injEq] at ho
    obtain ⟨rfl, rfl, rfl⟩ := ho
    simp only [FileManager.priorBytes, FileManager.fileBytes, hl, Option.some_bind, hf, hd]
  · rename_i hl
    have hfb : fm.fileBytes w name = none := by
      simp only [FileManager.fileBytes, hl, Option.none_bind]
    split at ho
    · simp at ho
    · rename_i w2 file hopen
      simp only [Prod.mk.injEq, Except.ok.injEq] at ho
      obtain ⟨rfl, rfl, rfl⟩ := ho
      unfold World.openFile at hopen
      split at hopen
      · simp at hopen
      · split at hopen
        · simp at hopen
        · rename_i base hbase
          split at hopen
          · simp at hopen
          · rename_i es hes
            split at hopen
            · simp at hopen
            split at hopen
            · simp at hopen
            · rename_i ino hino
              simp only [Except.ok.injEq, Prod.mk.injEq] at hopen
              obtain ⟨rfl, rfl⟩ := hopen
              simp only at hf hd
              rw [List.getElem?_append_right (le_refl _)] at hf
              simp only [Nat.sub_self, List.getElem?_cons_zero, Option.some.injEq] at hf
              subst hf
              simp only [FileManager.priorBytes, hfb, World.fileData, hbase, hes, hino]
              simp only at hd
              rw [hd]
              rfl
            · rename_i hnone
              simp only [Except.ok.injEq, Prod.mk.injEq] at hopen
              obtain ⟨rfl, rfl⟩ := hopen
              simp only at hf hd
              rw [List.getElem?_append_right (le_refl _)] at hf
              simp only [Nat.sub_self, List.getElem?_cons_zero, Option.some.injEq] at hf
              subst hf
              simp only at hd
              rw [List.getElem?_append_right (le_refl _)] at hd
              simp only [Nat.sub_self, List.getElem?_cons_zero, Option.some.injEq] at hd
              subst hd
              simp only [FileManager.priorBytes, hfb, World.fileData, hbase, hes, hnone]
              rfl

/-- The file after a successful `Write`: the bytes it held before with the page
written at the offset, the open file description being left behind the range. -/
theorem Write_bytes (fm : FileManager) (w : World) (blk : BlockID) (page : Page)
    (herr : (fm.Write w blk page).err = none) :
    0 ≤ wrap64 (blk.blkNum * fm.blockSize) ∧
    (fm.Write w blk page).fm.fileBytes (fm.Write w blk page).world blk.fileName =
      some (writtenData (fm.priorBytes w blk.fileName)
        (wrap64 (blk.blkNum * fm.blockSize)).toNat page.buffer) ∧
    ∃ h ino, (fm.Write w blk page).fm.files.lookup blk.fileName = some h ∧
      (fm.Write w blk page).world.opens[h]? =
        some ⟨ino, wrap64 (blk.blkNum * fm.blockSize) + page.buffer.length⟩ := by
  obtain ⟨w1, fm1, h, ho⟩ := Write_open_ok fm w blk page herr
  obtain ⟨hl, hbs, _⟩ := openFile_ok fm w _ w1 fm1 h ho
  rw [Write_after_open fm w blk page w1 fm1 h ho] at herr ⊢
  obtain ⟨f, data, hf, hd, h0, heq⟩ := Write_cached fm1 w1 blk page h hl herr
  have hprior := openFile_prior fm w blk.fileName w1 fm1 h f data ho hf hd
  rw [hbs] at h0 heq
  have hf2 : (fm1.Write w1 blk page).world.opens[h]? =
      some ⟨f.ino, wrap64 (blk.blkNum * fm.blockSize) + page.buffer.length⟩ := by
    rw [heq]
    exact getElem?_set_same _ h ⟨f.ino, wrap64 (blk.blkNum * fm.blockSize)⟩ _
      (getElem?_set_same _ h f _ hf)
  have hd2 : (fm1.Write w1 blk page).world.inodes[f.ino]? =
      some (writtenData data (wrap64 (blk.blkNum * fm.blockSize)).toNat page.buffer) := by
    rw [heq]
    exact getElem?_set_inode _ _ data _ hd
  have hfm : (fm1.Write w1 blk page).fm = fm1 := by rw [heq]
  refine ⟨h0, ?_, h, f.ino, by rw [hfm]; exact hl, hf2⟩
  rw [hprior]
  show ((fm1.Write w1 blk page).fm.files.lookup blk.fileName).bind _ = _
  rw [hfm, hl, Option.some_bind, hf2, Option.some_bind]
  exact hd2

/-- C16, as amended. For every positive block size `bs`, every non-negative block
number `k` with `k * bs` below `2^63` (the `int64` product does not wrap), every page
`B` of length `bs` and every file of prior length `L`: after a successful
`Write(BlockID(f, k), B)` the file bytes at `[k * bs, (k + 1) * bs)` equal `B`, the file
length is `max(L, (k + 1) * bs)`, and every byte that existed before outside that range
is unchanged. The seek offset is the `int64` product, which is exactly `k * bs`, and the
transfer leaves the file offset at `(k + 1) * bs`. -/
theorem Write_places_block (fm : FileManager) (w : World) (name : String) (k : Int) (B : Page)
    (hbs : 0 < fm.blockSize) (hk : 0 ≤ k) (hov : k * fm.blockSize < 2 ^ 63)
    (hB : (B.buffer.length : Int) = fm.blockSize)
    (hw : (fm.Write w ⟨name, k⟩ B).err = none) :
    wrap64 (k * fm.blockSize) = k * fm.blockSize ∧
    ∃ d, (fm.Write w ⟨name, k⟩ B).fm.fileBytes (fm.Write w ⟨name, k⟩ B).world name = some d ∧
      (d.drop (k * fm.blockSize).toNat).take fm.blockSize.toNat = B.buffer ∧
      (d.length : Int) = max ((fm.priorBytes w name).length : Int) ((k + 1) * fm.blockSize) ∧
      (∀ i : Nat, i < (fm.priorBytes w name).length →
        (i : Int) < k * fm.blockSize ∨ (k + 1) * fm.blockSize ≤ (i : Int) →
        d[i]? = (fm.priorBytes w name)[i]?) ∧
      ∃ h ino, (fm.Write w ⟨name, k⟩ B).fm.files.lookup name = some h ∧
        (fm.Write w ⟨name, k⟩ B).world.opens[h]? = some ⟨ino, (k + 1) * fm.blockSize⟩ := by
  have hO : 0 ≤ k * fm.blockSize := Int.mul_nonneg hk (le_of_lt hbs)
  have hwrap := wrap64_id _ hO hov
  have hsucc : (k + 1) * fm.blockSize = k * fm.blockSize + fm.blockSize := by ring
  obtain ⟨_, hbytes, h, ino, hl, hpos⟩ := Write_bytes fm w ⟨name, k⟩ B hw
  simp only at hbytes hl hpos
  rw [hwrap] at hbytes hpos
  have hBne : B.buffer.length ≠ 0 := by omega
  refine ⟨hwrap, _, hbytes, ?_, ?_, ?_, h, ino, hl, ?_⟩
  · rw [show fm.blockSize.toNat = B.buffer.length by omega]
    exact writtenData_slice _ _ _
  · rw [writtenData_length, if_neg hBne, hsucc]
    omega
  · intro i hi hout
    exact getElem?_writtenData _ _ _ _ hi (by omega)
  · rw [hpos, hsucc, hB]

/-- Witness of C16 as amended: block 2 of a new file, block size 4. -/
theorem Write_places_block_witness :
    ∃ d, (testManager.Write testWorld ⟨"testfile", 2⟩ ⟨[5, 6, 7, 8]⟩).fm.fileBytes
        (testManager.Write testWorld ⟨"testfile", 2⟩ ⟨[5, 6, 7, 8]⟩).world "testfile" = some d ∧
      (d.drop ((2 : Int) * testManager.blockSize).toNat).take testManager.blockSize.toNat =
        (Page.mk [5, 6, 7, 8]).buffer ∧
      (d.length : Int) = max ((testManager.priorBytes testWorld "testfile").length : Int)
        ((2 + 1) * testManager.blockSize) :=
  let ⟨d, h1, h2, h3, _⟩ := (Write_places_block testManager testWorld "testfile" 2 ⟨[5, 6, 7, 8]⟩
    (by decide) (by decide) (by decide) (by decide) (by decide)).2
  ⟨d, h1, h2, h3⟩

/-- C16 fails as stated: with block size 4 and block number `2^62` the `int64` product
wraps to 0. The `Write` into a new file succeeds and leaves a file of 4 bytes, the page
at `[0, 4)`; the file length is not `max(0, (2^62 + 1) * 4)` and no byte exists at
`[2^62 * 4, (2^62 + 1) * 4)`. -/
theorem Write_places_block_counterexample :
    (testManager.Write testWorld ⟨"testfile", 4611686018427387904⟩ ⟨[5, 6, 7, 8]⟩).err = none ∧
    (testManager.Write testWorld ⟨"testfile", 4611686018427387904⟩ ⟨[5, 6, 7, 8]⟩).fm.fileBytes
      (testManager.Write testWorld ⟨"testfile", 4611686018427387904⟩ ⟨[5, 6, 7, 8]⟩).world
      "testfile" = some [5, 6, 7, 8] ∧
    ((([5, 6, 7, 8] : List Nat).length : Int) ≠
      max ((testManager.priorBytes testWorld "testfile").length : Int)
        ((4611686018427387904 + 1) * testManager.blockSize)) ∧
    wrap64 (4611686018427387904 * testManager.blockSize) = 0 := by
  decide

/-! ## Pages of more than one transfer -/

/-- After a successful `Write` of a non-empty page, a `Read` into a non-empty page at a
non-negative offset before the end of the bytes written returns no error. -/
theorem Read_ok_after_Write (fm : FileManager) (w : World) (blk blk2 : BlockID) (B P : Page)
    (hname : blk2.fileName = blk.fileName) (hw : (fm.Write w blk B).err = none)
    (hB : B.buffer.length ≠ 0) (hP : P.buffer.length ≠ 0)
    (h0 : 0 ≤ wrap64 (blk2.blkNum * fm.blockSize))
    (hav : (wrap64 (blk2.blkNum * fm.blockSize)).toNat <
      (wrap64 (blk.blkNum * fm.blockSize)).toNat + B.buffer.length) :
    ((fm.Write w blk B).fm.Read (fm.Write w blk B).world blk2 P).err = none := by
  obtain ⟨h, ino, data, pos, hl, hbs, hf, hd, _⟩ := Write_state fm w blk B hw
  refine Read_cached_ok _ _ blk2 P h ⟨ino, pos⟩ _ (by rw [hname]; exact hl) hf hd
    (by rw [hbs]; exact h0) hP ?_
  rw [hbs, writtenData_length, if_neg hB]
  exact lt_of_lt_of_le hav (le_max_right _ _)

/-- A `Write` into a new file "testfile" of the root directory of `testWorld` succeeds,
whatever the block size and the page, when the offset is not negative. -/
theorem Write_testfile_ok (bs k : Int) (page : Page) (h0 : 0 ≤ wrap64 (k * bs)) :
    ((FileManager.mk ["db"] bs []).Write testWorld ⟨"testfile", k⟩ page).err = none :=
  Write_ok_of_open _ _ _ page
    ⟨["work"], [([], [("work", Node.dir), ("db", Node.dir)]), (["work"], []),
      (["db"], [("testfile", Node.file 0)])], [[]], [⟨0, 0⟩]⟩
    ⟨["db"], bs, [("testfile", 0)]⟩ 0 ⟨0, 0⟩ [] rfl (by decide) (by decide) h0

/-- Block 0 of a new file, written and read back with pages of more than `maxRW` bytes:
`Write` and `Read` return no error and the page read keeps its own bytes from index
`maxRW` on. -/
theorem large_block_read (bs : Int) (A P : Page) (i : Nat) (hi : maxRW ≤ i)
    (hA : A.buffer.length ≠ 0) (hP : P.buffer.length ≠ 0) :
    ((FileManager.mk ["db"] bs []).Write testWorld ⟨"testfile", 0⟩ A).err = none ∧
    (((FileManager.mk ["db"] bs []).Write testWorld ⟨"testfile", 0⟩ A).fm.Read
      ((FileManager.mk ["db"] bs []).Write testWorld ⟨"testfile", 0⟩ A).world ⟨"testfile", 0⟩
      P).err = none ∧
    (((FileManager.mk ["db"] bs []).Write testWorld ⟨"testfile", 0⟩ A).fm.Read
      ((FileManager.mk ["db"] bs []).Write testWorld ⟨"testfile", 0⟩ A).world ⟨"testfile", 0⟩
      P).page.buffer[i]? = P.buffer[i]? := by
  have h0 : 0 ≤ wrap64 ((0 : Int) * bs) := by rw [zero_mul]; decide
  have hw := Write_testfile_ok bs 0 A h0
  refine ⟨hw, Read_ok_after_Write _ _ _ _ _ _ rfl hw hA hP h0 ?_, Read_tail _ _ _ _ i hi⟩
  have := Nat.pos_of_ne_zero hA
  omega

/-- C2 at a failing input: block size `2^30 + 1`, a page of `2^30 + 1` bytes 1 written to
block 0 of a new file and read back into a page of `2^30 + 1` bytes 0. `Write` and
`Read` both return no error, yet the last byte of the page read is still 0, not the 1
written: one `Read` call of the file moves at most `2^30` bytes and `FileManager.Read`
does not look at the count. -/
theorem Write_Read_large_block :
    ((FileManager.mk ["db"] 1073741825 []).Write testWorld ⟨"testfile", 0⟩
      ⟨List.replicate 1073741825 1⟩).err = none ∧
    (((FileManager.mk ["db"] 1073741825 []).Write testWorld ⟨"testfile", 0⟩
        ⟨List.replicate 1073741825 1⟩).fm.Read
      ((FileManager.mk ["db"] 1073741825 []).Write testWorld ⟨"testfile", 0⟩
        ⟨List.replicate 1073741825 1⟩).world ⟨"testfile", 0⟩
      ⟨List.replicate 1073741825 0⟩).err = none ∧
    (((FileManager.mk ["db"] 1073741825 []).Write testWorld ⟨"testfile", 0⟩
        ⟨List.replicate 1073741825 1⟩).fm.Read
      ((FileManager.mk ["db"] 1073741825 []).Write testWorld ⟨"testfile", 0⟩
        ⟨List.replicate 1073741825 1⟩).world ⟨"testfile", 0⟩
      ⟨List.replicate 1073741825 0⟩).page.buffer[1073741824]? = some 0 ∧
    (Page.mk (List.replicate 1073741825 1)).buffer[1073741824]? = some 1 := by
  have hA : (Page.mk (List.replicate 1073741825 1)).buffer.length ≠ 0 := by
    show (List.replicate 1073741825 1).length ≠ 0
    rw [List.length_replicate]; decide
  have hP : (Page.mk (List.replicate 1073741825 0)).buffer.length ≠ 0 := by
    show (List.replicate 1073741825 0).length ≠ 0
    rw [List.length_replicate]; decide
  obtain ⟨h1, h2, h3⟩ := large_block_read 1073741825 ⟨List.replicate 1073741825 1⟩
    ⟨List.replicate 1073741825 0⟩ 1073741824 (by decide) hA hP
  refine ⟨h1, h2, ?_, ?_⟩
  · rw [h3]
    show (List.replicate 1073741825 0)[1073741824]? = some 0
    rw [List.getElem?_replicate, if_pos (by decide)]
  · show (List.replicate 1073741825 1)[1073741824]? = some 1
    rw [List.getElem?_replicate, if_pos (by decide)]


/-- The scenario of the test on zero pages of more than `maxRW` bytes, with the string
and the integer placed from index `maxRW` on: every call returns normally, and the page
read back holds zero bytes there, so that the integer reads as 0 and the string as the
empty string. -/
theorem scenario_short (bs : Int) (n : Nat) (p0 : Page) (s : List Nat) (v pos1 pos2 : Int)
    (hp0 : p0.buffer = List.replicate n 0) (hpos1 : (maxRW : Int) ≤ pos1)
    (hsep : pos1 + 4 + 2 * ((codeUnits s).length : Int) ≤ pos2) (hfit : pos2 + 4 ≤ (n : Int)) :
    ∃ p1 p2, p0.SetString pos1 s = some p1 ∧ p1.SetInt pos2 v = some p2 ∧
      ((FileManager.mk ["db"] bs []).Write testWorld ⟨"testfile", 0⟩ p2).err = none ∧
      (((FileManager.mk ["db"] bs []).Write testWorld ⟨"testfile", 0⟩ p2).fm.Read
        ((FileManager.mk ["db"] bs []).Write testWorld ⟨"testfile", 0⟩ p2).world
        ⟨"testfile", 0⟩ p0).err = none ∧
      (((FileManager.mk ["db"] bs []).Write testWorld ⟨"testfile", 0⟩ p2).fm.Read
        ((FileManager.mk ["db"] bs []).Write testWorld ⟨"testfile", 0⟩ p2).world
        ⟨"testfile", 0⟩ p0).page.GetInt pos2 = some 0 ∧
      (((FileManager.mk ["db"] bs []).Write testWorld ⟨"testfile", 0⟩ p2).fm.Read
        ((FileManager.mk ["db"] bs []).Write testWorld ⟨"testfile", 0⟩ p2).world
        ⟨"testfile", 0⟩ p0).page.GetString pos1 = some [] := by
  have hmx : (0 : Int) ≤ (maxRW : Int) := Int.natCast_nonneg _
  have hn0 : p0.buffer.length = n := by rw [hp0, List.length_replicate]
  obtain ⟨p1, hp1, _, hl1, _, _⟩ := SetString_facts p0 pos1 s (by omega) (by omega)
  have hst : pos2.toNat + (putUint32 (toUint32 v)).length ≤ p1.buffer.length := by
    rw [putUint32_length]; omega
  have hl2 : (store p1.buffer pos2.toNat (putUint32 (toUint32 v))).length = p1.buffer.length :=
    store_length _ _ _ hst
  obtain ⟨hw, hr, _⟩ := large_block_read bs ⟨store p1.buffer pos2.toNat (putUint32 (toUint32 v))⟩
    p0 maxRW (le_refl _) (by show (store _ _ _).length ≠ 0; rw [hl2]; omega) (by omega)
  have hzero : ∀ i : Nat, maxRW ≤ i → i < n →
      (((FileManager.mk ["db"] bs []).Write testWorld ⟨"testfile", 0⟩
          ⟨store p1.buffer pos2.toNat (putUint32 (toUint32 v))⟩).fm.Read
        ((FileManager.mk ["db"] bs []).Write testWorld ⟨"testfile", 0⟩
          ⟨store p1.buffer pos2.toNat (putUint32 (toUint32 v))⟩).world
        ⟨"testfile", 0⟩ p0).page.buffer[i]? = some 0 := by
    intro i hi hin
    rw [Read_tail _ _ _ _ i hi, hp0, List.getElem?_replicate, if_pos hin]
  have hql := Read_page_length
    ((FileManager.mk ["db"] bs []).Write testWorld ⟨"testfile", 0⟩
      ⟨store p1.buffer pos2.toNat (putUint32 (toUint32 v))⟩).fm
    ((FileManager.mk ["db"] bs []).Write testWorld ⟨"testfile", 0⟩
      ⟨store p1.buffer pos2.toNat (putUint32 (toUint32 v))⟩).world ⟨"testfile", 0⟩ p0
  have hget : ∀ pos : Int, (maxRW : Int) ≤ pos → pos + 4 ≤ (n : Int) →
      (((FileManager.mk ["db"] bs []).Write testWorld ⟨"testfile", 0⟩
          ⟨store p1.buffer pos2.toNat (putUint32 (toUint32 v))⟩).fm.Read
        ((FileManager.mk ["db"] bs []).Write testWorld ⟨"testfile", 0⟩
          ⟨store p1.buffer pos2.toNat (putUint32 (toUint32 v))⟩).world
        ⟨"testfile", 0⟩ p0).page.GetInt pos = some 0 := by
    intro pos hlo hhi
    rw [GetInt_of_bytes _ pos 0 0 0 0 (by omega) (by rw [hql]; omega)
      (hzero _ (by omega) (by omega)) (hzero _ (by omega) (by omega))
      (hzero _ (by omega) (by omega)) (hzero _ (by omega) (by omega))]
    rfl
  refine ⟨p1, _, hp1, SetInt_eq p1 pos2 v (by omega) (by omega), hw, hr,
    hget pos2 (by omega) hfit, ?_⟩
  exact GetString_of_facts _ pos1 [] (by omega) (by rw [hql]; simp only [List.length_nil]; omega)
    (by decide) (fun u hu => absurd hu (List.not_mem_nil u))
    (hget pos1 hpos1 (by omega)) rfl


/-- C7 fails as stated, on two grounds. With block size 16, the one-byte string 0xFF
(not well-formed UTF-8) at offset 2 and 606 at offset `2 + MaxLength(1) = 8`: every
call succeeds, the integer is read back, and the string is read back as the three
bytes of U+FFFD. With block size `2^30 + 20`, "qwerty" at offset `2^30` and 606 at
offset `2^30 + MaxLength(6) = 2^30 + 16`: every call succeeds, but `Read` moves `2^30`
bytes only, and on the page read the integer is 0 and the string is empty. -/
theorem test_scenario_counterexample :
    ((8 : Int) = 2 + MaxLength (([0xFF] : List Nat).length) ∧ (8 : Int) + 4 ≤ 16 ∧
      ∃ p1 p2, (Page.mk (List.replicate 16 0)).SetString 2 [0xFF] = some p1 ∧
        p1.SetInt 8 606 = some p2 ∧
        ((FileManager.mk ["db"] 16 []).Write testWorld ⟨"testfile", 2⟩ p2).err = none ∧
        (((FileManager.mk ["db"] 16 []).Write testWorld ⟨"testfile", 2⟩ p2).fm.Read
            ((FileManager.mk ["db"] 16 []).Write testWorld ⟨"testfile", 2⟩ p2).world
            ⟨"testfile", 2⟩ ⟨List.replicate 16 0⟩).err = none ∧
        (((FileManager.mk ["db"] 16 []).Write testWorld ⟨"testfile", 2⟩ p2).fm.Read
            ((FileManager.mk ["db"] 16 []).Write testWorld ⟨"testfile", 2⟩ p2).world
            ⟨"testfile", 2⟩ ⟨List.replicate 16 0⟩).page.GetInt 8 = some 606 ∧
        (((FileManager.mk ["db"] 16 []).Write testWorld ⟨"testfile", 2⟩ p2).fm.Read
            ((FileManager.mk ["db"] 16 []).Write testWorld ⟨"testfile", 2⟩ p2).world
            ⟨"testfile", 2⟩ ⟨List.replicate 16 0⟩).page.GetString 2 =
          some [0xEF, 0xBF, 0xBD]) ∧
    ((1073741840 : Int) = 1073741824 + MaxLength (qwerty.length) ∧
      (1073741840 : Int) + 4 ≤ 1073741844 ∧
      ∃ p1 p2, (Page.mk (List.replicate 1073741844 0)).SetString 1073741824 qwerty = some p1 ∧
        p1.SetInt 1073741840 606 = some p2 ∧
        ((FileManager.mk ["db"] 1073741844 []).Write testWorld ⟨"testfile", 0⟩ p2).err = none ∧
        (((FileManager.mk ["db"] 1073741844 []).Write testWorld ⟨"testfile", 0⟩ p2).fm.Read
            ((FileManager.mk ["db"] 1073741844 []).Write testWorld ⟨"testfile", 0⟩ p2).world
            ⟨"testfile", 0⟩ ⟨List.replicate 1073741844 0⟩).err = none ∧
        (((FileManager.mk ["db"] 1073741844 []).Write testWorld ⟨"testfile", 0⟩ p2).fm.Read
            ((FileManager.mk ["db"] 1073741844 []).Write testWorld ⟨"testfile", 0⟩ p2).world
            ⟨"testfile", 0⟩ ⟨List.replicate 1073741844 0⟩).page.GetInt 1073741840 = some 0 ∧
        (((FileManager.mk ["db"] 1073741844 []).Write testWorld ⟨"testfile", 0⟩ p2).fm.Read
            ((FileManager.mk ["db"] 1073741844 []).Write testWorld ⟨"testfile", 0⟩ p2).world
            ⟨"testfile", 0⟩ ⟨List.replicate 1073741844 0⟩).page.GetString 1073741824 =
          some []) := by
  refine ⟨⟨by decide, by decide, ⟨[0, 0, 2, 0, 0, 0, 0xFD, 0xFF, 0, 0, 0, 0, 0, 0, 0, 0]⟩,
    ⟨[0, 0, 2, 0, 0, 0, 0xFD, 0xFF, 0x5E, 0x02, 0, 0, 0, 0, 0, 0]⟩, by decide, by decide,
    by decide, by decide, by decide, by decide⟩, by decide, by decide, ?_⟩
  exact scenario_short 1073741844 1073741844 ⟨List.replicate 1073741844 0⟩ qwerty 606
    1073741824 1073741840 rfl (by decide) (by decide) (by decide)


/-- Block 0 then block 1 of a new file written with non-empty pages, then block 0 read
into a non-empty page: the three calls return no error and the page read keeps its own
bytes from index `maxRW` on. -/
theorem frame_short (bs : Int) (A B P : Page) (i : Nat) (hi : maxRW ≤ i)
    (hbs : 0 ≤ bs) (hbs63 : bs < 2 ^ 63)
    (hB : B.buffer.length ≠ 0) (hP : P.buffer.length ≠ 0) :
    ((FileManager.mk ["db"] bs []).Write testWorld ⟨"testfile", 0⟩ A).err = none ∧
    (((FileManager.mk ["db"] bs []).Write testWorld ⟨"testfile", 0⟩ A).fm.Write
      ((FileManager.mk ["db"] bs []).Write testWorld ⟨"testfile", 0⟩ A).world
      ⟨"testfile", 1⟩ B).err = none ∧
    ((((FileManager.mk ["db"] bs []).Write testWorld ⟨"testfile", 0⟩ A).fm.Write
        ((FileManager.mk ["db"] bs []).Write testWorld ⟨"testfile", 0⟩ A).world
        ⟨"testfile", 1⟩ B).fm.Read
      (((FileManager.mk ["db"] bs []).Write testWorld ⟨"testfile", 0⟩ A).fm.Write
        ((FileManager.mk ["db"] bs []).Write testWorld ⟨"testfile", 0⟩ A).world
        ⟨"testfile", 1⟩ B).world ⟨"testfile", 0⟩ P).err = none ∧
    ((((FileManager.mk ["db"] bs []).Write testWorld ⟨"testfile", 0⟩ A).fm.Write
        ((FileManager.mk ["db"] bs []).Write testWorld ⟨"testfile", 0⟩ A).world
        ⟨"testfile", 1⟩ B).fm.Read
      (((FileManager.mk ["db"] bs []).Write testWorld ⟨"testfile", 0⟩ A).fm.Write
        ((FileManager.mk ["db"] bs []).Write testWorld ⟨"testfile", 0⟩ A).world
        ⟨"testfile", 1⟩ B).world ⟨"testfile", 0⟩ P).page.buffer[i]? = P.buffer[i]? := by
  have hw0 : wrap64 0 = 0 := by decide
  have hw1 := Write_testfile_ok bs 0 A (by rw [zero_mul, hw0])
  obtain ⟨h, ino, data, pos, hl, hbs1, hf, hd, _⟩ := Write_state _ _ _ _ hw1
  have hw2 : (((FileManager.mk ["db"] bs []).Write testWorld ⟨"testfile", 0⟩ A).fm.Write
      ((FileManager.mk ["db"] bs []).Write testWorld ⟨"testfile", 0⟩ A).world
      ⟨"testfile", 1⟩ B).err = none :=
    Write_cached_ok _ _ ⟨"testfile", 1⟩ B h ⟨ino, pos⟩ _ hl hf hd (by
      rw [hbs1]
      show 0 ≤ wrap64 ((1 : Int) * bs)
      rw [one_mul, wrap64_id bs hbs hbs63]
      exact hbs)
  refine ⟨hw1, hw2, Read_ok_after_Write _ _ ⟨"testfile", 1⟩ ⟨"testfile", 0⟩ B P rfl hw2 hB hP ?_ ?_,
    Read_tail _ _ _ _ i hi⟩
  · show 0 ≤ wrap64 ((0 : Int) * _)
    rw [zero_mul, hw0]
  · show (wrap64 ((0 : Int) * _)).toNat < _
    rw [zero_mul, hw0]
    have := Nat.pos_of_ne_zero hB
    simp only [Int.toNat_zero]
    omega

/-- C3 fails as stated, on two grounds. With block size 4, the block numbers 0 and
`2^62` are distinct and not negative, but the `int64` product `2^62 * 4` wraps to 0:
page `[1, 2, 3, 4]` is written to block 0, page `[5, 6, 7, 8]` to block `2^62`, both
with success, and block 0 then reads as `[5, 6, 7, 8]`. With block size `2^30 + 1`, a
page of bytes 1 is written to block 0 and a page of bytes 2 to block 1; `Read` of block 0
into a page of bytes 0 returns no error and leaves the last byte 0, not 1, because it
moves `2^30` bytes only. -/
theorem Write_frame_counterexample :
    ((testManager.Write testWorld ⟨"testfile", 0⟩ ⟨[1, 2, 3, 4]⟩).err = none ∧
      ((testManager.Write testWorld ⟨"testfile", 0⟩ ⟨[1, 2, 3, 4]⟩).fm.Write
          (testManager.Write testWorld ⟨"testfile", 0⟩ ⟨[1, 2, 3, 4]⟩).world
          ⟨"testfile", 4611686018427387904⟩ ⟨[5, 6, 7, 8]⟩).err = none ∧
      (((testManager.Write testWorld ⟨"testfile", 0⟩ ⟨[1, 2, 3, 4]⟩).fm.Write
          (testManager.Write testWorld ⟨"testfile", 0⟩ ⟨[1, 2, 3, 4]⟩).world
          ⟨"testfile", 4611686018427387904⟩ ⟨[5, 6, 7, 8]⟩).fm.Read
        ((testManager.Write testWorld ⟨"testfile", 0⟩ ⟨[1, 2, 3, 4]⟩).fm.Write
          (testManager.Write testWorld ⟨"testfile", 0⟩ ⟨[1, 2, 3, 4]⟩).world
          ⟨"testfile", 4611686018427387904⟩ ⟨[5, 6, 7, 8]⟩).world ⟨"testfile", 0⟩
        ⟨[0, 0, 0, 0]⟩).page.buffer = [5, 6, 7, 8]) ∧
    (((FileManager.mk ["db"] 1073741825 []).Write testWorld ⟨"testfile", 0⟩
        ⟨List.replicate 1073741825 1⟩).err = none ∧
      (((FileManager.mk ["db"] 1073741825 []).Write testWorld ⟨"testfile", 0⟩
          ⟨List.replicate 1073741825 1⟩).fm.Write
        ((FileManager.mk ["db"] 1073741825 []).Write testWorld ⟨"testfile", 0⟩
          ⟨List.replicate 1073741825 1⟩).world
        ⟨"testfile", 1⟩ ⟨List.replicate 1073741825 2⟩).err = none ∧
      ((((FileManager.mk ["db"] 1073741825 []).Write testWorld ⟨"testfile", 0⟩
            ⟨List.replicate 1073741825 1⟩).fm.Write
          ((FileManager.mk ["db"] 1073741825 []).Write testWorld ⟨"testfile", 0⟩
            ⟨List.replicate 1073741825 1⟩).world
          ⟨"testfile", 1⟩ ⟨List.replicate 1073741825 2⟩).fm.Read
        (((FileManager.mk ["db"] 1073741825 []).Write testWorld ⟨"testfile", 0⟩
            ⟨List.replicate 1073741825 1⟩).fm.Write
          ((FileManager.mk ["db"] 1073741825 []).Write testWorld ⟨"testfile", 0⟩
            ⟨List.replicate 1073741825 1⟩).world
          ⟨"testfile", 1⟩ ⟨List.replicate 1073741825 2⟩).world ⟨"testfile", 0⟩
        ⟨List.replicate 1073741825 0⟩).err = none ∧
      ((((FileManager.mk ["db"] 1073741825 []).Write testWorld ⟨"testfile", 0⟩
            ⟨List.replicate 1073741825 1⟩).fm.Write
          ((FileManager.mk ["db"] 1073741825 []).Write testWorld ⟨"testfile", 0⟩
            ⟨List.replicate 1073741825 1⟩).world
          ⟨"testfile", 1⟩ ⟨List.replicate 1073741825 2⟩).fm.Read
        (((FileManager.mk ["db"] 1073741825 []).Write testWorld ⟨"testfile", 0⟩
            ⟨List.replicate 1073741825 1⟩).fm.Write
          ((FileManager.mk ["db"] 1073741825 []).Write testWorld ⟨"testfile", 0⟩
            ⟨List.replicate 1073741825 1⟩).world
          ⟨"testfile", 1⟩ ⟨List.replicate 1073741825 2⟩).world ⟨"testfile", 0⟩
        ⟨List.replicate 1073741825 0⟩).page.buffer[1073741824]? = some 0 ∧
      (Page.mk (List.replicate 1073741825 1)).buffer[1073741824]? = some 1) := by
  have hlen : ∀ a : Nat, (Page.mk (List.replicate 1073741825 a)).buffer.length ≠ 0 := by
    intro a
    show (List.replicate 1073741825 a).length ≠ 0
    rw [List.length_replicate]; decide
  obtain ⟨h1, h2, h3, h4⟩ := frame_short 1073741825 ⟨List.replicate 1073741825 1⟩
    ⟨List.replicate 1073741825 2⟩ ⟨List.replicate 1073741825 0⟩ 1073741824 (by decide)
    (by decide) (by decide) (hlen 2) (hlen 0)
  refine ⟨by decide, h1, h2, h3, ?_, ?_⟩
  · rw [h4]
    show (List.replicate 1073741825 0)[1073741824]? = some 0
    rw [List.getElem?_replicate, if_pos (by decide)]
  · show (List.replicate 1073741825 1)[1073741824]? = some 1
    rw [List.getElem?_replicate, if_pos (by decide)]

/-! ## Two callers: the statements one by one -/

theorem nextPc_eq (pc : Nat) (h : pc < 3) : nextPc pc = pc + 1 := by
  simp only [nextPc, h, if_true]

/-- Three statements of one caller, run from its start, perform `Write`. -/
theorem call_eq_Write (fm : FileManager) (w : World) (blk : BlockID) (page : Page) :
    ((((Caller.start blk page).step ⟨w, fm⟩).1.step
        ((Caller.start blk page).step ⟨w, fm⟩).2).1.step
      (((Caller.start blk page).step ⟨w, fm⟩).1.step
        ((Caller.start blk page).step ⟨w, fm⟩).2).2).2 =
        ⟨(fm.Write w blk page).world, (fm.Write w blk page).fm⟩ ∧
    ((((Caller.start blk page).step ⟨w, fm⟩).1.step
        ((Caller.start blk page).step ⟨w, fm⟩).2).1.step
      (((Caller.start blk page).step ⟨w, fm⟩).1.step
        ((Caller.start blk page).step ⟨w, fm⟩).2).2).1.err = (fm.Write w blk page).err ∧
    ((((Caller.start blk page).step ⟨w, fm⟩).1.step
        ((Caller.start blk page).step ⟨w, fm⟩).2).1.step
      (((Caller.start blk page).step ⟨w, fm⟩).1.step
        ((Caller.start blk page).step ⟨w, fm⟩).2).2).1.pc = 3 := by
  unfold FileManager.Write
  rcases ho : fm.openFile w blk.fileName with ⟨w1, fm1, e | file⟩
  · simp only [Caller.step, Caller.start, ho]
    exact ⟨trivial, trivial, trivial⟩
  · obtain ⟨_, hbs, _⟩ := openFile_ok fm w _ w1 fm1 file ho
    rcases hs : w1.seek file (wrap64 (blk.blkNum * fm.blockSize)) with ⟨w2, e | pos⟩
    · simp only [Caller.step, Caller.start, ho, hbs, hs]
      exact ⟨trivial, trivial, trivial⟩
    · rcases hw : w2.write file page.buffer with ⟨w3, n, e | _⟩
      · simp only [Caller.step, Caller.start, ho, hbs, hs, hw]
        exact ⟨trivial, trivial, trivial⟩
      · simp only [Caller.step, Caller.start, ho, hbs, hs, hw]
        exact ⟨trivial, trivial, trivial⟩


end simpledb
